import Mathlib

/-!
# A verification model of the jotai dependency-tracking store

This file gives a shallow embedding, in Lean, of the store implementation found
in `src/unnamed/part_001` (the "vanilla" store: `buildStore`/`createStore`), of
the continuable-promise abstraction of the same file, and of the write-queuing
logic of the older core in `src/unnamed/part_003`.  Theorems below settle the
frozen claims C1..C10 against these definitions.

Modelling conventions:
* Atoms are identified by natural numbers (`AtomId`); atom values and thrown
  user errors are natural numbers (`Object.is` on the primitive values used by
  the claims coincides with equality).
* The store's mutable `WeakMap` of atom states is a total function
  `AtomId → AtomSt`; a missing record is identified with the freshly created
  record `{ d: new Map(), p: new Set(), n: 0 }` of `createStore`, which is
  exactly what `getAtomState` would create on first access.
* JavaScript `Map`s and `Set`s are insertion-ordered association lists / lists
  without duplicates, with the same update behaviour (`Map.set` updates in
  place, `Set.add` appends if absent).
* All mutation is threaded through an explicit state `S` (store, the current
  `Pending` object, and a ghost instrumentation log recording read invocations,
  listener notifications, setter calls, and lifecycle hooks).
* Recursion through the dependency graph is fuel-indexed; running out of fuel
  yields `none`.  All theorems about runs are stated for successful runs, with
  concrete witnesses showing the runs succeed.
* The embedding covers the synchronous fragment of `part_001`: atom reads and
  writes that do not return promises.  On this fragment
  `isPromiseLike`/`getPendingContinuablePromise` are constantly false/null, the
  `isSync` flags are constantly true, and the promise branches of
  `setAtomStateValueOrPromise` are unreachable; the promise machinery itself is
  modelled separately in namespace `CProm` below.
-/

namespace Jotai

abbrev AtomId := Nat

/-- Errors that can be thrown through the store: user errors thrown by `read`
functions, the `'atom not writable'` error of `writeAtomState`'s setter, the
`'no atom init'` error of `readAtomState`'s getter, and the (dev-only)
`'[Bug] atom state is not initialized'` signal of `returnAtomValue`. -/
inductive JErr where
  | user (e : Nat)
  | notWritable
  | noAtomInit
  | bugUninitialized
deriving DecidableEq, Repr

/-- Deep embedding of (synchronous) atom `read` functions: a `read` either
returns a value, throws an error, or calls `get` on an atom and continues with
the obtained value.  The continuation makes dynamic (value-dependent)
dependencies expressible, as with arbitrary JavaScript read functions. -/
inductive RExp where
  | ret (v : Nat)
  | raise (e : Nat)
  | get (a : AtomId) (k : Nat → RExp)

/-- Deep embedding of (synchronous) atom `write` functions: a `write` returns a
result, or calls the provided getter / setter and continues. -/
inductive WExp where
  | done (r : Nat)
  | getW (a : AtomId) (k : Nat → WExp)
  | setW (a : AtomId) (v : Nat) (k : WExp)

/-- An atom definition: `read` function, optional `init` field (present exactly
for primitive atoms, cf. `hasInitialValue`), optional `write` function
(present exactly for writable atoms, cf. `isActuallyWritableAtom`), and the
`onMount` lifecycle hook (as used by the claims: a hook that does nothing but
optionally return a cleanup function). -/
structure AtomDef where
  read : RExp
  init : Option Nat
  write : Option (Nat → WExp)
  onMount : Bool
  onMountCleanup : Bool

abbrev Env := AtomId → AtomDef

/-- The `Mounted` record of `part_001`: listeners `l`, mounted dependencies
`d`, mounted dependents `t`, and whether an `onUnmount` cleanup `u` is
stored. -/
structure Mounted where
  l : List Nat
  d : List AtomId
  t : List AtomId
  u : Bool
deriving DecidableEq, Repr

/-- The `AtomState` record of `part_001`: dependency map `d` (atom ↦ epoch at
read time), pending-promise dependents `p` (always empty on the synchronous
fragment, but read by `recomputeDependents`), epoch number `n`, optional
mounted state `m`, optional value `v` and optional error `e`. -/
structure AtomSt where
  d : List (AtomId × Nat)
  p : List AtomId
  n : Nat
  m : Option Mounted
  v : Option Nat
  e : Option JErr
deriving DecidableEq, Repr

/-- The state `getAtomState` creates on first access:
`{ d: new Map(), p: new Set(), n: 0 }`. -/
def AtomSt.fresh : AtomSt := ⟨[], [], 0, none, none, none⟩

/-- `isAtomStateInitialized`: `'v' in atomState || 'e' in atomState`. -/
def isAtomStateInitialized (st : AtomSt) : Bool := st.v.isSome || st.e.isSome

/-- `returnAtomValue`: throw the stored error if present, else return the
stored value (the uninitialized case is a dev-only bug signal). -/
def returnAtomValue (st : AtomSt) : Except JErr Nat :=
  match st.e with
  | some err => .error err
  | none =>
    match st.v with
    | some v => .ok v
    | none => .error .bugUninitialized

abbrev Store := AtomId → AtomSt

def upd (σ : Store) (a : AtomId) (st : AtomSt) : Store :=
  fun b => if b = a then st else σ b

/-- `Set.add`: append if absent (JavaScript sets are insertion-ordered). -/
def listAdd (xs : List Nat) (x : Nat) : List Nat :=
  if x ∈ xs then xs else xs ++ [x]

/-- `Map.set`: update the entry in place if the key is present, else append. -/
def mapSet (m : List (AtomId × Nat)) (k v : Nat) : List (AtomId × Nat) :=
  match m with
  | [] => [(k, v)]
  | (k', v') :: rest => if k' = k then (k, v) :: rest else (k', v') :: mapSet rest k v

/-- The deferred functions queued in `pending[2]`: the `onMount` runner queued
by `mountAtom`, and the stored `onUnmount` cleanup queued by `unmountAtom`. -/
inductive PFn where
  | mountHookRun (a : AtomId)
  | unmountHookRun (a : AtomId)
deriving DecidableEq, Repr

/-- The `Pending` triple of `part_001`: `dep` is `pending[0]` (atom ↦ set of
pending dependents), `st` is the key set of `pending[1]` (atoms whose mounted
listeners must be notified; the map values are the live state records, which
live in the store here), `fns` is `pending[2]`. -/
structure Pend where
  dep : List (AtomId × List AtomId)
  st : List AtomId
  fns : List PFn
deriving DecidableEq, Repr

def Pend.empty : Pend := ⟨[], [], []⟩

/-- Ghost instrumentation events: actual invocations of an atom's `read`
function, listener notifications, setter calls inside `write` functions, atoms
added to `recomputeDependents`' changed set, and lifecycle hook runs. -/
inductive Event where
  | readInvoked (a : AtomId)
  | notified (a : AtomId) (l : Nat)
  | setterCall (a : AtomId) (v : Nat)
  | changedMark (a : AtomId)
  | mountHook (a : AtomId)
  | cleanup (a : AtomId)
deriving DecidableEq, Repr

/-- The threaded mutable state: the store's atom-state map, the current
`Pending` object (`none` when a `pending` argument is `undefined`, as in
`readAtom`), and the ghost event log. -/
structure S where
  sto : Store
  pend : Option Pend
  log : List Event

/-- `addPendingAtom`. -/
def addPendingAtom (p : Pend) (a : AtomId) : Pend :=
  { p with
    dep := if (p.dep.lookup a).isSome then p.dep else p.dep ++ [(a, [])]
    st := listAdd p.st a }

/-- `addPendingDependent`: add only when the atom already has an entry in
`pending[0]`. -/
def addPendingDependent (p : Pend) (a dependent : AtomId) : Pend :=
  { p with dep := go p.dep }
where
  go : List (AtomId × List AtomId) → List (AtomId × List AtomId)
    | [] => []
    | (k, xs) :: rest =>
      if k = a then (k, listAdd xs dependent) :: rest else (k, xs) :: go rest

/-- `addPendingFunction`. -/
def addPendFn (s : S) (f : PFn) : S :=
  { s with pend := s.pend.map fun p => { p with fns := p.fns ++ [f] } }

/-- `setAtomStateValueOrPromise`, specialized to non-promise values (the only
case on the synchronous fragment; on it `getPendingContinuablePromise` is
`null` and `isPromiseLike` is false): store the value, delete the error, and
bump the epoch iff there was no previous value or the previous value is not
`Object.is`-identical to the new one. -/
def setAtomStateValueOrPromise (σ : Store) (a : AtomId) (v : Nat) : Store :=
  let prev := (σ a).v
  let st := { σ a with v := some v, e := none }
  let st := if prev = some v then st else { st with n := st.n + 1 }
  upd σ a st

/-- The `catch` branch of `readAtomState` (lines 467..471 of the source):
`delete atomState.v; atomState.e = error; ++atomState.n` — the epoch is bumped
unconditionally on the error path. -/
def setAtomStateError (σ : Store) (a : AtomId) (err : JErr) : Store :=
  upd σ a { σ a with v := none, e := some err, n := (σ a).n + 1 }

/-- `addDependency` (production behaviour; the self-dependency check is
dev-only and the getter never records a self dependency): record the
dependency with the epoch observed on it, add the reader to the dependency's
mounted dependents if the dependency is mounted, and register the reader as a
pending dependent. -/
def addDependency (s : S) (atom dep : AtomId) (depN : Nat) : S :=
  let σ := s.sto
  let σ := upd σ atom { σ atom with d := mapSet (σ atom).d dep depN }
  let σ :=
    match (σ dep).m with
    | some mm => upd σ dep { σ dep with m := some { mm with t := listAdd mm.t atom } }
    | none => σ
  { s with sto := σ, pend := s.pend.map fun p => addPendingDependent p dep atom }

/-- Whether `force?.(atom)` holds: the `force` argument of `readAtomState` is
`isMarked = (a) => markedAtoms.has(a)` (or absent), so it is determined by the
current marked set. -/
def isForced (force : Option (List AtomId)) (a : AtomId) : Bool :=
  match force with
  | some marked => decide (a ∈ marked)
  | none => false

/-- One atom's listener notifications during `flushPending`
(`atomState.m?.l.forEach((l) => l())`); the modelled listeners are pure
observers, recorded in the ghost log. -/
def notifyAtom (σ : Store) (log : List Event) (a : AtomId) : List Event :=
  match (σ a).m with
  | some mm => log ++ mm.l.map (Event.notified a)
  | none => log

/-- Run a deferred function from `pending[2]`: the `onMount` runner invokes the
hook and stores the returned cleanup in `mounted.u`; the `onUnmount` runner
invokes the stored cleanup.  (The modelled hooks perform no store

operations themselves.) -/
def runPFn (E : Env) (s : S) : PFn → S
  | .mountHookRun a =>
    let s := { s with log := s.log ++ [Event.mountHook a] }
    if (E a).onMountCleanup then
      match (s.sto a).m with
      | some mm => { s with sto := upd s.sto a { s.sto a with m := some { mm with u := true } } }
      | none => s
    else s
  | .unmountHookRun a => { s with log := s.log ++ [Event.cleanup a] }

/-- `flushPending`: loop while `pending[1]` or `pending[2]` is non-empty; each
round clears `pending[0]`, snapshots and clears `pending[1]` and `pending[2]`,
notifies the snapshotted atoms' current listeners, then runs the snapshotted
functions. -/
def flushPending (E : Env) : Nat → S → Option S
  | 0, _ => none
  | fuel + 1, s =>
    match s.pend with
    | none => some s
    | some p =>
      if p.st.isEmpty && p.fns.isEmpty then some s
      else
        let atoms := p.st
        let fns := p.fns
        let s := { s with pend := some Pend.empty }
        let s := { s with log := atoms.foldl (notifyAtom s.sto) s.log }
        let s := fns.foldl (runPFn E) s
        flushPending E fuel s

/-- `getDependents` inside `recomputeDependents`: the mounted dependents `t`,
then the pending-promise dependents `p`, then the pending dependents recorded
in `pending[0]`, as one deduplicated insertion-ordered set. -/
def getDependents (s : S) (a : AtomId) : List AtomId :=
  let base := match (s.sto a).m with | some mm => mm.t | none => []
  let base := (s.sto a).p.foldl listAdd base
  match s.pend with
  | some p => (((p.dep.lookup a).getD []).foldl listAdd base)
  | none => base

mutual
/-- Step 1 of `recomputeDependents`: depth-first `visit` building the
postorder list `topsortedAtoms` (`acc`) and the set `markedAtoms`
(`marked`). -/
def visit (deps : AtomId → List AtomId) :
    Nat → AtomId → List AtomId × List AtomId → Option (List AtomId × List AtomId)
  | 0, _, _ => none
  | fuel + 1, a, (marked, acc) =>
    if a ∈ marked then some (marked, acc)
    else
      match visitList deps fuel a (deps a) (marked ++ [a], acc) with
      | none => none
      | some (marked', acc') => some (marked', acc' ++ [a])

/-- The `for (const m of dependents) if (n !== m) visit(m)` loop of `visit`. -/
def visitList (deps : AtomId → List AtomId) :
    Nat → AtomId → List AtomId → List AtomId × List AtomId →
    Option (List AtomId × List AtomId)
  | 0, _, _, _ => none
  | _ + 1, _, [], ma => some ma
  | fuel + 1, a, b :: rest, ma =>
    if a = b then visitList deps fuel a rest ma
    else
      match visit deps fuel b ma with
      | none => none
      | some ma' => visitList deps fuel a rest ma'
end

mutual

/-- `readAtomState` (synchronous fragment).  If not forced and initialized:
return the cached state when mounted, or when every recorded dependency, read
recursively, still has its recorded epoch.  Otherwise clear the recorded
dependencies and recompute by running the atom's `read` function, storing the
resulting value (or caught error). -/
def readAtomState (E : Env) :
    Nat → Option (List AtomId) → AtomId → S → Option (AtomSt × S)
  | 0, _, _, _ => none
  | fuel + 1, force, a, s =>
    let st := s.sto a
    if !isForced force a && isAtomStateInitialized st then
      if st.m.isSome then some (st, s)
      else
        match checkDeps E fuel force st.d s with
        | none => none
        | some (true, s') => some (s'.sto a, s')
        | some (false, s') => computeAtomState E fuel force a s'
    else computeAtomState E fuel force a s

/-- The `Array.from(atomState.d).every(([a, n]) => readAtomState(...).n === n)`
check of `readAtomState` (short-circuiting, with all side effects of the
recursive reads). -/
def checkDeps (E : Env) :
    Nat → Option (List AtomId) → List (AtomId × Nat) → S → Option (Bool × S)
  | 0, _, _, _ => none
  | _ + 1, _, [], s => some (true, s)
  | fuel + 1, force, (b, nb) :: rest, s =>
    match readAtomState E fuel force b s with
    | none => none
    | some (bst, s') =>
      if bst.n = nb then checkDeps E fuel force rest s'
      else some (false, s')

/-- The recompute part of `readAtomState`: clear `atomState.d`, run the `read`
function with the tracking getter, and store the result via
`setAtomStateValueOrPromise` (value) or the `catch` branch (error). -/
def computeAtomState (E : Env) :
    Nat → Option (List AtomId) → AtomId → S → Option (AtomSt × S)
  | 0, _, _, _ => none
  | fuel + 1, force, a, s =>
    let s := { s with sto := upd s.sto a { s.sto a with d := [] } }
    let s := { s with log := s.log ++ [Event.readInvoked a] }
    match evalRead E fuel force a (E a).read s with
    | none => none
    | some (.ok v, s') =>
      let s' := { s' with sto := setAtomStateValueOrPromise s'.sto a v }
      some (s'.sto a, s')
    | some (.error err, s') =>
      let s' := { s' with sto := setAtomStateError s'.sto a err }
      some (s'.sto a, s')

/-- Evaluation of a `read` body against the tracking getter of
`readAtomState` (`isSync` is true throughout on the synchronous fragment).
Reading the atom itself initializes it from `init` if needed (throwing
`'no atom init'` when there is none) and does not record a dependency; reading
another atom reads it recursively, records the dependency, and returns its
value or rethrows its stored error. -/
def evalRead (E : Env) :
    Nat → Option (List AtomId) → AtomId → RExp → S → Option (Except JErr Nat × S)
  | 0, _, _, _, _ => none
  | fuel + 1, force, self, body, s =>
    match body with
    | .ret v => some (.ok v, s)
    | .raise e => some (.error (.user e), s)
    | .get b k =>
      if b = self then
        let st := s.sto b
        if isAtomStateInitialized st then
          match returnAtomValue st with
          | .error e => some (.error e, s)
          | .ok v => evalRead E fuel force self (k v) s
        else
          match (E b).init with
          | some i =>
            let s := { s with sto := setAtomStateValueOrPromise s.sto b i }
            match returnAtomValue (s.sto b) with
            | .error e => some (.error e, s)
            | .ok v => evalRead E fuel force self (k v) s
          | none => some (.error .noAtomInit, s)
      else
        match readAtomState E fuel force b s with
        | none => none
        | some (bst, s') =>
          let s' := addDependency s' self b bst.n
          match returnAtomValue bst with
          | .error e => some (.error e, s')
          | .ok v => evalRead E fuel force self (k v) s'

/-- `mountAtom`: if not mounted, recompute the atom state, mount the
dependencies first (adding the atom to each dependency's mounted dependents),
construct the `Mounted` record, and queue the `onMount` runner for writable
atoms with a hook. -/
def mountAtom (E : Env) : Nat → AtomId → S → Option (Mounted × S)
  | 0, _, _ => none
  | fuel + 1, a, s =>
    match (s.sto a).m with
    | some mm => some (mm, s)
    | none =>
      match readAtomState E fuel none a s with
      | none => none
      | some (_, s₁) =>
        match mountDepsList E fuel a ((s₁.sto a).d.map Prod.fst) s₁ with
        | none => none
        | some s₂ =>
          let mm : Mounted := ⟨[], (s₂.sto a).d.map Prod.fst, [], false⟩
          let s₃ := { s₂ with sto := upd s₂.sto a { s₂.sto a with m := some mm } }
          let s₄ :=
            if (E a).write.isSome && (E a).onMount then
              addPendFn s₃ (.mountHookRun a)
            else s₃
          some (mm, s₄)

/-- The `for (const a of atomState.d.keys())` loop of `mountAtom`:
`mountAtom(a); aMounted.t.add(atom)`. -/
def mountDepsList (E : Env) : Nat → AtomId → List AtomId → S → Option S
  | 0, _, _, _ => none
  | _ + 1, _, [], s => some s
  | fuel + 1, a, b :: rest, s =>
    match mountAtom E fuel b s with
    | none => none
    | some (_, s') =>
      let s' :=
        match (s'.sto b).m with
        | some mm =>
          { s' with sto := upd s'.sto b { s'.sto b with m := some { mm with t := listAdd mm.t a } } }
        | none => s'
      mountDepsList E fuel a rest s'

/-- `unmountAtom`: unmount when mounted with no listeners and no mounted
dependent; queue the stored cleanup, delete the mounted record, then consider
each recorded dependency for unmounting.  Returns the (possibly surviving)
mounted record, as the source does. -/
def unmountAtom (E : Env) : Nat → AtomId → S → Option (Option Mounted × S)
  | 0, _, _ => none
  | fuel + 1, a, s =>
    match (s.sto a).m with
    | none => some (none, s)
    | some mm =>
      if mm.l.isEmpty && !(mm.t.any fun x => (s.sto x).m.isSome) then
        let s₁ := if mm.u then addPendFn s (.unmountHookRun a) else s
        let s₂ := { s₁ with sto := upd s₁.sto a { s₁.sto a with m := none } }
        match unmountDepsList E fuel a ((s.sto a).d.map Prod.fst) s₂ with
        | none => none
        | some s₃ => some (none, s₃)
      else some (some mm, s)

/-- The `for (const a of atomState.d.keys())` loop of `unmountAtom`:
`unmountAtom(a)?.t.delete(atom)`. -/
def unmountDepsList (E : Env) : Nat → AtomId → List AtomId → S → Option S
  | 0, _, _, _ => none
  | _ + 1, _, [], s => some s
  | fuel + 1, a, b :: rest, s =>
    match unmountAtom E fuel b s with
    | none => none
    | some (res, s') =>
      let s' :=
        match res with
        | some _ =>
          match (s'.sto b).m with
          | some mm =>
            { s' with sto := upd s'.sto b { s'.sto b with m := some { mm with t := mm.t.erase a } } }
          | none => s'
        | none => s'
      unmountDepsList E fuel a rest s'

/-- `mountDependencies` (synchronous fragment: no pending continuable
promise): for a mounted atom, mount recorded dependencies that are not yet in
`m.d`, then unmount members of `m.d` that are no longer recorded
dependencies. -/
def mountDependencies (E : Env) : Nat → AtomId → S → Option S
  | 0, _, _ => none
  | fuel + 1, a, s =>
    match (s.sto a).m with
    | none => some s
    | some _ =>
      match mdAdd E fuel a ((s.sto a).d.map Prod.fst) s with
      | none => none
      | some s₁ =>
        match (s₁.sto a).m with
        | some mm₁ => mdRemove E fuel a mm₁.d s₁
        | none => some s₁

/-- First loop of `mountDependencies`: for each recorded dependency not in
`m.d`, `mountAtom` it, add the atom to its mounted dependents, and add it to
`m.d`. -/
def mdAdd (E : Env) : Nat → AtomId → List AtomId → S → Option S
  | 0, _, _, _ => none
  | _ + 1, _, [], s => some s
  | fuel + 1, a, b :: rest, s =>
    match (s.sto a).m with
    | none => mdAdd E fuel a rest s
    | some mm =>
      if b ∈ mm.d then mdAdd E fuel a rest s
      else
        match mountAtom E fuel b s with
        | none => none
        | some (_, s') =>
          let s' :=
            match (s'.sto b).m with
            | some bm =>
              { s' with sto := upd s'.sto b { s'.sto b with m := some { bm with t := listAdd bm.t a } } }
            | none => s'
          let s' :=
            match (s'.sto a).m with
            | some am =>
              { s' with sto := upd s'.sto a { s'.sto a with m := some { am with d := listAdd am.d b } } }
            | none => s'
          mdAdd E fuel a rest s'

/-- Second loop of `mountDependencies`: for each member of `m.d` that is no
longer a recorded dependency, `unmountAtom` it, remove the atom from its
mounted dependents, and remove it from `m.d`. -/
def mdRemove (E : Env) : Nat → AtomId → List AtomId → S → Option S
  | 0, _, _, _ => none
  | _ + 1, _, [], s => some s
  | fuel + 1, a, b :: rest, s =>
    if (s.sto a).d.any fun bd => bd.1 = b then mdRemove E fuel a rest s
    else
      match unmountAtom E fuel b s with
      | none => none
      | some (res, s') =>
        let s' :=
          match res with
          | some _ =>
            match (s'.sto b).m with
            | some bm =>
              { s' with sto := upd s'.sto b { s'.sto b with m := some { bm with t := bm.t.erase a } } }
            | none => s'
          | none => s'
        let s' :=
          match (s'.sto a).m with
          | some am =>
            { s' with sto := upd s'.sto a { s'.sto a with m := some { am with d := am.d.erase b } } }
          | none => s'
        mdRemove E fuel a rest s'

/-- `recomputeDependents`: build the topologically sorted atom list by
depth-first search from the written atom over the dependent edges, then
process it in reverse order, recomputing exactly the atoms with a changed
recorded dependency and extending the changed set when the epoch advanced. -/
def recomputeDependents (E : Env) : Nat → AtomId → S → Option S
  | 0, _, _ => none
  | fuel + 1, a, s =>
    match visit (getDependents s) fuel a ([], []) with
    | none => none
    | some (marked, acc) => recomputeLoop E fuel acc.reverse marked [a] s

/-- Step 2 of `recomputeDependents`: iterate the topsorted list in reverse;
an atom with a changed recorded dependency is recomputed (with
`force = isMarked`), its dependencies remounted, and it is added to the
pending and changed sets if its epoch advanced; the atom is unmarked either
way. -/
def recomputeLoop (E : Env) :
    Nat → List AtomId → List AtomId → List AtomId → S → Option S
  | 0, _, _, _, _ => none
  | _ + 1, [], _, _, s => some s
  | fuel + 1, a :: rest, marked, changed, s =>
    let st := s.sto a
    let prevN := st.n
    if st.d.any fun bd => decide (bd.1 ≠ a ∧ bd.1 ∈ changed) then
      match readAtomState E fuel (some marked) a s with
      | none => none
      | some (_, s₁) =>
        match mountDependencies E fuel a s₁ with
        | none => none
        | some s₂ =>
          if prevN ≠ (s₂.sto a).n then
            let s₃ :=
              { s₂ with
                pend := s₂.pend.map fun p => addPendingAtom p a
                log := s₂.log ++ [Event.changedMark a] }
            recomputeLoop E fuel rest (marked.erase a) (changed ++ [a]) s₃
          else recomputeLoop E fuel rest (marked.erase a) changed s₂
    else recomputeLoop E fuel rest (marked.erase a) changed s

/-- `writeAtomState`: run the atom's `write` function with the store getter
and setter.  (Calling it on an atom without a `write` function is a type
error in the source and is not modelled.) -/
def writeAtomState (E : Env) : Nat → AtomId → Nat → S → Option (Except JErr Nat × S)
  | 0, _, _, _ => none
  | fuel + 1, a, arg, s =>
    match (E a).write with
    | none => none
    | some wb => evalWrite E fuel a (wb arg) s

/-- Evaluation of a `write` body against the getter/setter of
`writeAtomState`.  The getter is `returnAtomValue(readAtomState(pending, a))`.
The setter targeting the written atom itself requires an `init` field
(else it throws `'atom not writable'`), stores the value, remounts
dependencies, and on an `Object.is`-change registers the atom as pending and
recomputes its dependents; targeting another atom recurses into
`writeAtomState`.  Every setter call ends with `flushPending` (unless it
threw). -/
def evalWrite (E : Env) : Nat → AtomId → WExp → S → Option (Except JErr Nat × S)
  | 0, _, _, _ => none
  | fuel + 1, self, body, s =>
    match body with
    | .done r => some (.ok r, s)
    | .getW b k =>
      match readAtomState E fuel none b s with
      | none => none
      | some (bst, s') =>
        match returnAtomValue bst with
        | .error e => some (.error e, s')
        | .ok v => evalWrite E fuel self (k v) s'
    | .setW b v k =>
      let s := { s with log := s.log ++ [Event.setterCall b v] }
      if b = self then
        if (E b).init.isNone then some (.error .notWritable, s)
        else
          let prev := (s.sto b).v
          let s₁ := { s with sto := setAtomStateValueOrPromise s.sto b v }
          match mountDependencies E fuel b s₁ with
          | none => none
          | some s₂ =>
            match
              (if prev = some v then some s₂
               else
                 let s₃ := { s₂ with pend := s₂.pend.map fun p => addPendingAtom p b }
                 recomputeDependents E fuel b s₃)
            with
            | none => none
            | some s₄ =>
              match flushPending E fuel s₄ with
              | none => none
              | some s₅ => evalWrite E fuel self k s₅
      else
        match writeAtomState E fuel b v s with
        | none => none
        | some (.error e, s') => some (.error e, s')
        | some (.ok _, s') =>
          match flushPending E fuel s' with
          | none => none
          | some s'' => evalWrite E fuel self k s''

end

/-- `readAtom` (`store.get`): read with no pending object and return the value
or throw. -/
def readAtom (E : Env) (fuel : Nat) (a : AtomId) (s : S) :
    Option (Except JErr Nat × S) :=
  let s := { s with pend := none }
  (readAtomState E fuel none a s).map fun r => (returnAtomValue r.1, r.2)

/-- `writeAtom` (`store.set`): create a fresh pending object, run
`writeAtomState`, and flush (not flushed when the write threw, as in the
source). -/
def writeAtom (E : Env) (fuel : Nat) (a : AtomId) (arg : Nat) (s : S) :
    Option (Except JErr Nat × S) :=
  let s := { s with pend := some Pend.empty }
  match writeAtomState E fuel a arg s with
  | none => none
  | some (.error e, s') => some (.error e, s')
  | some (.ok r, s') => (flushPending E fuel s').map fun s'' => (.ok r, s'')

/-- `subscribeAtom` (`store.sub`): mount the atom, flush, then add the
listener to the mounted record. -/
def subscribeAtom (E : Env) (fuel : Nat) (a : AtomId) (ℓ : Nat) (s : S) :
    Option S :=
  let s := { s with pend := some Pend.empty }
  match mountAtom E fuel a s with
  | none => none
  | some (_, s₁) =>
    match flushPending E fuel s₁ with
    | none => none
    | some s₂ =>
      match (s₂.sto a).m with
      | some mm =>
        some { s₂ with sto := upd s₂.sto a { s₂.sto a with m := some { mm with l := listAdd mm.l ℓ } } }
      | none => some s₂

/-- The unsubscribe closure returned by `subscribeAtom`: remove the listener,
unmount the atom, flush. -/
def unsubscribeAtom (E : Env) (fuel : Nat) (a : AtomId) (ℓ : Nat) (s : S) :
    Option S :=
  let s :=
    match (s.sto a).m with
    | some mm => { s with sto := upd s.sto a { s.sto a with m := some { mm with l := mm.l.erase ℓ } } }
    | none => s
  let s := { s with pend := some Pend.empty }
  match unmountAtom E fuel a s with
  | none => none
  | some (_, s') => flushPending E fuel s'

/-- Modelled from the spec: the primitive-atom constructor (`atom(init)` of
the atom module, which is not part of the corpus).  Per §3 of the spec a
primitive cell holds `init`, its `read` returns its own current value
(`get(self)`), and its `write` stores the single written value into itself
(`set(self, arg)`). -/
def primAtom (self : AtomId) (i : Nat) : AtomDef :=
  { read := .get self .ret
    init := some i
    write := some fun v => .setW self v (.done 0)
    onMount := false
    onMountCleanup := false }

/-- A derived read-only atom. -/
def derivedAtom (body : RExp) : AtomDef :=
  { read := body, init := none, write := none, onMount := false, onMountCleanup := false }

/-- The empty initial state of a fresh store. -/
def S0 : S := ⟨fun _ => AtomSt.fresh, none, []⟩

/-- Run helpers: the state after a successful operation (and the input state
after a failed one; the theorems using these also pin down the operations'
results where it matters). -/
def afterRead (E : Env) (fuel a : Nat) (s : S) : S :=
  match readAtom E fuel a s with | some (_, s') => s' | none => s

def afterWrite (E : Env) (fuel a v : Nat) (s : S) : S :=
  match writeAtom E fuel a v s with | some (_, s') => s' | none => s

def afterSub (E : Env) (fuel a ℓ : Nat) (s : S) : S :=
  match subscribeAtom E fuel a ℓ s with | some s' => s' | none => s

def afterUnsub (E : Env) (fuel a ℓ : Nat) (s : S) : S :=
  match unsubscribeAtom E fuel a ℓ s with | some s' => s' | none => s

theorem upd_self (σ : Store) (a : AtomId) : upd σ a (σ a) = σ := by
  funext b; unfold upd; split <;> simp_all

theorem upd_get (σ : Store) (a : AtomId) (st : AtomSt) : upd σ a st a = st := by
  simp [upd]

/-- Writing a value identical to the stored one does not change the state
record at all (no epoch bump, no field change). -/
theorem setValue_self (σ : Store) (a : AtomId) (x : Nat)
    (hv : (σ a).v = some x) (he : (σ a).e = none) :
    setAtomStateValueOrPromise σ a x = σ := by
  unfold setAtomStateValueOrPromise
  simp only [hv, if_pos rfl]
  rw [show { σ a with v := some x, e := none } = σ a by rw [← hv, ← he]]
  exact upd_self σ a

/-! ## Claim C5: epoch bumps on value and error updates -/

/-- Scenario for the C5 counterexample: atom 0 is primitive with init 0; atom 1
reads atom 0 and then always throws the (reference-identical) error `7`. -/
def E5 : Env := fun a =>
  if a = 0 then primAtom 0 0
  else if a = 1 then derivedAtom (.get 0 fun _ => .raise 7)
  else primAtom a 0

/-- **C5, counterexample.**  The claim states that the epoch is bumped iff the
new result is not reference-identical to the previous one, "and this holds on
the error path as well".  In the code the error path (`catch` branch of
`readAtomState`) bumps the epoch unconditionally: atom 1 computes the error
`7` (epoch 1); after its dependency changes, it is recomputed, throws the
identical error `7` again, and its epoch nevertheless advances to 2. -/
theorem c5_error_epoch_counterexample :
    ((afterRead E5 20 1 S0).sto 1).e = some (.user 7)
    ∧ ((afterRead E5 20 1 S0).sto 1).n = 1
    ∧ ((afterRead E5 20 1 (afterWrite E5 30 0 5 (afterRead E5 20 1 S0))).sto 1).e
        = some (.user 7)
    ∧ (afterRead E5 20 1 (afterWrite E5 30 0 5 (afterRead E5 20 1 S0))).log.count
        (Event.readInvoked 1) = 2
    ∧ ((afterRead E5 20 1 (afterWrite E5 30 0 5 (afterRead E5 20 1 S0))).sto 1).n = 2 := by
  decide

/-- **C5, amended.**  On the value path
(`setAtomStateValueOrPromise`), the epoch is incremented by exactly one iff
the new value is not `Object.is`-identical to the previous one (in particular
a recomputation producing a reference-equal value leaves the epoch unchanged);
on the error path (the `catch` branch of `readAtomState`, embedded as
`setAtomStateError`) the epoch is always incremented by exactly one, even when
the stored error is identical to the previous one. -/
theorem c5_epoch_bump_amended (σ : Store) (a : AtomId) (v : Nat) (err : JErr) :
    ((setAtomStateValueOrPromise σ a v) a).n
        = (if (σ a).v = some v then (σ a).n else (σ a).n + 1)
    ∧ ((setAtomStateError σ a err) a).n = (σ a).n + 1 := by
  refine ⟨?_, ?_⟩
  · unfold setAtomStateValueOrPromise
    split <;> simp_all [upd_get]
  · unfold setAtomStateError
    simp [upd_get]

/-! ## Claim C9: writing an identical value to a primitive atom is a no-op -/

/-- **C9.**  Writing a value `Object.is`-identical to the current one to a
primitive atom leaves the entire store untouched: the write returns normally,
the store map is unchanged (so the epoch is unchanged and no dependent is
recomputed), and the only new event is the setter call itself (no read is
invoked, no listener is notified). -/
theorem c9_identical_write_noop (E : Env) (fuel : Nat) (a : AtomId) (x i : Nat) (s : S)
    (hw : E a = primAtom a i)
    (hv : (s.sto a).v = some x)
    (he : (s.sto a).e = none)
    (hd : (s.sto a).d = [])
    (hm : ∀ mm, (s.sto a).m = some mm → mm.d = []) :
    writeAtom E (fuel + 4) a x s =
      some (.ok 0, { s with pend := some Pend.empty
                            log := s.log ++ [Event.setterCall a x] }) := by
  have hset := setValue_self
    (σ := (⟨s.sto, some Pend.empty, s.log ++ [Event.setterCall a x]⟩ : S).sto) a x hv he
  simp only [writeAtom, writeAtomState, hw, primAtom, evalWrite]
  simp only [if_pos rfl, Option.isNone_some, Bool.false_eq_true, if_false, hset, hv, if_pos rfl]
  cases hmm : s.sto a |>.m with
  | none =>
    simp [mountDependencies, hmm, flushPending, Pend.empty]
  | some mm =>
    have hmd : mm.d = [] := hm mm hmm
    simp [mountDependencies, hmm, hd, mdAdd, mdRemove, hmd, flushPending, Pend.empty]

/-- **C9, witness.** -/
theorem c9_identical_write_noop_witness :
    (let E : Env := fun _ => primAtom 0 7
     let s : S := ⟨upd S0.sto 0 { AtomSt.fresh with v := some 5, n := 1 }, none, []⟩
     writeAtom E 10 0 5 s =
       some (.ok 0, { s with pend := some Pend.empty
                             log := s.log ++ [Event.setterCall 0 5] })) := by
  exact c9_identical_write_noop _ 6 0 5 7 _ rfl (by decide) (by decide) (by decide)
    (by intro mm h; simp [S0, upd, AtomSt.fresh] at h)

/-! ## Claim C10: self-targeting setter on an init-less atom throws -/

/-- **C10.**  For a writable atom without an `init` field (a derived writable
atom), a `write` function whose setter immediately targets the atom itself
makes the write throw the `'atom not writable'` error, and the store (hence
the targeted atom's value and epoch) is unchanged by that setter call: the
only effect of the whole write is the ghost record of the setter call. -/
theorem c10_derived_self_write_throws (E : Env) (fuel : Nat) (a : AtomId)
    (arg v : Nat) (k : WExp) (s : S)
    (hw : (E a).write = some fun _ => .setW a v k)
    (hinit : (E a).init = none) :
    writeAtom E (fuel + 2) a arg s =
      some (.error .notWritable,
            { s with pend := some Pend.empty
                     log := s.log ++ [Event.setterCall a v] }) := by
  simp [writeAtom, writeAtomState, hw, evalWrite, hinit]

/-- **C10, witness.** -/
theorem c10_derived_self_write_throws_witness :
    (let E : Env := fun _ =>
       { read := .ret 0, init := none
         write := some fun _ => .setW 0 4 (.done 0)
         onMount := false, onMountCleanup := false }
     writeAtom E 9 0 4 S0 =
       some (.error .notWritable,
             { S0 with pend := some Pend.empty
                       log := [Event.setterCall 0 4] })) := by
  exact c10_derived_self_write_throws _ 7 0 4 4 (.done 0) S0 rfl rfl

/-! ## Claim C1: diamond dependency -/

/-- A diamond dependency graph over atoms `0 = A`, `1 = B`, `2 = C`, `3 = D`:
`A` is primitive with init `a0`; `B` reads `A` and returns `fB` of it; `C`
reads `A` and returns `fC` of it; `D` reads `B` and `C` and combines them with
`fD`. -/
def Ediamond (a0 : Nat) (fB fC : Nat → Nat) (fD : Nat → Nat → Nat) : Env := fun a =>
  if a = 0 then primAtom 0 a0
  else if a = 1 then derivedAtom (.get 0 fun v => .ret (fB v))
  else if a = 2 then derivedAtom (.get 0 fun v => .ret (fC v))
  else if a = 3 then derivedAtom (.get 1 fun b => .get 2 fun c => .ret (fD b c))
  else primAtom a 0

/-- The store contents after subscribing atom `3 = D` (listener 100) in a
fresh store over `Ediamond`: all four atoms are mounted with the expected
dependency edges, epochs and values. -/
def diamondSt (a0 : Nat) (fB fC : Nat → Nat) (fD : Nat → Nat → Nat) : Store := fun a =>
  match a with
  | 0 => ⟨[], [], 1, some ⟨[], [], [1, 2], false⟩, some a0, none⟩
  | 1 => ⟨[(0, 1)], [], 1, some ⟨[], [0], [3], false⟩, some (fB a0), none⟩
  | 2 => ⟨[(0, 1)], [], 1, some ⟨[], [0], [3], false⟩, some (fC a0), none⟩
  | 3 => ⟨[(1, 1), (2, 1)], [], 1, some ⟨[100], [1, 2], [], false⟩, some (fD (fB a0) (fC a0)), none⟩
  | _ => AtomSt.fresh

set_option maxHeartbeats 1000000 in
/-- Subscribing `D` in a fresh store over the diamond mounts all four atoms
and produces exactly the store `diamondSt` (computing each atom once). -/
theorem diamond_mount_eq (a0 : Nat) (fB fC : Nat → Nat) (fD : Nat → Nat → Nat) :
    afterSub (Ediamond a0 fB fC fD) 40 3 100 S0 =
      ⟨diamondSt a0 fB fC fD, some Pend.empty,
       [Event.readInvoked 3, Event.readInvoked 1, Event.readInvoked 0, Event.readInvoked 2]⟩ := by
  simp [afterSub, subscribeAtom, mountAtom, mountDepsList, S0, Ediamond, readAtomState,
    computeAtomState, evalRead, isForced, isAtomStateInitialized, AtomSt.fresh, primAtom,
    setAtomStateValueOrPromise, returnAtomValue, upd, flushPending,
    Pend.empty, checkDeps, addDependency, mapSet, addPendingDependent, addPendingDependent.go,
    listAdd, derivedAtom]
  funext a
  rcases a with _ | _ | _ | _ | a
  · rfl
  · rfl
  · rfl
  · rfl
  · simp [upd, diamondSt, AtomSt.fresh]

set_option maxHeartbeats 1000000 in
/-- **C1, counterexample.**  In the diamond with `B = fun _ => 7` and
`C = fun _ => 8` (both genuinely read `A`), all four atoms mounted, a write
that changes `A`'s value from 10 to 20 recomputes `B` and `C` to unchanged
values, so `D`'s read is invoked zero times — not "exactly once" as the
claim states. -/
theorem c1_diamond_counterexample :
    (((afterSub (Ediamond 10 (fun _ => 7) (fun _ => 8) fun b c => b + c) 40 3 100 S0).sto 0).m).isSome
    ∧ (((afterSub (Ediamond 10 (fun _ => 7) (fun _ => 8) fun b c => b + c) 40 3 100 S0).sto 1).m).isSome
    ∧ (((afterSub (Ediamond 10 (fun _ => 7) (fun _ => 8) fun b c => b + c) 40 3 100 S0).sto 2).m).isSome
    ∧ (((afterSub (Ediamond 10 (fun _ => 7) (fun _ => 8) fun b c => b + c) 40 3 100 S0).sto 3).m).isSome
    ∧ ((afterSub (Ediamond 10 (fun _ => 7) (fun _ => 8) fun b c => b + c) 40 3 100 S0).sto 0).v = some 10
    ∧ ((afterWrite (Ediamond 10 (fun _ => 7) (fun _ => 8) fun b c => b + c) 60 0 20
          (afterSub (Ediamond 10 (fun _ => 7) (fun _ => 8) fun b c => b + c) 40 3 100 S0)).sto 0).v
        = some 20
    ∧ ((afterWrite (Ediamond 10 (fun _ => 7) (fun _ => 8) fun b c => b + c) 60 0 20
          (afterSub (Ediamond 10 (fun _ => 7) (fun _ => 8) fun b c => b + c) 40 3 100 S0)).log.drop
        (afterSub (Ediamond 10 (fun _ => 7) (fun _ => 8) fun b c => b + c) 40 3 100 S0).log.length).count
        (Event.readInvoked 3) = 0 := by
  rw [diamond_mount_eq]
  refine ⟨rfl, rfl, rfl, rfl, rfl, ?_, ?_⟩ <;>
  · simp [afterWrite, Ediamond, diamondSt, readAtomState,
      computeAtomState, evalRead, isForced, isAtomStateInitialized, AtomSt.fresh, primAtom,
      setAtomStateValueOrPromise, returnAtomValue, upd, flushPending,
      Pend.empty, writeAtom, writeAtomState, evalWrite, mountDependencies, mdAdd, mdRemove,
      addPendingAtom, listAdd, recomputeDependents, visit, visitList, getDependents,
      recomputeLoop, notifyAtom, checkDeps, addDependency, mapSet, addPendingDependent,
      addPendingDependent.go, derivedAtom]

set_option maxHeartbeats 2000000 in
set_option maxRecDepth 4096 in
/-- **C1, amended.**  For every diamond `A → {B, C} → D` with all four atoms
mounted (the state produced by subscribing `D`), a single `store.set` that
changes `A`'s value invokes `D`'s read function *at most* once: exactly once
when recomputing `B` or `C` produces a changed (not `Object.is`-equal) value,
and zero times when both recompute to unchanged values — never twice. -/
theorem c1_diamond_amended (a0 na : Nat) (fB fC : Nat → Nat) (fD : Nat → Nat → Nat)
    (hch : na ≠ a0) :
    ((afterWrite (Ediamond a0 fB fC fD) 60 0 na
        (afterSub (Ediamond a0 fB fC fD) 40 3 100 S0)).log.drop
      (afterSub (Ediamond a0 fB fC fD) 40 3 100 S0).log.length).count
      (Event.readInvoked 3)
      = (if fB na = fB a0 ∧ fC na = fC a0 then 0 else 1) := by
  have hch2 : ¬ (a0 = na) := fun hh => hch hh.symm
  rw [diamond_mount_eq]
  by_cases hb : fB na = fB a0 <;> by_cases hc : fC na = fC a0
  · simp only [hb, hc, and_self, if_true]
    simp [afterWrite, Ediamond, diamondSt, readAtomState,
      computeAtomState, evalRead, isForced, isAtomStateInitialized, AtomSt.fresh, primAtom,
      setAtomStateValueOrPromise, returnAtomValue, upd, flushPending,
      Pend.empty, writeAtom, writeAtomState, evalWrite, mountDependencies, mdAdd, mdRemove,
      addPendingAtom, listAdd, recomputeDependents, visit, visitList, getDependents,
      recomputeLoop, notifyAtom, checkDeps, addDependency, mapSet, addPendingDependent,
      addPendingDependent.go, derivedAtom, hch2, hb, hc]
  · have hc2 : ¬ (fC a0 = fC na) := fun hh => hc hh.symm
    simp only [hb, hc, and_false, if_false]
    by_cases hd : fD (fB a0) (fC a0) = fD (fB a0) (fC na)
    · simp [afterWrite, Ediamond, diamondSt, readAtomState,
      computeAtomState, evalRead, isForced, isAtomStateInitialized, AtomSt.fresh, primAtom,
      setAtomStateValueOrPromise, returnAtomValue, upd, flushPending,
      Pend.empty, writeAtom, writeAtomState, evalWrite, mountDependencies, mdAdd, mdRemove,
      addPendingAtom, listAdd, recomputeDependents, visit, visitList, getDependents,
      recomputeLoop, notifyAtom, checkDeps, addDependency, mapSet, addPendingDependent,
      addPendingDependent.go, derivedAtom, hch2, hb, hc, hc2, hd]
    · have hd2 : ¬ (fD (fB a0) (fC na) = fD (fB a0) (fC a0)) := fun hh => hd hh.symm
      simp [afterWrite, Ediamond, diamondSt, readAtomState,
      computeAtomState, evalRead, isForced, isAtomStateInitialized, AtomSt.fresh, primAtom,
      setAtomStateValueOrPromise, returnAtomValue, upd, flushPending,
      Pend.empty, writeAtom, writeAtomState, evalWrite, mountDependencies, mdAdd, mdRemove,
      addPendingAtom, listAdd, recomputeDependents, visit, visitList, getDependents,
      recomputeLoop, notifyAtom, checkDeps, addDependency, mapSet, addPendingDependent,
      addPendingDependent.go, derivedAtom, hch2, hb, hc, hc2, hd, hd2]
  · have hb2 : ¬ (fB a0 = fB na) := fun hh => hb hh.symm
    simp only [hb, hc, false_and, if_false]
    by_cases hd : fD (fB a0) (fC a0) = fD (fB na) (fC a0)
    · simp [afterWrite, Ediamond, diamondSt, readAtomState,
      computeAtomState, evalRead, isForced, isAtomStateInitialized, AtomSt.fresh, primAtom,
      setAtomStateValueOrPromise, returnAtomValue, upd, flushPending,
      Pend.empty, writeAtom, writeAtomState, evalWrite, mountDependencies, mdAdd, mdRemove,
      addPendingAtom, listAdd, recomputeDependents, visit, visitList, getDependents,
      recomputeLoop, notifyAtom, checkDeps, addDependency, mapSet, addPendingDependent,
      addPendingDependent.go, derivedAtom, hch2, hb, hb2, hc, hd]
    · have hd2 : ¬ (fD (fB na) (fC a0) = fD (fB a0) (fC a0)) := fun hh => hd hh.symm
      simp [afterWrite, Ediamond, diamondSt, readAtomState,
      computeAtomState, evalRead, isForced, isAtomStateInitialized, AtomSt.fresh, primAtom,
      setAtomStateValueOrPromise, returnAtomValue, upd, flushPending,
      Pend.empty, writeAtom, writeAtomState, evalWrite, mountDependencies, mdAdd, mdRemove,
      addPendingAtom, listAdd, recomputeDependents, visit, visitList, getDependents,
      recomputeLoop, notifyAtom, checkDeps, addDependency, mapSet, addPendingDependent,
      addPendingDependent.go, derivedAtom, hch2, hb, hb2, hc, hd, hd2]
  · have hb2 : ¬ (fB a0 = fB na) := fun hh => hb hh.symm
    have hc2 : ¬ (fC a0 = fC na) := fun hh => hc hh.symm
    simp only [hb, hc, false_and, if_false]
    by_cases hd : fD (fB a0) (fC a0) = fD (fB na) (fC na)
    · simp [afterWrite, Ediamond, diamondSt, readAtomState,
      computeAtomState, evalRead, isForced, isAtomStateInitialized, AtomSt.fresh, primAtom,
      setAtomStateValueOrPromise, returnAtomValue, upd, flushPending,
      Pend.empty, writeAtom, writeAtomState, evalWrite, mountDependencies, mdAdd, mdRemove,
      addPendingAtom, listAdd, recomputeDependents, visit, visitList, getDependents,
      recomputeLoop, notifyAtom, checkDeps, addDependency, mapSet, addPendingDependent,
      addPendingDependent.go, derivedAtom, hch2, hb, hb2, hc, hc2, hd]
    · have hd2 : ¬ (fD (fB na) (fC na) = fD (fB a0) (fC a0)) := fun hh => hd hh.symm
      simp [afterWrite, Ediamond, diamondSt, readAtomState,
      computeAtomState, evalRead, isForced, isAtomStateInitialized, AtomSt.fresh, primAtom,
      setAtomStateValueOrPromise, returnAtomValue, upd, flushPending,
      Pend.empty, writeAtom, writeAtomState, evalWrite, mountDependencies, mdAdd, mdRemove,
      addPendingAtom, listAdd, recomputeDependents, visit, visitList, getDependents,
      recomputeLoop, notifyAtom, checkDeps, addDependency, mapSet, addPendingDependent,
      addPendingDependent.go, derivedAtom, hch2, hb, hb2, hc, hc2, hd, hd2]

/-- **C1, amended, witness.** -/
theorem c1_diamond_amended_witness :
    ((afterWrite (Ediamond 0 (fun v => v) (fun v => v) fun b c => b + c) 60 0 1
        (afterSub (Ediamond 0 (fun v => v) (fun v => v) fun b c => b + c) 40 3 100 S0)).log.drop
      (afterSub (Ediamond 0 (fun v => v) (fun v => v) fun b c => b + c) 40 3 100 S0).log.length).count
      (Event.readInvoked 3)
      = (if (fun v => v) 1 = (fun v => v) 0 ∧ (fun v => v) 1 = (fun v => v) 0 then 0 else 1) :=
  c1_diamond_amended 0 1 (fun v => v) (fun v => v) (fun b c => b + c) (by decide)

/-- Scenario for C6: primitive atoms 0 (init `x0`) and 1 (init `x1`), and a
write-only atom 2 whose `write` performs two synchronous setter calls
`set(0, v1); set(1, v2)`. -/
def E6 (x0 x1 v1 v2 : Nat) : Env := fun a =>
  if a = 0 then primAtom 0 x0
  else if a = 1 then primAtom 1 x1
  else if a = 2 then
    { read := .ret 0, init := none
      write := some fun _ => .setW 0 v1 (.setW 1 v2 (.done 0))
      onMount := false, onMountCleanup := false }
  else primAtom a 0

/-- **C6, counterexample.**  With listeners subscribed to atoms 0 and 1,
running the two-setter write of atom 2 notifies atom 0's listener *between*
the two setter calls of the same synchronous write: notifications are not
accumulated until the outermost write completes.  (The two consecutive
`setterCall 0` events are the outer setter call and the primitive atom's own
self-setter call it expands to.) -/
theorem c6_batching_counterexample :
    ∃ mid post,
      ((afterWrite (E6 0 0 1 2) 40 2 0
          (afterSub (E6 0 0 1 2) 20 1 51 (afterSub (E6 0 0 1 2) 20 0 50 S0))).log.drop
        (afterSub (E6 0 0 1 2) 20 1 51 (afterSub (E6 0 0 1 2) 20 0 50 S0)).log.length)
        = [Event.setterCall 0 1, Event.setterCall 0 1] ++ mid
            ++ [Event.setterCall 1 2] ++ post
      ∧ Event.notified 0 50 ∈ mid := by
  refine ⟨[Event.notified 0 50], [Event.setterCall 1 2, Event.notified 1 51], ?_, ?_⟩
  · decide
  · decide

/-- **C6, amended.**  Listener notifications are flushed at the end of every
setter call (each `set` inside a `write` ends with `flushPending`), and
`writeAtom` flushes once more after the write completes; hence in a write
performing `set(0, v1); set(1, v2)` on subscribed atoms, atom 0's listener
runs before the second setter call, observing the intermediate state.  The
theorem pins down the exact event interleaving. -/
theorem c6_flush_per_setter_amended (x0 x1 v1 v2 ℓ0 ℓ1 : Nat)
    (h1 : v1 ≠ x0) (h2 : v2 ≠ x1) :
    (afterWrite (E6 x0 x1 v1 v2) 40 2 0
        (afterSub (E6 x0 x1 v1 v2) 20 1 ℓ1 (afterSub (E6 x0 x1 v1 v2) 20 0 ℓ0 S0))).log
      = [Event.readInvoked 0, Event.readInvoked 1,
         Event.setterCall 0 v1, Event.setterCall 0 v1, Event.notified 0 ℓ0,
         Event.setterCall 1 v2, Event.setterCall 1 v2, Event.notified 1 ℓ1] := by
  have h1' : ¬ (x0 = v1) := fun h => h1 h.symm
  have h2' : ¬ (x1 = v2) := fun h => h2 h.symm
  simp [afterWrite, afterSub, E6, subscribeAtom, mountAtom, readAtomState, computeAtomState,
    evalRead, isForced, isAtomStateInitialized, AtomSt.fresh, S0, primAtom,
    setAtomStateValueOrPromise, returnAtomValue, upd, mountDepsList, flushPending, Pend.empty,
    writeAtom, writeAtomState, evalWrite, mountDependencies, mdAdd, mdRemove, addPendingAtom,
    listAdd, recomputeDependents, visit, visitList, getDependents, recomputeLoop, notifyAtom,
    h1', h2', derivedAtom]

/-- **C6, amended, witness.** -/
theorem c6_flush_per_setter_amended_witness :
    (afterWrite (E6 0 0 1 2) 40 2 0
        (afterSub (E6 0 0 1 2) 20 1 51 (afterSub (E6 0 0 1 2) 20 0 50 S0))).log
      = [Event.readInvoked 0, Event.readInvoked 1,
         Event.setterCall 0 1, Event.setterCall 0 1, Event.notified 0 50,
         Event.setterCall 1 2, Event.setterCall 1 2, Event.notified 1 51] :=
  c6_flush_per_setter_amended 0 0 1 2 50 51 (by decide) (by decide)

/-! ## Claim C4: cached reads -/

/-- Scenario for the C4 counterexample: a chain `0 = P` (primitive, init 0),
`1 = A` (reads `P`, returns `P + 1`), `2 = X` (reads `A`).  None of them is
mounted, so a write to `P` recomputes no dependents and leaves `A` stale with
an unchanged epoch. -/
def E4 : Env := fun a =>
  if a = 0 then primAtom 0 0
  else if a = 1 then derivedAtom (.get 0 fun v => .ret (v + 1))
  else if a = 2 then derivedAtom (.get 1 fun v => .ret v)
  else primAtom a 0

/-- **C4, counterexample.**  After reading `X` and then writing `P` (all
unmounted), `X` has an initialized value, is not mounted, and *every recorded
dependency's current epoch equals the epoch recorded for it* (`X` records
`A ↦ 1` and `A`'s current epoch is still 1).  The claim then asserts the next
unforced read returns the cached state without invoking `X`'s read — but the
code recursively *reads* each dependency first, which recomputes the stale
`A`, advances its epoch, and therefore recomputes `X` (its read is invoked a
second time and it returns a new value). -/
theorem c4_cached_read_counterexample :
    ((afterWrite E4 30 0 5 (afterRead E4 20 2 S0)).sto 2).v = some 1
    ∧ ((afterWrite E4 30 0 5 (afterRead E4 20 2 S0)).sto 2).m = none
    ∧ ((afterWrite E4 30 0 5 (afterRead E4 20 2 S0)).sto 2).d = [(1, 1)]
    ∧ ((afterWrite E4 30 0 5 (afterRead E4 20 2 S0)).sto 1).n = 1
    ∧ (afterWrite E4 30 0 5 (afterRead E4 20 2 S0)).log.count (Event.readInvoked 2) = 1
    ∧ (afterRead E4 20 2 (afterWrite E4 30 0 5 (afterRead E4 20 2 S0))).log.count
        (Event.readInvoked 2) = 2
    ∧ ((afterRead E4 20 2 (afterWrite E4 30 0 5 (afterRead E4 20 2 S0))).sto 2).v = some 6 := by
  decide

/-! ## Claim C2: propagation order and skipping -/

/-- Scenario for the C2 counterexample: `0 = A` (primitive, init 0), `1 = V`
(reads `A`, returns the constant 5), `2 = Z` (reads `V`), `3 = Y` (reads `A`
and, when `A = 1`, additionally reads `Z` — a dynamic dependency). -/
def E2 : Env := fun a =>
  if a = 0 then primAtom 0 0
  else if a = 1 then derivedAtom (.get 0 fun _ => .ret 5)
  else if a = 2 then derivedAtom (.get 1 fun v => .ret v)
  else if a = 3 then
    derivedAtom (.get 0 fun v => if v = 1 then .get 2 fun z => .ret (v + z) else .ret v)
  else primAtom a 0

/-- The ghost log after the two initial subscriptions of the C2 scenario. -/
def L0 : List Event := [.readInvoked 2, .readInvoked 1, .readInvoked 0, .readInvoked 3]

/-- The store contents after subscribing `Z` (listener 70) and then `Y`
(listener 71) over `E2`. -/
def c2baseSt : Store := fun a =>
  match a with
  | 0 => ⟨[], [], 1, some ⟨[], [], [1, 3], false⟩, some 0, none⟩
  | 1 => ⟨[(0, 1)], [], 1, some ⟨[], [0], [2], false⟩, some 5, none⟩
  | 2 => ⟨[(1, 1)], [], 1, some ⟨[70], [1], [], false⟩, some 5, none⟩
  | 3 => ⟨[(0, 1)], [], 1, some ⟨[71], [0], [], false⟩, some 0, none⟩
  | _ => AtomSt.fresh

set_option maxHeartbeats 1000000 in
/-- Subscribing `Z` then `Y` over `E2` produces exactly `c2baseSt`. -/
theorem c2_mount_eq :
    afterSub E2 40 3 71 (afterSub E2 40 2 70 S0) =
      ⟨c2baseSt, some Pend.empty, L0⟩ := by
  simp [afterSub, subscribeAtom, mountAtom, mountDepsList, S0, E2, readAtomState,
    computeAtomState, evalRead, isForced, isAtomStateInitialized, AtomSt.fresh, primAtom,
    setAtomStateValueOrPromise, returnAtomValue, upd, flushPending,
    Pend.empty, checkDeps, addDependency, mapSet, addPendingDependent, addPendingDependent.go,
    listAdd, derivedAtom, L0]
  funext a
  rcases a with _ | _ | _ | _ | a
  · rfl
  · rfl
  · rfl
  · rfl
  · simp [upd, c2baseSt, AtomSt.fresh]


/-- The state just after the write's self-set of atom 0 (value 1),
dependencies remounted and the atom registered as pending, at the entry of
`recomputeDependents`. -/
def c2s3 : S :=
  ⟨upd c2baseSt 0 { c2baseSt 0 with v := some 1, n := 2 },
   some ⟨[(0, [])], [0], []⟩, L0 ++ [.setterCall 0 1]⟩

def c2stY : AtomSt := ⟨[(0, 2), (2, 1)], [], 2, some ⟨[71], [0], [], false⟩, some 6, none⟩

def c2sYsto : Store := fun a =>
  match a with
  | 0 => ⟨[], [], 2, some ⟨[], [], [1, 3], false⟩, some 1, none⟩
  | 1 => ⟨[(0, 2)], [], 1, some ⟨[], [0], [2], false⟩, some 5, none⟩
  | 2 => ⟨[(1, 1)], [], 1, some ⟨[70], [1], [3], false⟩, some 5, none⟩
  | 3 => c2stY
  | _ => AtomSt.fresh

/-- The state after the propagation loop's forced recomputation of `Y`
(which nested forced recomputations of the still-marked `Z` and `V`). -/
def c2sY : S :=
  ⟨c2sYsto, some ⟨[(0, [3, 1])], [0], []⟩,
   L0 ++ [.setterCall 0 1, .readInvoked 3, .readInvoked 2, .readInvoked 1]⟩

set_option maxHeartbeats 1000000 in
/-- The `Y` iteration of the propagation loop: the forced read of `Y`
recomputes `Y`, and — because `Y` dynamically acquires the still-marked new
dependency `Z` — also invokes the reads of `Z` and (nested) `V`. -/
theorem c2readY : readAtomState E2 55 (some [1, 2, 3]) 3 c2s3 = some (c2stY, c2sY) := by
  simp [c2s3, c2baseSt, E2, readAtomState, computeAtomState, evalRead, isForced,
    isAtomStateInitialized, AtomSt.fresh, primAtom, setAtomStateValueOrPromise,
    returnAtomValue, upd, checkDeps, addDependency, mapSet, addPendingDependent,
    addPendingDependent.go, listAdd, derivedAtom, c2stY, c2sY, L0]
  funext a
  rcases a with _ | _ | _ | _ | a
  · rfl
  · rfl
  · rfl
  · rfl
  · simp [upd, c2baseSt, c2sYsto, AtomSt.fresh]

def c2stY2 : AtomSt := ⟨[(0, 2), (2, 1)], [], 2, some ⟨[71], [0, 2], [], false⟩, some 6, none⟩

/-- `c2sY` with `Y`'s mounted dependencies updated to `{A, Z}`. -/
def c2sY2 : S :=
  ⟨fun a =>
    match a with
    | 0 => ⟨[], [], 2, some ⟨[], [], [1, 3], false⟩, some 1, none⟩
    | 1 => ⟨[(0, 2)], [], 1, some ⟨[], [0], [2], false⟩, some 5, none⟩
    | 2 => ⟨[(1, 1)], [], 1, some ⟨[70], [1], [3], false⟩, some 5, none⟩
    | 3 => c2stY2
    | _ => AtomSt.fresh,
   some ⟨[(0, [3, 1])], [0], []⟩,
   L0 ++ [.setterCall 0 1, .readInvoked 3, .readInvoked 2, .readInvoked 1]⟩

set_option maxHeartbeats 1000000 in
theorem c2mountY : mountDependencies E2 55 3 c2sY = some c2sY2 := by
  simp [c2sY, c2sYsto, c2stY, mountDependencies, mdAdd, mdRemove, mountAtom, upd, listAdd,
    E2, primAtom, derivedAtom, AtomSt.fresh, c2sY2, c2stY2, L0]
  funext a
  rcases a with _ | _ | _ | _ | a
  · rfl
  · rfl
  · rfl
  · rfl
  · simp [upd, c2sYsto, AtomSt.fresh]

/-- `c2sY2` with `Y` registered as pending and marked changed. -/
def c2sY3 : S :=
  ⟨c2sY2.sto, some ⟨[(0, [3, 1]), (3, [])], [0, 3], []⟩,
   c2sY2.log ++ [.changedMark 3]⟩

def c2stV : AtomSt := ⟨[(0, 2)], [], 1, some ⟨[], [0], [2], false⟩, some 5, none⟩

/-- The final state of the propagation loop: the loop's own (second)
recomputation of `V` changes nothing but the log. -/
def c2s4 : S := ⟨c2sY2.sto, c2sY3.pend, c2sY3.log ++ [.readInvoked 1]⟩

set_option maxHeartbeats 1000000 in
theorem c2readV : readAtomState E2 54 (some [1, 2]) 1 c2sY3 = some (c2stV, c2s4) := by
  simp [c2sY3, c2sY2, c2stY2, c2stV, c2s4, E2, readAtomState, computeAtomState, evalRead,
    isForced, isAtomStateInitialized, AtomSt.fresh, primAtom, setAtomStateValueOrPromise,
    returnAtomValue, upd, checkDeps, addDependency, mapSet, addPendingDependent,
    addPendingDependent.go, listAdd, derivedAtom, L0]
  funext a
  rcases a with _ | _ | _ | _ | a
  · rfl
  · rfl
  · rfl
  · rfl
  · simp [upd, AtomSt.fresh]

set_option maxHeartbeats 1000000 in
theorem c2mountV : mountDependencies E2 54 1 c2s4 = some c2s4 := by
  simp [c2s4, c2sY3, c2sY2, c2stY2, mountDependencies, mdAdd, mdRemove, mountAtom, upd,
    listAdd, E2, primAtom, derivedAtom, AtomSt.fresh, L0]

set_option maxHeartbeats 1000000 in
/-- The whole dependent-propagation phase of the C2 scenario's write. -/
theorem c2recompute : recomputeDependents E2 58 0 c2s3 = some c2s4 := by
  have hvisit : visit (getDependents c2s3) 57 0 ([], []) = some ([0, 1, 2, 3], [2, 1, 3, 0]) := by
    decide
  have hp0 : c2s3.sto 0 = ⟨[], [], 2, some ⟨[], [], [1, 3], false⟩, some 1, none⟩ := by decide
  have hp3 : c2s3.sto 3 = ⟨[(0, 1)], [], 1, some ⟨[71], [0], [], false⟩, some 0, none⟩ := by decide
  have hq3 : (c2sY2.sto 3).n = 2 := by decide
  have hqp : Option.map (fun p => addPendingAtom p 3) c2sY2.pend
      = some ⟨[(0, [3, 1]), (3, [])], [0, 3], []⟩ := by decide
  have h4n : (c2s4.sto 1).n = 1 := by decide
  simp only [recomputeDependents, hvisit, List.reverse_cons, List.reverse_nil, List.nil_append,
    List.cons_append, List.append_nil]
  rw [recomputeLoop.eq_def]
  simp only [hp0, List.any_nil, Bool.false_eq_true, if_false, List.erase_cons_head,
    List.erase_cons_tail, reduceCtorEq]
  rw [recomputeLoop.eq_def]
  simp [hp3, c2readY, c2mountY, hq3, hqp]
  rw [show (⟨c2sY2.sto, some ⟨[(0, [3, 1]), (3, [])], [0, 3], []⟩,
        c2sY2.log ++ [Event.changedMark 3]⟩ : S) = c2sY3 from rfl]
  have h1d : c2sY3.sto 1 = ⟨[(0, 2)], [], 1, some ⟨[], [0], [2], false⟩, some 5, none⟩ := by decide
  rw [recomputeLoop.eq_def]
  simp [h1d, c2readV, c2mountV, h4n]
  have h2p : c2s4.sto 2 = ⟨[(1, 1)], [], 1, some ⟨[70], [1], [3], false⟩, some 5, none⟩ := by
    decide
  rw [recomputeLoop.eq_def]
  simp [h2p]
  rw [recomputeLoop.eq_def]

/-- The final state of the whole write: the flush notifies `Y`'s listener. -/
def c2s5 : S := ⟨c2s4.sto, some Pend.empty, c2s4.log ++ [.notified 3 71]⟩

set_option maxHeartbeats 1000000 in
theorem c2flush : flushPending E2 58 c2s4 = some c2s5 := by
  have hpend : c2s4.pend = some ⟨[(0, [3, 1]), (3, [])], [0, 3], []⟩ := by decide
  have h0m : c2s4.sto 0 = ⟨[], [], 2, some ⟨[], [], [1, 3], false⟩, some 1, none⟩ := by decide
  have h3m : c2s4.sto 3 = ⟨[(0, 2), (2, 1)], [], 2, some ⟨[71], [0, 2], [], false⟩, some 6, none⟩ := by
    decide
  simp [flushPending, hpend, notifyAtom, h0m, h3m, Pend.empty, c2s5]

set_option maxHeartbeats 1000000 in
/-- The C2 scenario's write, end to end. -/
theorem c2write : writeAtom E2 60 0 1 ⟨c2baseSt, some Pend.empty, L0⟩ = some (.ok 0, c2s5) := by
  simp [writeAtom, writeAtomState, evalWrite, E2, primAtom, setAtomStateValueOrPromise,
    mountDependencies, mdAdd, mdRemove, upd, addPendingAtom, listAdd, Pend.empty, c2baseSt]
  rw [show ({
      sto :=
        upd c2baseSt 0
          { d := [], p := [], n := 2, m := some { l := [], d := [], t := [1, 3], u := false },
            v := some 1, e := none },
      pend := some { dep := [(0, [])], st := [0], fns := [] },
      log := L0 ++ [Event.setterCall 0 1] } : S) = c2s3 from rfl]
  rw [c2recompute]
  simp only [c2flush]
  rw [flushPending.eq_def]
  have h5p : c2s5.pend = some Pend.empty := by decide
  simp [h5p, Pend.empty]

set_option maxHeartbeats 1000000 in
/-- **C2, counterexample.**  `Z` (atom 2) is a transitive mounted dependent of
the written atom `A` (via `A → V → Z`), its recorded dependency set is `{V}`
before and after the write, and `V` is never in the changed set (the changed
set is `{A, Y}`: the root is `A = 0` and the only `changedMark` event is for
`Y = 3`).  The claim says such an atom "is not recomputed at all (its read
function is not invoked)" — but when `Y` recomputes and dynamically acquires
the new dependency `Z` while `Z` is still marked, the forced nested read
invokes `Z`'s read function (and `V`'s twice). -/
theorem c2_skip_counterexample :
    ((afterSub E2 40 3 71 (afterSub E2 40 2 70 S0)).sto 0).m.map Mounted.t = some [1, 3]
    ∧ ((afterSub E2 40 3 71 (afterSub E2 40 2 70 S0)).sto 1).m.map Mounted.t = some [2]
    ∧ ((afterSub E2 40 3 71 (afterSub E2 40 2 70 S0)).sto 2).d = [(1, 1)]
    ∧ ((afterWrite E2 60 0 1 (afterSub E2 40 3 71 (afterSub E2 40 2 70 S0))).sto 2).d = [(1, 1)]
    ∧ ((afterWrite E2 60 0 1 (afterSub E2 40 3 71 (afterSub E2 40 2 70 S0))).log.drop 4)
        = [Event.setterCall 0 1, Event.readInvoked 3, Event.readInvoked 2,
           Event.readInvoked 1, Event.changedMark 3, Event.readInvoked 1,
           Event.notified 3 71] := by
  rw [c2_mount_eq]
  have hw : afterWrite E2 60 0 1 ⟨c2baseSt, some Pend.empty, L0⟩ = c2s5 := by
    simp [afterWrite, c2write]
  rw [hw]
  refine ⟨rfl, rfl, rfl, by decide, by decide⟩




/-! ### Claim C2 (amended): general propagation order and skipping -/

/-! ### Auxiliary store accessors and well-formedness -/

/-- The mounted dependents `t` of an atom (empty when unmounted), as read by
`getDependents`. -/
def tOf (σ : Store) (b : AtomId) : List AtomId :=
  match (σ b).m with
  | some mm => mm.t
  | none => []

/-- The key set of an atom's recorded dependency map. -/
def dKeys (σ : Store) (a : AtomId) : List AtomId := (σ a).d.map Prod.fst

/-- Static `read` bodies: the sequence of `get`s performed does not depend on
the values obtained (`ds` lists the accessed atoms in order). -/
inductive StaticR : RExp → List AtomId → Prop
  | ret (v : Nat) : StaticR (.ret v) []
  | get (b : AtomId) (k : Nat → RExp) (ds : List AtomId)
      (h : ∀ v, StaticR (k v) ds) : StaticR (.get b k) (b :: ds)

/-- Store well-formedness, as maintained by the mount machinery on the
synchronous fragment: no pending-promise dependents, mounted atoms hold values
(no stored errors), the mounted dependency set mirrors the recorded dependency
map, dependency edges of mounted atoms are mirrored by mounted-dependent
(`t`) edges and vice versa, and mounted atoms with dependencies have static
`read` functions matching their recorded dependencies. -/
structure WfStore (E : Env) (σ : Store) : Prop where
  pEmpty : ∀ a, (σ a).p = []
  vSome : ∀ a, (σ a).m.isSome → (σ a).v.isSome
  eNone : ∀ a, (σ a).m.isSome → (σ a).e = none
  mdEq : ∀ a mm, (σ a).m = some mm → mm.d = dKeys σ a
  dNodup : ∀ a, (σ a).m.isSome → (dKeys σ a).Nodup
  noSelf : ∀ a, (σ a).m.isSome → a ∉ dKeys σ a
  depMounted : ∀ a, (σ a).m.isSome → ∀ b ∈ dKeys σ a, (σ b).m.isSome
  depBack : ∀ a, (σ a).m.isSome → ∀ b ∈ dKeys σ a, a ∈ tOf σ b
  tMounted : ∀ a, ∀ x ∈ tOf σ a, (σ x).m.isSome
  tFwd : ∀ a, ∀ x ∈ tOf σ a, a ∈ dKeys σ x
  readsStatic : ∀ a, (σ a).m.isSome → (σ a).d ≠ [] → StaticR (E a).read (dKeys σ a)

/-! ### Depth-first search correctness (`visit` / `visitList`) -/

/-- Invariant of the DFS accumulator: the postorder list is duplicate-free,
contained in the marked set, closed under dependent edges, and topologically
sorted (no atom is followed by one of its dependents). -/
def DfsInv (deps : AtomId → List AtomId) (marked acc : List AtomId) : Prop :=
  acc.Nodup ∧ marked.Nodup ∧ (∀ x ∈ acc, x ∈ marked) ∧
  (∀ u ∈ acc, ∀ y ∈ deps u, y ≠ u → y ∈ acc) ∧
  acc.Pairwise (fun u w => w ∉ deps u)

theorem visit_spec (deps : AtomId → List AtomId) (rank : AtomId → Nat)
    (hrank : ∀ x, ∀ y ∈ deps x, y ≠ x → rank x < rank y) :
    ∀ fuel,
    (∀ n marked acc marked' acc',
      visit deps fuel n (marked, acc) = some (marked', acc') →
      DfsInv deps marked acc →
      (∀ g ∈ marked, g ∉ acc → rank g < rank n) →
      ∃ δ, acc' = acc ++ δ ∧
        (∀ x, x ∈ marked' ↔ (x ∈ marked ∨ x ∈ δ)) ∧
        (∀ x ∈ δ, x ∉ marked) ∧
        DfsInv deps marked' acc' ∧
        (∀ g, g ∈ marked' → g ∉ acc' → g ∈ marked ∧ g ∉ acc) ∧
        n ∈ marked' ∧ (n ∈ marked ∨ n ∈ δ) ∧
        (∀ x ∈ δ, x = n ∨ ∃ u, u ∈ marked' ∧ x ∈ deps u)) ∧
    (∀ n bs marked acc marked' acc',
      visitList deps fuel n bs (marked, acc) = some (marked', acc') →
      DfsInv deps marked acc →
      (∀ g ∈ marked, g ∉ acc → rank g ≤ rank n) →
      n ∈ marked →
      (∀ b ∈ bs, b ∈ deps n) →
      ∃ δ, acc' = acc ++ δ ∧
        (∀ x, x ∈ marked' ↔ (x ∈ marked ∨ x ∈ δ)) ∧
        (∀ x ∈ δ, x ∉ marked) ∧
        DfsInv deps marked' acc' ∧
        (∀ g, g ∈ marked' → g ∉ acc' → g ∈ marked ∧ g ∉ acc) ∧
        (∀ b ∈ bs, b = n ∨ (b ∈ marked' ∧ (b ∈ acc' ∨ (b ∈ marked ∧ b ∉ acc)))) ∧
        (∀ x ∈ δ, ∃ u, u ∈ marked' ∧ x ∈ deps u)) := by
  intro fuel
  induction fuel with
  | zero =>
    constructor
    · intro n marked acc marked' acc' h
      simp [visit] at h
    · intro n bs marked acc marked' acc' h
      simp [visitList] at h
  | succ fuel ih =>
    obtain ⟨ihV, ihL⟩ := ih
    constructor
    · -- visit
      intro n marked acc marked' acc' h hinv hgray
      rw [visit] at h
      by_cases hn : n ∈ marked
      · simp only [hn, if_true, Option.some.injEq, Prod.mk.injEq] at h
        obtain ⟨rfl, rfl⟩ := h
        refine ⟨[], by simp, by simp, by simp, hinv, fun g hg hga => ⟨hg, hga⟩, hn,
          Or.inl hn, by simp⟩
      · simp only [hn, if_false] at h
        obtain ⟨hnd, hmd, hsub, hclo, hpw⟩ := hinv
        cases hvl : visitList deps fuel n (deps n) (marked ++ [n], acc) with
        | none => rw [hvl] at h; exact absurd h (by simp)
        | some ma =>
          obtain ⟨m₂, a₂⟩ := ma
          rw [hvl] at h
          simp only [Option.some.injEq, Prod.mk.injEq] at h
          obtain ⟨rfl, rfl⟩ := h
          have hinv₁ : DfsInv deps (marked ++ [n]) acc := by
            refine ⟨hnd, ?_, fun x hx => by simp [hsub x hx], hclo, hpw⟩
            simp [List.nodup_append, hmd, hn]
          have hgray₁ : ∀ g ∈ marked ++ [n], g ∉ acc → rank g ≤ rank n := by
            intro g hg hga
            rcases List.mem_append.1 hg with hg | hg
            · exact le_of_lt (hgray g hg hga)
            · simp only [List.mem_singleton] at hg
              exact le_of_eq (congrArg rank hg)
          obtain ⟨δ₁, hacc, hmk, hfresh, hinv₂, hgp, hE, hreach⟩ :=
            ihL n (deps n) (marked ++ [n]) acc m₂ a₂ hvl hinv₁ hgray₁ (by simp)
              (fun b hb => hb)
          obtain ⟨hnd₂, hmd₂, hsub₂, hclo₂, hpw₂⟩ := hinv₂
          -- n did not get pushed during the children loop
          have hnA : n ∉ a₂ := by
            intro hmem
            rw [hacc] at hmem
            rcases List.mem_append.1 hmem with hmem | hmem
            · exact hn (hsub n hmem)
            · exact hfresh n hmem (by simp)
          -- every proper dependent of n ended up in the postorder list
          have hB : ∀ y ∈ deps n, y ≠ n → y ∈ a₂ := by
            intro y hy hyn
            rcases hE y hy with rfl | ⟨hym, hyc⟩
            · exact absurd rfl hyn
            · rcases hyc with hyc | ⟨hym', hya⟩
              · exact hyc
              · rcases List.mem_append.1 hym' with hym' | hym'
                · exact absurd (hrank n y hy hyn) (not_lt_of_gt (hgray y hym' hya))
                · simp only [List.mem_singleton] at hym'
                  exact absurd hym' hyn
          have hnm₂ : n ∈ m₂ := (hmk n).2 (Or.inl (by simp))
          refine ⟨δ₁ ++ [n], by rw [hacc, List.append_assoc], ?_, ?_, ?_, ?_, hnm₂,
            Or.inr (by simp), ?_⟩
          · intro x
            rw [hmk x]
            simp only [List.mem_append, List.mem_singleton]
            tauto
          · intro x hx
            rcases List.mem_append.1 hx with hx | hx
            · intro hxm
              exact hfresh x hx (by simp [hxm])
            · simp only [List.mem_singleton] at hx
              exact hx ▸ hn
          · -- DfsInv for the extended accumulator
            refine ⟨?_, hmd₂, ?_, ?_, ?_⟩
            · rw [List.nodup_append]
              refine ⟨hnd₂, List.nodup_singleton n, ?_⟩
              intro x hx hxn
              simp only [List.mem_singleton] at hxn
              exact hnA (hxn ▸ hx)
            · intro x hx
              rcases List.mem_append.1 hx with hx | hx
              · exact hsub₂ x hx
              · simp only [List.mem_singleton] at hx
                exact hx ▸ hnm₂
            · intro u hu y hy hyu
              rcases List.mem_append.1 hu with hu | hu
              · exact List.mem_append.2 (Or.inl (hclo₂ u hu y hy hyu))
              · simp only [List.mem_singleton] at hu
                subst hu
                exact List.mem_append.2 (Or.inl (hB y hy hyu))
            · rw [List.pairwise_append]
              refine ⟨hpw₂, by simp, ?_⟩
              intro u hu w hw
              simp only [List.mem_singleton] at hw
              subst hw
              intro hcontra
              exact hnA (hclo₂ u hu w hcontra (fun he => hnA (he ▸ hu)))
          · intro g hg hga
            have hga₂ : g ∉ a₂ := fun hmem => hga (List.mem_append.2 (Or.inl hmem))
            have hgn : g ≠ n := fun he => hga (by simp [he])
            obtain ⟨hg₁, hg₂⟩ := hgp g hg hga₂
            rcases List.mem_append.1 hg₁ with hg₁ | hg₁
            · exact ⟨hg₁, hg₂⟩
            · simp only [List.mem_singleton] at hg₁
              exact absurd hg₁ hgn
          · intro x hx
            rcases List.mem_append.1 hx with hx | hx
            · rcases hreach x hx with ⟨u, hu, hxu⟩
              exact Or.inr ⟨u, hu, hxu⟩
            · simp only [List.mem_singleton] at hx
              exact Or.inl hx
    · -- visitList
      intro n bs marked acc marked' acc' h hinv hgray hnm hbs
      match bs with
      | [] =>
        rw [visitList] at h
        simp only [Option.some.injEq, Prod.mk.injEq] at h
        obtain ⟨rfl, rfl⟩ := h
        exact ⟨[], by simp, by simp, by simp, hinv, fun g hg hga => ⟨hg, hga⟩,
          by simp, by simp⟩
      | b :: rest =>
        rw [visitList] at h
        by_cases hab : n = b
        · subst hab
          rw [if_pos rfl] at h
          obtain ⟨δ, h1, h2, h3, h4, h5, h6, h7⟩ :=
            ihL n rest marked acc marked' acc' h hinv hgray hnm
              (fun c hc => hbs c (by simp [hc]))
          refine ⟨δ, h1, h2, h3, h4, h5, ?_, h7⟩
          intro c hc
          rcases List.mem_cons.1 hc with rfl | hc
          · exact Or.inl rfl
          · exact h6 c hc
        · simp only [hab, if_false] at h
          have hbn : b ≠ n := fun he => hab he.symm
          have hbd : b ∈ deps n := hbs b (by simp)
          cases hv : visit deps fuel b (marked, acc) with
          | none => rw [hv] at h; exact absurd h (by simp)
          | some ma =>
            obtain ⟨m₁, a₁⟩ := ma
            rw [hv] at h
            have hgrayb : ∀ g ∈ marked, g ∉ acc → rank g < rank b := by
              intro g hg hga
              exact lt_of_le_of_lt (hgray g hg hga) (hrank n b hbd hbn)
            obtain ⟨δᵥ, hacc₁, hmk₁, hfresh₁, hinv₁, hgp₁, hbm₁, hbloc₁, hreach₁⟩ :=
              ihV b marked acc m₁ a₁ hv hinv hgrayb
            have hgray₂ : ∀ g ∈ m₁, g ∉ a₁ → rank g ≤ rank n := by
              intro g hg hga
              obtain ⟨hg', hga'⟩ := hgp₁ g hg hga
              exact hgray g hg' hga'
            have hnm₁ : n ∈ m₁ := (hmk₁ n).2 (Or.inl hnm)
            obtain ⟨δ₂, hacc₂, hmk₂, hfresh₂, hinv₂, hgp₂, hE₂, hreach₂⟩ :=
              ihL n rest m₁ a₁ marked' acc' h hinv₁ hgray₂ hnm₁
                (fun c hc => hbs c (by simp [hc]))
            refine ⟨δᵥ ++ δ₂, by rw [hacc₂, hacc₁, List.append_assoc], ?_, ?_, hinv₂,
              ?_, ?_, ?_⟩
            · intro x
              rw [hmk₂ x, hmk₁ x]
              simp only [List.mem_append]
              tauto
            · intro x hx
              rcases List.mem_append.1 hx with hx | hx
              · exact hfresh₁ x hx
              · intro hxm
                exact hfresh₂ x hx ((hmk₁ x).2 (Or.inl hxm))
            · intro g hg hga
              obtain ⟨hg', hga'⟩ := hgp₂ g hg hga
              exact hgp₁ g hg' hga'
            · intro c hc
              rcases List.mem_cons.1 hc with rfl | hc
              · refine Or.inr ⟨(hmk₂ c).2 (Or.inl hbm₁), ?_⟩
                rcases hbloc₁ with hbm | hbδ
                · by_cases hba : c ∈ acc
                  · exact Or.inl (by rw [hacc₂, hacc₁]; simp [hba])
                  · exact Or.inr ⟨hbm, hba⟩
                · refine Or.inl ?_
                  rw [hacc₂]
                  exact List.mem_append.2 (Or.inl (by rw [hacc₁]; simp [hbδ]))
              · rcases hE₂ c hc with rfl | ⟨hcm, hcloc⟩
                · exact Or.inl rfl
                · refine Or.inr ⟨hcm, ?_⟩
                  rcases hcloc with hcloc | ⟨hcm₁, hca₁⟩
                  · exact Or.inl hcloc
                  · obtain ⟨hcm', hca'⟩ := hgp₁ c hcm₁ hca₁
                    exact Or.inr ⟨hcm', hca'⟩
            · intro x hx
              rcases List.mem_append.1 hx with hx | hx
              · rcases hreach₁ x hx with rfl | ⟨u, hu, hxu⟩
                · exact ⟨n, (hmk₂ n).2 (Or.inl hnm₁), hbd⟩
                · exact ⟨u, (hmk₂ u).2 (Or.inl hu), hxu⟩
              · exact hreach₂ x hx


/-! ### Elementary store-update lemmas -/

theorem upd_ne (σ : Store) (a b : AtomId) (st : AtomSt) (h : b ≠ a) :
    upd σ a st b = σ b := by
  simp [upd, h]

theorem upd_upd (σ : Store) (a : AtomId) (s₁ s₂ : AtomSt) :
    upd (upd σ a s₁) a s₂ = upd σ a s₂ := by
  funext b
  by_cases hb : b = a <;> simp [upd, hb]

theorem mapSet_fresh (m : List (AtomId × Nat)) (k v : Nat)
    (h : k ∉ m.map Prod.fst) : mapSet m k v = m ++ [(k, v)] := by
  induction m with
  | nil => rfl
  | cons p rest ih =>
    obtain ⟨k', v'⟩ := p
    simp only [List.map_cons, List.mem_cons] at h
    push_neg at h
    simp [mapSet, Ne.symm h.1, ih h.2]

theorem listAdd_mem (xs : List Nat) (x : Nat) (h : x ∈ xs) : listAdd xs x = xs := by
  simp [listAdd, h]

/-! ### Reads that hit the mounted cache -/

theorem readAtomState_cached (E : Env) (fuel : Nat) (force : Option (List AtomId))
    (b : AtomId) (s : S) (r : AtomSt × S)
    (h : readAtomState E fuel force b s = some r)
    (hf : isForced force b = false)
    (hm : (s.sto b).m.isSome)
    (hi : isAtomStateInitialized (s.sto b) = true) :
    r = (s.sto b, s) := by
  match fuel with
  | 0 => simp [readAtomState] at h
  | fuel + 1 =>
    rw [readAtomState] at h
    simp only [hf, hi, hm, Bool.not_false, Bool.true_and, if_true, Option.some.injEq] at h
    exact h.symm

/-! ### `addDependency` on an already-mirrored edge -/

theorem addDependency_known (s : S) (a b : AtomId) (nb : Nat) (mm : Mounted)
    (hba : b ≠ a) (hm : (s.sto b).m = some mm) (ht : a ∈ mm.t)
    (hfresh : b ∉ (s.sto a).d.map Prod.fst) :
    addDependency s a b nb =
      ⟨upd s.sto a { s.sto a with d := (s.sto a).d ++ [(b, nb)] },
       s.pend.map fun p => addPendingDependent p b a, s.log⟩ := by
  have hm1 : (upd s.sto a { s.sto a with d := mapSet (s.sto a).d b nb } b).m = some mm := by
    rw [upd_ne _ _ _ _ hba]; exact hm
  have h2 : listAdd mm.t a = mm.t := listAdd_mem mm.t a ht
  simp only [addDependency, hm1]
  have hsto : upd (upd s.sto a { s.sto a with d := mapSet (s.sto a).d b nb }) b
      { upd s.sto a { s.sto a with d := mapSet (s.sto a).d b nb } b with
        m := some { mm with t := listAdd mm.t a } }
      = upd s.sto a { s.sto a with d := (s.sto a).d ++ [(b, nb)] } := by
    funext c
    by_cases hcb : c = b
    · subst hcb
      rw [upd_get, upd_ne _ _ _ _ hba, upd_ne _ _ _ _ hba, h2]
      rw [← hm]
    · rw [upd_ne _ _ _ _ hcb]
      by_cases hca : c = a
      · subst hca
        rw [upd_get, upd_get, mapSet_fresh _ _ _ hfresh]
      · rw [upd_ne _ _ _ _ hca, upd_ne _ _ _ _ hca]
  rw [hsto]



/-- `tOf` only depends on the atom's own record. -/
theorem tOf_congr (σ σ' : Store) (c : AtomId) (h : σ' c = σ c) : tOf σ' c = tOf σ c := by
  simp [tOf, h]

/-- Evaluating a static `read` body whose accessed atoms are all mounted,
value-holding, unmarked and distinct from the reader: every `get` is a cache
hit, the body succeeds, and the only store change is the reader's freshly
recorded dependency map. -/
theorem evalRead_static (E : Env) (marked : List AtomId) (a : AtomId) :
    ∀ {body : RExp} {ds : List AtomId}, StaticR body ds →
    ∀ (fuel : Nat) (s : S) (r : Except JErr Nat × S),
    evalRead E fuel (some marked) a body s = some r →
    ds.Nodup →
    (∀ b ∈ ds, b ≠ a ∧ b ∉ marked ∧ (s.sto b).m.isSome ∧ (s.sto b).v.isSome ∧
       (s.sto b).e = none ∧ a ∈ tOf s.sto b ∧ b ∉ (s.sto a).d.map Prod.fst) →
    ∃ v pd newd, newd.map Prod.fst = ds ∧
      r = (.ok v, ⟨upd s.sto a { s.sto a with d := (s.sto a).d ++ newd }, pd, s.log⟩) := by
  intro body ds hstat
  induction hstat with
  | ret v =>
    intro fuel s r h _ _
    match fuel with
    | 0 => simp [evalRead] at h
    | fuel + 1 =>
      rw [evalRead] at h
      simp only [Option.some.injEq] at h
      refine ⟨v, s.pend, [], rfl, ?_⟩
      rw [← h]
      have hd : ({ s.sto a with d := (s.sto a).d ++ [] } : AtomSt) = s.sto a := by
        rw [List.append_nil]
      rw [hd, upd_self]
  | get b k ds hk ih =>
    intro fuel s r h hnd hcond
    obtain ⟨hba, hbm, hbmt, hbv, hbe, hbt, hbd⟩ := hcond b (List.mem_cons_self b ds)
    match fuel with
    | 0 => simp [evalRead] at h
    | fuel + 1 =>
      rw [evalRead] at h
      rw [if_neg hba] at h
      cases hr : readAtomState E fuel (some marked) b s with
      | none => rw [hr] at h; exact absurd h (by simp)
      | some bsts =>
        rw [hr] at h
        have hforced : isForced (some marked) b = false := by
          simp [isForced, hbm]
        have hinit : isAtomStateInitialized (s.sto b) = true := by
          simp [isAtomStateInitialized, hbv]
        have hbsts := readAtomState_cached E fuel (some marked) b s bsts hr hforced hbmt hinit
        subst hbsts
        obtain ⟨vb, hvb⟩ := Option.isSome_iff_exists.1 hbv
        have hret : returnAtomValue (s.sto b) = .ok vb := by
          simp [returnAtomValue, hbe, hvb]
        obtain ⟨mmb, hmmb⟩ := Option.isSome_iff_exists.1 hbmt
        have htb : a ∈ mmb.t := by
          have ht' : tOf s.sto b = mmb.t := by simp [tOf, hmmb]
          rwa [ht'] at hbt
        simp only [hret] at h
        rw [addDependency_known s a b (s.sto b).n mmb hba hmmb htb hbd] at h
        set s₁ : S :=
          ⟨upd s.sto a { s.sto a with d := (s.sto a).d ++ [(b, (s.sto b).n)] },
           s.pend.map fun p => addPendingDependent p b a, s.log⟩ with hs₁
        have hbds : b ∉ ds := (List.nodup_cons.1 hnd).1
        have hcond' : ∀ c ∈ ds, c ≠ a ∧ c ∉ marked ∧ (s₁.sto c).m.isSome ∧
            (s₁.sto c).v.isSome ∧ (s₁.sto c).e = none ∧ a ∈ tOf s₁.sto c ∧
            c ∉ (s₁.sto a).d.map Prod.fst := by
          intro c hc
          have hcb : c ≠ b := fun he => hbds (he ▸ hc)
          obtain ⟨h1, h2, h3, h4, h5, h6, h7⟩ := hcond c (List.mem_cons_of_mem b hc)
          have hsc : s₁.sto c = s.sto c := upd_ne _ _ _ _ h1
          refine ⟨h1, h2, by rw [hsc]; exact h3, by rw [hsc]; exact h4,
            by rw [hsc]; exact h5, by rw [tOf_congr s.sto s₁.sto c hsc]; exact h6, ?_⟩
          rw [hs₁]
          simp only [upd_get, List.map_append, List.mem_append]
          rintro (hmem | hmem)
          · exact h7 hmem
          · simp only [List.map_cons, List.map_nil, List.mem_singleton] at hmem
            exact hcb hmem
        obtain ⟨v, pd, newd', hkeys, hreq⟩ :=
          ih vb fuel s₁ r h (List.nodup_cons.1 hnd).2 hcond'
        refine ⟨v, pd, (b, (s.sto b).n) :: newd', by simp [hkeys], ?_⟩
        rw [hreq]
        simp only [hs₁, upd_get, upd_upd, List.append_assoc, List.singleton_append]




/-- `setAtomStateValueOrPromise` over a store already updated at the same
atom. -/
theorem setValue_upd (σ : Store) (a : AtomId) (st : AtomSt) (v : Nat) :
    setAtomStateValueOrPromise (upd σ a st) a v =
      upd σ a (if st.v = some v then { st with v := some v, e := none }
               else { st with v := some v, e := none, n := st.n + 1 }) := by
  funext c
  by_cases hc : c = a <;> by_cases hv : st.v = some v <;>
    simp [setAtomStateValueOrPromise, upd, hc, hv]

/-- Recomputing an atom with a static `read` over mounted, value-holding,
unmarked dependencies: the read function runs exactly once, the result is a
value, the dependency map is re-recorded with the same keys, and the epoch
advances iff the value is not `Object.is`-identical to the previous one. -/
theorem computeAtomState_static (E : Env) (marked : List AtomId) (a : AtomId)
    (ds : List AtomId) (hstat : StaticR (E a).read ds) (hnd : ds.Nodup)
    (fuel : Nat) (s : S) (ast : AtomSt) (s' : S)
    (h : computeAtomState E fuel (some marked) a s = some (ast, s'))
    (hcond : ∀ b ∈ ds, b ≠ a ∧ b ∉ marked ∧ (s.sto b).m.isSome ∧ (s.sto b).v.isSome ∧
       (s.sto b).e = none ∧ a ∈ tOf s.sto b) :
    ∃ v pd newd, newd.map Prod.fst = ds ∧
      s' = ⟨upd s.sto a ⟨newd, (s.sto a).p,
              (if (s.sto a).v = some v then (s.sto a).n else (s.sto a).n + 1),
              (s.sto a).m, some v, none⟩,
            pd, s.log ++ [Event.readInvoked a]⟩ ∧
      ast = s'.sto a := by
  match fuel with
  | 0 => simp [computeAtomState] at h
  | fuel + 1 =>
    rw [computeAtomState] at h
    simp only [] at h
    cases he : evalRead E fuel (some marked) a (E a).read
        ⟨upd s.sto a ⟨[], (s.sto a).p, (s.sto a).n, (s.sto a).m, (s.sto a).v, (s.sto a).e⟩,
         s.pend, s.log ++ [Event.readInvoked a]⟩ with
    | none => rw [he] at h; exact absurd h (by simp)
    | some res =>
      obtain ⟨v, pd, newd, hkeys, hres⟩ :=
        evalRead_static E marked a hstat fuel _ res he hnd (by
          intro b hb
          obtain ⟨h1, h2, h3, h4, h5, h6⟩ := hcond b hb
          have hsb : upd s.sto a
              (⟨[], (s.sto a).p, (s.sto a).n, (s.sto a).m, (s.sto a).v,
                (s.sto a).e⟩ : AtomSt) b = s.sto b :=
            upd_ne _ _ _ _ h1
          dsimp only
          rw [tOf_congr s.sto _ b hsb, hsb, upd_get]
          exact ⟨h1, h2, h3, h4, h5, h6, by simp⟩)
      rw [he, hres] at h
      simp only [upd_get, upd_upd, List.nil_append] at h
      rw [setValue_upd] at h
      simp only [upd_get, Option.some.injEq, Prod.mk.injEq] at h
      obtain ⟨hast, hs'⟩ := h
      refine ⟨v, pd, newd, hkeys, ?_, ?_⟩
      · rw [← hs']
        by_cases hprev : (s.sto a).v = some v <;> simp [hprev]
      · rw [← hast, ← hs']
        by_cases hprev : (s.sto a).v = some v <;> simp [hprev, upd_get]



/-- `mdAdd` over dependencies that are all already mounted dependencies is the
identity. -/
theorem mdAdd_id (E : Env) :
    ∀ (fuel : Nat) (a : AtomId) (bs : List AtomId) (s s' : S) (mm : Mounted),
    (s.sto a).m = some mm → (∀ b ∈ bs, b ∈ mm.d) →
    mdAdd E fuel a bs s = some s' → s' = s := by
  intro fuel
  induction fuel with
  | zero => intro a bs s s' mm _ _ h; simp [mdAdd] at h
  | succ fuel ih =>
    intro a bs s s' mm hm hsub h
    match bs with
    | [] =>
      rw [mdAdd] at h
      simp only [Option.some.injEq] at h
      exact h.symm
    | b :: rest =>
      rw [mdAdd] at h
      simp only [hm] at h
      rw [if_pos (hsub b (List.mem_cons_self b rest))] at h
      exact ih a rest s s' mm hm (fun c hc => hsub c (List.mem_cons_of_mem b hc)) h

/-- `mdRemove` over members that are all still recorded dependencies is the
identity. -/
theorem mdRemove_id (E : Env) :
    ∀ (fuel : Nat) (a : AtomId) (bs : List AtomId) (s s' : S),
    (∀ b ∈ bs, b ∈ (s.sto a).d.map Prod.fst) →
    mdRemove E fuel a bs s = some s' → s' = s := by
  intro fuel
  induction fuel with
  | zero => intro a bs s s' _ h; simp [mdRemove] at h
  | succ fuel ih =>
    intro a bs s s' hsub h
    match bs with
    | [] =>
      rw [mdRemove] at h
      simp only [Option.some.injEq] at h
      exact h.symm
    | b :: rest =>
      rw [mdRemove] at h
      have hb : ((s.sto a).d.any fun bd => bd.1 = b) = true := by
        obtain ⟨bd, hbd, hfst⟩ := List.mem_map.1 (hsub b (List.mem_cons_self b rest))
        exact List.any_eq_true.2 ⟨bd, hbd, by simp [hfst]⟩
      rw [if_pos hb] at h
      exact ih a rest s s' (fun c hc => hsub c (List.mem_cons_of_mem b hc)) h

/-- `mountDependencies` is the identity when the mounted dependency set
already coincides with the recorded dependency keys. -/
theorem mountDependencies_id (E : Env) (fuel : Nat) (a : AtomId) (s s' : S)
    (mm : Mounted) (hm : (s.sto a).m = some mm)
    (h1 : ∀ b ∈ (s.sto a).d.map Prod.fst, b ∈ mm.d)
    (h2 : ∀ b ∈ mm.d, b ∈ (s.sto a).d.map Prod.fst)
    (h : mountDependencies E fuel a s = some s') : s' = s := by
  match fuel with
  | 0 => simp [mountDependencies] at h
  | fuel + 1 =>
    rw [mountDependencies] at h
    simp only [hm] at h
    cases hadd : mdAdd E fuel a ((s.sto a).d.map Prod.fst) s with
    | none => simp [hadd] at h
    | some s₁ =>
      simp only [hadd] at h
      have hs₁ : s₁ = s := mdAdd_id E fuel a _ s s₁ mm hm h1 hadd
      subst hs₁
      simp only [hm] at h
      exact mdRemove_id E fuel a mm.d _ s' h2 h

/-- A forced read (the atom is in the marked set) goes straight to
`computeAtomState`. -/
theorem readAtomState_forced (E : Env) (fuel : Nat) (marked : List AtomId)
    (a : AtomId) (s : S) (r : AtomSt × S) (ha : a ∈ marked)
    (h : readAtomState E (fuel + 1) (some marked) a s = some r) :
    computeAtomState E fuel (some marked) a s = some r := by
  rw [readAtomState] at h
  have hf : isForced (some marked) a = true := by simp [isForced, ha]
  rw [hf] at h
  simpa using h

/-- The ghost-event block of one processed atom of `recomputeLoop`: its
`readInvoked` event, followed by its `changedMark` event when the epoch
advanced. -/
def blockEv : AtomId × Bool → List Event
  | (z, c) => Event.readInvoked z :: (if c then [Event.changedMark z] else [])

/-- Concatenation of the per-atom event blocks. -/
def flatB : List (AtomId × Bool) → List Event
  | [] => []
  | bc :: rest => blockEv bc ++ flatB rest

theorem flatB_append : ∀ bs₁ bs₂, flatB (bs₁ ++ bs₂) = flatB bs₁ ++ flatB bs₂ := by
  intro bs₁ bs₂
  induction bs₁ with
  | nil => simp [flatB]
  | cons bc rest ih => simp [flatB, ih]

theorem mem_blockEv_rI (x : AtomId) (bc : AtomId × Bool) :
    Event.readInvoked x ∈ blockEv bc ↔ x = bc.1 := by
  obtain ⟨z, c⟩ := bc
  cases c <;> simp [blockEv]

theorem mem_blockEv_cM (x : AtomId) (bc : AtomId × Bool) :
    Event.changedMark x ∈ blockEv bc ↔ (x = bc.1 ∧ bc.2 = true) := by
  obtain ⟨z, c⟩ := bc
  cases c <;> simp [blockEv]

theorem mem_flatB_rI (x : AtomId) :
    ∀ bs, (Event.readInvoked x ∈ flatB bs ↔ x ∈ bs.map Prod.fst) := by
  intro bs
  induction bs with
  | nil => simp [flatB]
  | cons bc rest ih =>
    simp only [flatB, List.mem_append, ih, List.map_cons, List.mem_cons, mem_blockEv_rI]

theorem mem_flatB_cM (x : AtomId) :
    ∀ bs, (Event.changedMark x ∈ flatB bs ↔ (x, true) ∈ bs) := by
  intro bs
  induction bs with
  | nil => simp [flatB]
  | cons bc rest ih =>
    obtain ⟨z, c⟩ := bc
    simp only [flatB, List.mem_append, ih, List.mem_cons, mem_blockEv_cM, Prod.mk.injEq]
    cases c <;> simp

theorem count_flatB_rI (x : AtomId) :
    ∀ bs, (flatB bs).count (Event.readInvoked x) = (bs.map Prod.fst).count x := by
  intro bs
  induction bs with
  | nil => simp [flatB]
  | cons bc rest ih =>
    obtain ⟨z, c⟩ := bc
    rw [flatB, List.count_append, ih]
    cases c <;> by_cases hxz : z = x <;>
      simp [blockEv, List.count_cons, hxz] <;> omega

theorem indexOf_flatB_lt (x y : AtomId) :
    ∀ bs : List (AtomId × Bool), (bs.map Prod.fst).Nodup →
    List.Sublist [x, y] (bs.map Prod.fst) →
    (flatB bs).indexOf (Event.readInvoked x) < (flatB bs).indexOf (Event.readInvoked y) := by
  intro bs
  induction bs with
  | nil => intro _ hs; simp at hs
  | cons bc rest ih =>
    intro hnd hs
    obtain ⟨z, c⟩ := bc
    simp only [List.map_cons] at hnd hs
    have hzrest : z ∉ rest.map Prod.fst := (List.nodup_cons.1 hnd).1
    cases hs with
    | cons _ hs' =>
      -- both x and y occur in the tail
      have hx : x ∈ rest.map Prod.fst := hs'.subset (by simp)
      have hy : y ∈ rest.map Prod.fst := hs'.subset (by simp)
      have hxz : x ≠ z := fun he => hzrest (he ▸ hx)
      have hyz : y ≠ z := fun he => hzrest (he ▸ hy)
      have hnx : Event.readInvoked x ∉ blockEv (z, c) := by
        rw [mem_blockEv_rI]; exact hxz
      have hny : Event.readInvoked y ∉ blockEv (z, c) := by
        rw [mem_blockEv_rI]; exact hyz
      rw [flatB, List.indexOf_append_of_not_mem hnx, List.indexOf_append_of_not_mem hny]
      exact Nat.add_lt_add_left (ih (List.nodup_cons.1 hnd).2 hs') _
    | cons₂ _ hs' =>
      -- x is the head block
      have hy : y ∈ rest.map Prod.fst := hs'.subset (by simp)
      have hyx : y ≠ x := fun he => hzrest (he ▸ hy)
      have hny : Event.readInvoked y ∉ blockEv (x, c) := by
        rw [mem_blockEv_rI]; exact hyx
      rw [flatB, List.indexOf_append_of_not_mem hny]
      have hx0 : (blockEv (x, c)).indexOf (Event.readInvoked x) = 0 := by
        cases c <;> simp [blockEv]
      rw [List.indexOf_append_of_mem (by rw [mem_blockEv_rI])]
      rw [hx0]
      have hlen : 0 < (blockEv (x, c)).length := by cases c <;> simp [blockEv]
      omega

theorem pair_sublist_or (x y : AtomId) :
    ∀ l : List AtomId, x ∈ l → y ∈ l → x ≠ y →
    List.Sublist [x, y] l ∨ List.Sublist [y, x] l := by
  intro l
  induction l with
  | nil => simp
  | cons z rest ih =>
    intro hx hy hxy
    by_cases hxz : x = z
    · subst hxz
      have hyr : y ∈ rest := by
        rcases List.mem_cons.1 hy with he | h
        · exact absurd he.symm hxy
        · exact h
      exact Or.inl (List.Sublist.cons₂ x (List.singleton_sublist.2 hyr))
    · by_cases hyz : y = z
      · subst hyz
        have hxr : x ∈ rest := by
          rcases List.mem_cons.1 hx with he | h
          · exact absurd he hxz
          · exact h
        exact Or.inr (List.Sublist.cons₂ y (List.singleton_sublist.2 hxr))
      · have hxr : x ∈ rest := by
          rcases List.mem_cons.1 hx with he | h
          · exact absurd he hxz
          · exact h
        have hyr : y ∈ rest := by
          rcases List.mem_cons.1 hy with he | h
          · exact absurd he hyz
          · exact h
        rcases ih hxr hyr hxy with h | h
        · exact Or.inl (List.Sublist.cons z h)
        · exact Or.inr (List.Sublist.cons z h)

theorem pair_sublist_asymm (x y : AtomId) :
    ∀ l : List AtomId, l.Nodup → x ≠ y →
    List.Sublist [x, y] l → List.Sublist [y, x] l → False := by
  intro l
  induction l with
  | nil => intro _ _ h; simp at h
  | cons z rest ih =>
    intro hnd hxy h1 h2
    have hzr : z ∉ rest := (List.nodup_cons.1 hnd).1
    cases h1 with
    | cons _ h1' =>
      cases h2 with
      | cons _ h2' => exact ih (List.nodup_cons.1 hnd).2 hxy h1' h2'
      | cons₂ _ h2' =>
        -- z = y while [x, y] is a sublist of rest, so y ∈ rest: contradiction
        exact hzr (h1'.subset (by simp))
    | cons₂ _ h1' =>
      -- z = x
      cases h2 with
      | cons _ h2' => exact hzr (h2'.subset (by simp))
      | cons₂ _ h2' => exact hxy rfl

theorem pair_sublist_transfer (x y : AtomId) (sub l : List AtomId) (hnd : l.Nodup)
    (hsub : List.Sublist sub l) (hx : x ∈ sub) (hy : y ∈ sub) (hxy : x ≠ y)
    (hord : List.Sublist [x, y] l) : List.Sublist [x, y] sub := by
  rcases pair_sublist_or x y sub hx hy hxy with h | h
  · exact h
  · exact absurd (h.trans hsub) fun hc => pair_sublist_asymm x y l hnd hxy hord hc

/-- `tOf` only depends on the atom's mounted record. -/
theorem tOf_congr_m (σ σ' : Store) (b : AtomId) (h : (σ' b).m = (σ b).m) :
    tOf σ' b = tOf σ b := by
  simp [tOf, h]

/-- The propagation loop of `recomputeDependents`, processed against a
well-formed store with static reads: each processed atom either has no changed
recorded dependency and is skipped without a trace, or is recomputed exactly
once, producing the event block `readInvoked` (+ `changedMark` on an epoch
advance); untouched atoms keep their exact state. -/
theorem recomputeLoop_blocks (E : Env) (σ₀ : Store) (root : AtomId) (lg₀ : List Event)
    (wf : WfStore E σ₀) :
    ∀ (fuel : Nat) (rest marked changed : List AtomId) (s s' : S)
      (blocks : List (AtomId × Bool)),
    recomputeLoop E fuel rest marked changed s = some s' →
    rest.Nodup →
    List.Pairwise (fun u w => u ∉ tOf σ₀ w) rest →
    (∀ x ∈ rest, x = root ∨ (σ₀ x).m.isSome) →
    marked.Nodup →
    (∀ x, x ∈ marked ↔ x ∈ rest) →
    (∀ b, b ∉ blocks.map Prod.fst → s.sto b = σ₀ b) →
    (∀ b ∈ blocks.map Prod.fst, b ∉ rest ∧ (σ₀ b).m.isSome ∧
        (s.sto b).m = (σ₀ b).m ∧ (s.sto b).v.isSome ∧ (s.sto b).e = none) →
    (∀ x, x ∈ changed ↔ (x = root ∨ (x, true) ∈ blocks)) →
    (blocks.map Prod.fst).Nodup →
    s.log = lg₀ ++ flatB blocks →
    (root ∈ rest → changed = [root] ∧ blocks = []) →
    ∃ δ : List (AtomId × Bool),
      List.Sublist (δ.map Prod.fst) rest ∧
      root ∉ δ.map Prod.fst ∧
      s'.log = lg₀ ++ flatB (blocks ++ δ) ∧
      (∀ b, b ∉ (blocks ++ δ).map Prod.fst → s'.sto b = σ₀ b) ∧
      (∀ z c, (z, c) ∈ δ → ∃ b, b ∈ dKeys σ₀ z ∧ b ≠ z ∧
        (b = root ∨ (b, true) ∈ blocks ++ δ)) := by
  intro fuel
  induction fuel with
  | zero =>
    intro rest marked changed s s' blocks h _ _ _ _ _ _ _ _ _ _ _
    simp [recomputeLoop] at h
  | succ fuel ih =>
    intro rest marked changed s s' blocks h hndR hpwR hmnt hndM hmk hF1 hF2 hchg hndB hlog hroot
    match rest with
    | [] =>
      rw [recomputeLoop] at h
      simp only [Option.some.injEq] at h
      subst h
      refine ⟨[], by simp, by simp, ?_, ?_, by simp⟩
      · rw [List.append_nil]; exact hlog
      · intro b hb
        rw [List.append_nil] at hb
        exact hF1 b hb
    | a :: rest' =>
      rw [recomputeLoop] at h
      simp only [] at h
      have haR : a ∉ rest' := (List.nodup_cons.1 hndR).1
      have hndR' : rest'.Nodup := (List.nodup_cons.1 hndR).2
      have hpwHead : ∀ w ∈ rest', a ∉ tOf σ₀ w := (List.pairwise_cons.1 hpwR).1
      have hpwR' := (List.pairwise_cons.1 hpwR).2
      have hmk' : ∀ x, x ∈ marked.erase a ↔ x ∈ rest' := by
        intro x
        rw [hndM.mem_erase_iff]
        constructor
        · rintro ⟨hxa, hx⟩
          rcases List.mem_cons.1 ((hmk x).1 hx) with he | hx'
          · exact absurd he hxa
          · exact hx'
        · intro hx
          exact ⟨fun he => haR (he ▸ hx), (hmk x).2 (List.mem_cons_of_mem a hx)⟩
      by_cases hcd : ((s.sto a).d.any fun bd => decide (bd.1 ≠ a ∧ bd.1 ∈ changed)) = true
      · -- a changed-dependency test succeeded: the atom is recomputed
        rw [if_pos hcd] at h
        have haB : a ∉ blocks.map Prod.fst := by
          intro hmem
          exact (hF2 a hmem).1 (List.mem_cons_self a rest')
        have hsa : s.sto a = σ₀ a := hF1 a haB
        obtain ⟨bd, hbdmem, hbdP⟩ := List.any_eq_true.1 hcd
        obtain ⟨hbne, hbchg⟩ := of_decide_eq_true hbdP
        have hbdmem₀ : bd ∈ (σ₀ a).d := hsa ▸ hbdmem
        have hanr : a ≠ root := by
          intro he
          obtain ⟨hchg1, _⟩ := hroot (he ▸ List.mem_cons_self a rest')
          rw [hchg1, List.mem_singleton] at hbchg
          exact hbne (by rw [hbchg, ← he])
        have ham' : (σ₀ a).m.isSome := by
          rcases hmnt a (List.mem_cons_self a rest') with he | hm
          · exact absurd he hanr
          · exact hm
        have hb0 : bd.1 ∈ dKeys σ₀ a := List.mem_map.2 ⟨bd, hbdmem₀, rfl⟩
        have hstat := wf.readsStatic a ham' (List.ne_nil_of_mem hbdmem₀)
        have hdnd := wf.dNodup a ham'
        have ham : a ∈ marked := (hmk a).2 (List.mem_cons_self a rest')
        have hdepcond : ∀ b ∈ dKeys σ₀ a, b ≠ a ∧ b ∉ marked ∧ (s.sto b).m.isSome ∧
            (s.sto b).v.isSome ∧ (s.sto b).e = none ∧ a ∈ tOf s.sto b := by
          intro b hb
          have hba : b ≠ a := fun he => wf.noSelf a ham' (he ▸ hb)
          have hbm : b ∉ marked := by
            intro hmem
            rcases List.mem_cons.1 ((hmk b).1 hmem) with he | hbr
            · exact hba he
            · exact hpwHead b hbr (wf.depBack a ham' b hb)
          by_cases hbB : b ∈ blocks.map Prod.fst
          · obtain ⟨_, hbm₀, hmEq, hv, he⟩ := hF2 b hbB
            refine ⟨hba, hbm, by rw [hmEq]; exact hbm₀, hv, he, ?_⟩
            rw [tOf_congr_m σ₀ s.sto b hmEq]
            exact wf.depBack a ham' b hb
          · have hsb : s.sto b = σ₀ b := hF1 b hbB
            have hbm₀ := wf.depMounted a ham' b hb
            refine ⟨hba, hbm, by rw [hsb]; exact hbm₀, by rw [hsb]; exact wf.vSome b hbm₀,
              by rw [hsb]; exact wf.eNone b hbm₀, ?_⟩
            rw [tOf_congr σ₀ s.sto b hsb]
            exact wf.depBack a ham' b hb
        cases fuel with
        | zero => simp [readAtomState] at h
        | succ fuelI =>
          cases hr : readAtomState E (fuelI + 1) (some marked) a s with
          | none => rw [hr] at h; exact absurd h (by simp)
          | some asts =>
            obtain ⟨ast, s₁⟩ := asts
            rw [hr] at h
            simp only [] at h
            have hcomp := readAtomState_forced E fuelI marked a s (ast, s₁) ham hr
            obtain ⟨v, pd, newd, hkeys, hs₁eq, hasteq⟩ :=
              computeAtomState_static E marked a (dKeys σ₀ a) hstat hdnd fuelI s ast s₁
                hcomp hdepcond
            obtain ⟨cFlag, hnval⟩ : ∃ c : Bool,
                (if (s.sto a).v = some v then (s.sto a).n else (s.sto a).n + 1)
                  = (if c then (s.sto a).n + 1 else (s.sto a).n) := by
              by_cases hprev : (s.sto a).v = some v
              · exact ⟨false, by simp [hprev]⟩
              · exact ⟨true, by simp [hprev]⟩
            rw [hnval] at hs₁eq
            obtain ⟨mmA, hmmA⟩ := Option.isSome_iff_exists.1 ham'
            have hs₁a : s₁.sto a = ⟨newd, (s.sto a).p,
                (if cFlag then (s.sto a).n + 1 else (s.sto a).n),
                (s.sto a).m, some v, none⟩ := by
              rw [hs₁eq]; exact upd_get s.sto a _
            have hs₁m : (s₁.sto a).m = some mmA := by
              rw [hs₁a]
              show (s.sto a).m = some mmA
              rw [hsa]; exact hmmA
            cases hmd : mountDependencies E (fuelI + 1) a s₁ with
            | none => rw [hmd] at h; exact absurd h (by simp)
            | some s₂ =>
              rw [hmd] at h
              simp only [] at h
              have hmdid : s₂ = s₁ := by
                apply mountDependencies_id E (fuelI + 1) a s₁ s₂ mmA hs₁m ?_ ?_ hmd
                · intro b hb
                  rw [hs₁a] at hb
                  rw [wf.mdEq a mmA hmmA, ← hkeys]
                  exact hb
                · intro b hb
                  rw [wf.mdEq a mmA hmmA] at hb
                  rw [hs₁a]
                  show b ∈ newd.map Prod.fst
                  rw [hkeys]; exact hb
              rw [hmdid] at h
              have hn₁ : (s₁.sto a).n = if cFlag then (s.sto a).n + 1 else (s.sto a).n := by
                rw [hs₁a]
              rw [hn₁] at h
              -- shared re-established invariants
              have hF1' : ∀ b, b ≠ a → b ∉ blocks.map Prod.fst → s₁.sto b = σ₀ b := by
                intro b hba hb
                rw [hs₁eq]
                show upd s.sto a _ b = σ₀ b
                rw [upd_ne _ _ _ _ hba]
                exact hF1 b hb
              have hsam : (s₁.sto a).m = (σ₀ a).m := by
                rw [hs₁a]
                show (s.sto a).m = (σ₀ a).m
                rw [hsa]
              have hF2a : (σ₀ a).m.isSome ∧ (s₁.sto a).m = (σ₀ a).m ∧
                  (s₁.sto a).v.isSome ∧ (s₁.sto a).e = none :=
                ⟨ham', hsam, by simp [hs₁a], by rw [hs₁a]⟩
              have hF2old : ∀ b ∈ blocks.map Prod.fst, b ∉ rest' ∧ (σ₀ b).m.isSome ∧
                  (s₁.sto b).m = (σ₀ b).m ∧ (s₁.sto b).v.isSome ∧ (s₁.sto b).e = none := by
                intro b hb
                obtain ⟨hb1, hb2, hb3, hb4, hb5⟩ := hF2 b hb
                have hba : b ≠ a := fun he => haB (he ▸ hb)
                have hsb : s₁.sto b = s.sto b := by
                  rw [hs₁eq]
                  exact upd_ne _ _ _ _ hba
                exact ⟨fun hbr => hb1 (List.mem_cons_of_mem a hbr), hb2,
                  by rw [hsb]; exact hb3, by rw [hsb]; exact hb4, by rw [hsb]; exact hb5⟩
              have hrootFalse : root ∉ rest' := by
                intro hrr
                obtain ⟨hchg1, _⟩ := hroot (List.mem_cons_of_mem a hrr)
                rw [hchg1, List.mem_singleton] at hbchg
                exact hpwHead root hrr (hbchg ▸ wf.depBack a ham' bd.1 hb0)
              cases cFlag with
              | false =>
                rw [if_neg (by simp)] at h
                obtain ⟨δ', hδ1, hδ2, hδ3, hδ4, hδ5⟩ :=
                  ih rest' (marked.erase a) changed s₁ s' (blocks ++ [(a, false)]) h
                    hndR' hpwR' (fun x hx => hmnt x (List.mem_cons_of_mem a hx))
                    (hndM.erase a) hmk'
                    (by
                      intro b hb
                      simp only [List.map_append, List.mem_append, List.map_cons,
                        List.map_nil, List.mem_singleton, not_or] at hb
                      exact hF1' b (by simpa using hb.2) hb.1)
                    (by
                      intro b hb
                      simp only [List.map_append, List.mem_append, List.map_cons,
                        List.map_nil, List.mem_singleton] at hb
                      rcases hb with hb | hb
                      · exact hF2old b hb
                      · subst hb
                        exact ⟨haR, hF2a.1, hF2a.2.1, hF2a.2.2.1, hF2a.2.2.2⟩)
                    (by
                      intro x
                      rw [hchg x]
                      simp only [List.mem_append, List.mem_singleton, Prod.mk.injEq]
                      constructor
                      · rintro (h' | h')
                        · exact Or.inl h'
                        · exact Or.inr (Or.inl h')
                      · rintro (h' | h' | ⟨h1, h2⟩)
                        · exact Or.inl h'
                        · exact Or.inr h'
                        · exact absurd h2 (by simp))
                    (by
                      simp only [List.map_append, List.map_cons, List.map_nil]
                      rw [List.nodup_append]
                      refine ⟨hndB, List.nodup_singleton a, ?_⟩
                      intro x hx hxa
                      simp only [List.mem_singleton] at hxa
                      exact haB (hxa ▸ hx))
                    (by
                      rw [hs₁eq]
                      show s.log ++ [Event.readInvoked a]
                        = lg₀ ++ flatB (blocks ++ [(a, false)])
                      rw [hlog, flatB_append]
                      simp [flatB, blockEv, List.append_assoc])
                    (fun hrr => absurd hrr hrootFalse)
                have hcat : (blocks ++ [(a, false)]) ++ δ' = blocks ++ (a, false) :: δ' := by
                  simp
                rw [hcat] at hδ3 hδ4 hδ5
                refine ⟨(a, false) :: δ', List.Sublist.cons₂ a hδ1, ?_, hδ3, hδ4, ?_⟩
                · simp only [List.map_cons, List.mem_cons, not_or]
                  exact ⟨fun he => hanr he.symm, hδ2⟩
                · intro z c hz
                  rcases List.mem_cons.1 hz with he | hz'
                  · have hz1 : z = a := congrArg Prod.fst he
                    subst hz1
                    refine ⟨bd.1, hb0, hbne, ?_⟩
                    rcases (hchg bd.1).1 hbchg with hR | hB
                    · exact Or.inl hR
                    · exact Or.inr (List.mem_append.2 (Or.inl hB))
                  · exact hδ5 z c hz'
              | true =>
                rw [show (if true then (s.sto a).n + 1 else (s.sto a).n)
                    = (s.sto a).n + 1 from rfl] at h
                rw [if_pos (Nat.ne_of_lt (Nat.lt_succ_self _))] at h
                obtain ⟨δ', hδ1, hδ2, hδ3, hδ4, hδ5⟩ :=
                  ih rest' (marked.erase a) (changed ++ [a])
                    ⟨s₁.sto, s₁.pend.map fun p => addPendingAtom p a,
                      s₁.log ++ [Event.changedMark a]⟩ s' (blocks ++ [(a, true)]) h
                    hndR' hpwR' (fun x hx => hmnt x (List.mem_cons_of_mem a hx))
                    (hndM.erase a) hmk'
                    (by
                      intro b hb
                      simp only [List.map_append, List.mem_append, List.map_cons,
                        List.map_nil, List.mem_singleton, not_or] at hb
                      exact hF1' b (by simpa using hb.2) hb.1)
                    (by
                      intro b hb
                      simp only [List.map_append, List.mem_append, List.map_cons,
                        List.map_nil, List.mem_singleton] at hb
                      rcases hb with hb | hb
                      · exact hF2old b hb
                      · subst hb
                        exact ⟨haR, hF2a.1, hF2a.2.1, hF2a.2.2.1, hF2a.2.2.2⟩)
                    (by
                      intro x
                      simp only [List.mem_append, List.mem_singleton, hchg x,
                        Prod.mk.injEq]
                      constructor
                      · rintro ((h' | h') | h')
                        · exact Or.inl h'
                        · exact Or.inr (Or.inl h')
                        · exact Or.inr (Or.inr ⟨h', trivial⟩)
                      · rintro (h' | h' | ⟨h1, _⟩)
                        · exact Or.inl (Or.inl h')
                        · exact Or.inl (Or.inr h')
                        · exact Or.inr h1)
                    (by
                      simp only [List.map_append, List.map_cons, List.map_nil]
                      rw [List.nodup_append]
                      refine ⟨hndB, List.nodup_singleton a, ?_⟩
                      intro x hx hxa
                      simp only [List.mem_singleton] at hxa
                      exact haB (hxa ▸ hx))
                    (by
                      show s₁.log ++ [Event.changedMark a]
                        = lg₀ ++ flatB (blocks ++ [(a, true)])
                      rw [hs₁eq]
                      show (s.log ++ [Event.readInvoked a]) ++ [Event.changedMark a]
                        = lg₀ ++ flatB (blocks ++ [(a, true)])
                      rw [hlog, flatB_append]
                      simp [flatB, blockEv, List.append_assoc])
                    (fun hrr => absurd hrr hrootFalse)
                have hcat : (blocks ++ [(a, true)]) ++ δ' = blocks ++ (a, true) :: δ' := by
                  simp
                rw [hcat] at hδ3 hδ4 hδ5
                refine ⟨(a, true) :: δ', List.Sublist.cons₂ a hδ1, ?_, hδ3, hδ4, ?_⟩
                · simp only [List.map_cons, List.mem_cons, not_or]
                  exact ⟨fun he => hanr he.symm, hδ2⟩
                · intro z c hz
                  rcases List.mem_cons.1 hz with he | hz'
                  · have hz1 : z = a := congrArg Prod.fst he
                    subst hz1
                    refine ⟨bd.1, hb0, hbne, ?_⟩
                    rcases (hchg bd.1).1 hbchg with hR | hB
                    · exact Or.inl hR
                    · exact Or.inr (List.mem_append.2 (Or.inl hB))
                  · exact hδ5 z c hz'
      · -- no changed recorded dependency: the atom is skipped untouched
        rw [if_neg hcd] at h
        obtain ⟨δ, hδ1, hδ2, hδ3, hδ4, hδ5⟩ :=
          ih rest' (marked.erase a) changed s s' blocks h hndR' hpwR'
            (fun x hx => hmnt x (List.mem_cons_of_mem a hx)) (hndM.erase a) hmk' hF1
            (fun b hb => ⟨fun hbr => (hF2 b hb).1 (List.mem_cons_of_mem a hbr),
              (hF2 b hb).2.1, (hF2 b hb).2.2.1, (hF2 b hb).2.2.2.1, (hF2 b hb).2.2.2.2⟩)
            hchg hndB hlog
            (fun hrr => hroot (List.mem_cons_of_mem a hrr))
        exact ⟨δ, List.Sublist.cons a hδ1, hδ2, hδ3, hδ4, hδ5⟩

/-- With no pending-promise dependents and no pending dependents recorded in
`pending[0]`, `getDependents` is exactly the mounted-dependents set. -/
theorem getDependents_eq_tOf (σ₀ : Store) (pd₀ : Pend) (lg₀ : List Event)
    (hp : ∀ a, (σ₀ a).p = [])
    (hpd : ∀ a xs, pd₀.dep.lookup a = some xs → xs = []) :
    ∀ x, getDependents ⟨σ₀, some pd₀, lg₀⟩ x = tOf σ₀ x := by
  intro x
  unfold getDependents
  simp only [hp x, List.foldl_nil]
  cases hlk : pd₀.dep.lookup x with
  | none =>
    simp only [hlk, Option.getD_none, List.foldl_nil]
    cases hm : (σ₀ x).m <;> simp [tOf, hm]
  | some xs =>
    have hxs := hpd x xs hlk
    subst hxs
    simp only [hlk, Option.getD_some, List.foldl_nil]
    cases hm : (σ₀ x).m <;> simp [tOf, hm]



/-- Amended claim C2: during dependent propagation over a well-formed mounted
store with static reads and an acyclic dependency graph (witnessed by a rank
function increasing along dependent edges), (i) every recomputed atom is
recomputed exactly once, (ii) a changed recorded dependency is always
recomputed before its dependent, and (iii) an atom none of whose recorded
dependencies is the written atom or is marked changed is neither recomputed
nor touched. -/
theorem c2_propagation_amended (E : Env) (σ₀ : Store) (pd₀ : Pend) (lg₀ : List Event)
    (root : AtomId) (fuel : Nat) (s' : S) (rank : AtomId → Nat)
    (hwf : WfStore E σ₀)
    (hpd : ∀ a xs, pd₀.dep.lookup a = some xs → xs = [])
    (hrank : ∀ x, ∀ y ∈ tOf σ₀ x, y ≠ x → rank x < rank y)
    (hrun : recomputeDependents E fuel root ⟨σ₀, some pd₀, lg₀⟩ = some s') :
    ∃ seg, s'.log = lg₀ ++ seg ∧
      (∀ Y, Event.readInvoked Y ∈ seg → seg.count (Event.readInvoked Y) = 1) ∧
      (∀ X Y, Event.readInvoked Y ∈ seg → X ∈ dKeys σ₀ Y →
        Event.changedMark X ∈ seg →
        Event.readInvoked X ∈ seg ∧
        seg.indexOf (Event.readInvoked X) < seg.indexOf (Event.readInvoked Y)) ∧
      (∀ Z, (∀ b ∈ dKeys σ₀ Z, b ≠ root ∧ Event.changedMark b ∉ seg) →
        Event.readInvoked Z ∉ seg ∧ s'.sto Z = σ₀ Z) := by
  match fuel with
  | 0 => simp [recomputeDependents] at hrun
  | fuel + 1 =>
    rw [recomputeDependents] at hrun
    have hdeq : getDependents ⟨σ₀, some pd₀, lg₀⟩ = tOf σ₀ :=
      funext (getDependents_eq_tOf σ₀ pd₀ lg₀ hwf.pEmpty hpd)
    rw [hdeq] at hrun
    cases hv : visit (tOf σ₀) fuel root ([], []) with
    | none => rw [hv] at hrun; exact absurd hrun (by simp)
    | some ma =>
      obtain ⟨marked, acc⟩ := ma
      rw [hv] at hrun
      simp only [] at hrun
      obtain ⟨δdfs, hacc0, hmk0, hfresh0, hinv0, hgp0, hrm0, hrloc0, hreach0⟩ :=
        (visit_spec (tOf σ₀) rank hrank fuel).1 root [] [] marked acc hv
          ⟨List.nodup_nil, List.nodup_nil, by simp, by simp, List.Pairwise.nil⟩
          (by simp)
      rw [List.nil_append] at hacc0
      obtain ⟨hndAcc, hndMk, hsubMk, hclo, hpw⟩ := hinv0
      have hms : ∀ x, x ∈ marked ↔ x ∈ acc := by
        intro x
        constructor
        · intro hx
          by_contra hxa
          exact absurd (hgp0 x hx hxa).1 (by simp)
        · exact hsubMk x
      have hmntAcc : ∀ x ∈ acc, x = root ∨ (σ₀ x).m.isSome := by
        intro x hx
        rcases hreach0 x (hacc0 ▸ hx) with he | ⟨u, hu, hxu⟩
        · exact Or.inl he
        · exact Or.inr (hwf.tMounted u x hxu)
      have hpwRev : List.Pairwise (fun u w => u ∉ tOf σ₀ w) acc.reverse := by
        rw [List.pairwise_reverse]
        exact hpw
      have hndRev : acc.reverse.Nodup := List.nodup_reverse.2 hndAcc
      obtain ⟨δ, hsub, hrootδ, hlogF, hframe, hjust⟩ :=
        recomputeLoop_blocks E σ₀ root lg₀ hwf fuel acc.reverse marked [root]
          ⟨σ₀, some pd₀, lg₀⟩ s' [] hrun
          hndRev hpwRev
          (fun x hx => hmntAcc x (List.mem_reverse.1 hx))
          hndMk
          (fun x => by rw [hms x, List.mem_reverse])
          (fun b _ => rfl)
          (fun b hb => absurd hb (by simp))
          (fun x => by simp)
          (by simp)
          (by simp [flatB])
          (fun _ => ⟨rfl, rfl⟩)
      simp only [List.nil_append] at hlogF hframe hjust
      have hndδ : (δ.map Prod.fst).Nodup := List.Nodup.sublist hsub hndRev
      refine ⟨flatB δ, hlogF, ?_, ?_, ?_⟩
      · -- each recomputed atom reads exactly once
        intro Y hY
        rw [count_flatB_rI]
        exact List.count_eq_one_of_mem hndδ ((mem_flatB_rI Y δ).1 hY)
      · -- a changed recorded dependency recomputes strictly before its dependent
        intro X Y hY hXk hXc
        have hYδ : Y ∈ δ.map Prod.fst := (mem_flatB_rI Y δ).1 hY
        have hXt : (X, true) ∈ δ := (mem_flatB_cM X δ).1 hXc
        have hXδ : X ∈ δ.map Prod.fst := List.mem_map.2 ⟨(X, true), hXt, rfl⟩
        refine ⟨(mem_flatB_rI X δ).2 hXδ, ?_⟩
        have hYnr : Y ≠ root := fun he => hrootδ (he ▸ hYδ)
        have hYm : (σ₀ Y).m.isSome := by
          rcases hmntAcc Y (List.mem_reverse.1 (hsub.subset hYδ)) with he | hm
          · exact absurd he hYnr
          · exact hm
        have hXY : X ≠ Y := fun he => hwf.noSelf Y hYm (he ▸ hXk)
        have hedge : Y ∈ tOf σ₀ X := hwf.depBack Y hYm X hXk
        have hXp : X ∈ acc.reverse := hsub.subset hXδ
        have hYp : Y ∈ acc.reverse := hsub.subset hYδ
        have hordP : List.Sublist [X, Y] acc.reverse := by
          rcases pair_sublist_or X Y acc.reverse hXp hYp hXY with hor | hor
          · exact hor
          · exact absurd hedge
              (List.rel_of_pairwise_cons (List.Pairwise.sublist hor hpwRev) (by simp))
        exact indexOf_flatB_lt X Y δ hndδ
          (pair_sublist_transfer X Y (δ.map Prod.fst) acc.reverse hndRev hsub hXδ hYδ
            hXY hordP)
      · -- atoms with no changed recorded dependency are skipped untouched
        intro Z hZ
        have hZδ : Z ∉ δ.map Prod.fst := by
          intro hmem
          obtain ⟨⟨z, c⟩, hzc, hfst⟩ := List.mem_map.1 hmem
          subst hfst
          obtain ⟨b, hbk, hbz, hbloc⟩ := hjust z c hzc
          obtain ⟨hbr, hbc⟩ := hZ b hbk
          rcases hbloc with he | hmem'
          · exact hbr he
          · exact hbc ((mem_flatB_cM b δ).2 hmem')
        exact ⟨fun hmem => hZδ ((mem_flatB_rI Z δ).1 hmem), hframe Z hZδ⟩

/-- Concrete witness environment for the amended C2: a mounted primitive atom
`0` and a mounted derived atom `1 = get 0`. -/
def c2wEnv : Env := fun a =>
  match a with
  | 0 => primAtom 0 7
  | _ => derivedAtom (.get 0 fun v => .ret v)

/-- Witness store: atom `0` holds `7` at epoch `1`; atom `1` recorded `0` at
the stale epoch `0` and holds `3`. -/
def c2wSto : Store := fun a =>
  match a with
  | 0 => ⟨[], [], 1, some ⟨[], [], [1], false⟩, some 7, none⟩
  | 1 => ⟨[(0, 0)], [], 0, some ⟨[], [0], [], false⟩, some 3, none⟩
  | _ => AtomSt.fresh

/-- The state after propagating from atom `0`: atom `1` recomputed to `7`. -/
def c2wFin : S :=
  ⟨fun a =>
    match a with
    | 0 => ⟨[], [], 1, some ⟨[], [], [1], false⟩, some 7, none⟩
    | 1 => ⟨[(0, 1)], [], 1, some ⟨[], [0], [], false⟩, some 7, none⟩
    | _ => AtomSt.fresh,
   some ⟨[(1, [])], [1], []⟩,
   [.readInvoked 1, .changedMark 1]⟩

theorem c2w_wf : WfStore c2wEnv c2wSto := by
  constructor
  · intro a
    rcases a with _ | _ | a <;> rfl
  · intro a
    rcases a with _ | _ | a <;> simp [c2wSto, AtomSt.fresh]
  · intro a
    rcases a with _ | _ | a <;> simp [c2wSto, AtomSt.fresh]
  · intro a mm hm
    rcases a with _ | _ | a <;> simp [c2wSto, AtomSt.fresh] at hm <;>
      simp [← hm, dKeys, c2wSto]
  · intro a _
    rcases a with _ | _ | a <;> simp [dKeys, c2wSto, AtomSt.fresh]
  · intro a _
    rcases a with _ | _ | a <;> simp [dKeys, c2wSto, AtomSt.fresh]
  · intro a hma b hb
    rcases a with _ | _ | a <;> simp [dKeys, c2wSto, AtomSt.fresh] at hb ⊢
    · subst hb; simp [c2wSto]
  · intro a hma b hb
    rcases a with _ | _ | a <;> simp [dKeys, c2wSto, AtomSt.fresh] at hb ⊢
    · subst hb; simp [tOf, c2wSto]
  · intro a x hx
    rcases a with _ | _ | a <;> simp [tOf, c2wSto, AtomSt.fresh] at hx ⊢
    · subst hx; simp [c2wSto]
  · intro a x hx
    rcases a with _ | _ | a <;> simp [tOf, c2wSto, AtomSt.fresh] at hx ⊢
    · subst hx; simp [dKeys, c2wSto]
  · intro a hma hd
    rcases a with _ | _ | a
    · exact absurd rfl hd
    · show StaticR (.get 0 fun v => .ret v) (dKeys c2wSto 1)
      have : dKeys c2wSto 1 = [0] := rfl
      rw [this]
      exact StaticR.get 0 _ [] fun v => StaticR.ret v
    · simp [c2wSto, AtomSt.fresh] at hma

theorem c2w_pd : ∀ a xs, (Pend.empty.dep.lookup a) = some xs → xs = [] := by
  intro a xs h
  simp [Pend.empty] at h

theorem c2w_rank : ∀ x, ∀ y ∈ tOf c2wSto x, y ≠ x → id x < id y := by
  intro x y hy hne
  rcases x with _ | _ | x <;> simp [tOf, c2wSto, AtomSt.fresh] at hy
  subst hy
  decide



/-- Initial state of the witness propagation. -/
def c2wS0 : S := ⟨c2wSto, some Pend.empty, []⟩

/-- Intermediate state of the witness propagation: atom 1 recomputed. -/
def c2wS1 : S := ⟨c2wFin.sto, some Pend.empty, [.readInvoked 1]⟩

set_option maxHeartbeats 1000000 in
theorem c2w_read : readAtomState c2wEnv 17 (some [1]) 1 c2wS0
    = some (⟨[(0, 1)], [], 1, some ⟨[], [0], [], false⟩, some 7, none⟩, c2wS1) := by
  simp [readAtomState, computeAtomState, evalRead, isForced, isAtomStateInitialized,
    c2wEnv, c2wSto, c2wS0, primAtom, derivedAtom, setAtomStateValueOrPromise,
    returnAtomValue, upd, checkDeps, addDependency, mapSet, addPendingDependent,
    addPendingDependent.go, listAdd, AtomSt.fresh, Pend.empty, c2wS1, c2wFin]
  funext a
  rcases a with _ | _ | a <;> simp [upd, c2wSto, AtomSt.fresh]

set_option maxHeartbeats 1000000 in
theorem c2w_mount : mountDependencies c2wEnv 17 1 c2wS1 = some c2wS1 := by
  simp [mountDependencies, mdAdd, mdRemove, mountAtom, upd, listAdd, c2wEnv, primAtom,
    derivedAtom, AtomSt.fresh, c2wS1, c2wFin]

set_option maxHeartbeats 1000000 in
theorem c2w_run : recomputeDependents c2wEnv 20 0 c2wS0 = some c2wFin := by
  have hvisit : visit (getDependents c2wS0) 19 0 ([], []) = some ([0, 1], [1, 0]) := by
    decide
  have hp0 : c2wS0.sto 0
      = ⟨[], [], 1, some ⟨[], [], [1], false⟩, some 7, none⟩ := by decide
  have hp1 : c2wS0.sto 1
      = ⟨[(0, 0)], [], 0, some ⟨[], [0], [], false⟩, some 3, none⟩ := by decide
  have hq1 : (c2wS1.sto 1).n = 1 := by decide
  simp only [recomputeDependents, hvisit]
  rw [show ([1, 0] : List AtomId).reverse = [0, 1] by decide]
  rw [recomputeLoop.eq_def]
  simp only [hp0, List.any_nil, Bool.false_eq_true, if_false, List.erase_cons_head]
  rw [recomputeLoop.eq_def]
  simp [hp1, c2w_read, c2w_mount, hq1]
  rw [recomputeLoop.eq_def]
  simp [addPendingAtom, listAdd, Pend.empty, c2wS1, c2wFin]



theorem c2_propagation_amended_witness :
    ∃ seg, c2wFin.log = ([] : List Event) ++ seg ∧
      (∀ Y, Event.readInvoked Y ∈ seg → seg.count (Event.readInvoked Y) = 1) ∧
      (∀ X Y, Event.readInvoked Y ∈ seg → X ∈ dKeys c2wSto Y →
        Event.changedMark X ∈ seg → Event.readInvoked X ∈ seg ∧
        seg.indexOf (Event.readInvoked X) < seg.indexOf (Event.readInvoked Y)) ∧
      (∀ Z, (∀ b ∈ dKeys c2wSto Z, b ≠ 0 ∧ Event.changedMark b ∉ seg) →
        Event.readInvoked Z ∉ seg ∧ c2wFin.sto Z = c2wSto Z) :=
  c2_propagation_amended c2wEnv c2wSto Pend.empty [] 0 20 c2wFin id
    c2w_wf c2w_pd c2w_rank c2w_run




/-! ### Claim C4 (amended): cached reads, corrected dependency condition -/

/-- A mounted, initialized, unforced read is an exact no-op returning the
cached record, at every positive fuel. -/
theorem readAtomState_cached_eq (E : Env) (force : Option (List AtomId)) (a : AtomId)
    (s : S) (hf : isForced force a = false) (hm : (s.sto a).m.isSome)
    (hi : isAtomStateInitialized (s.sto a) = true) :
    ∀ fuel, 0 < fuel → readAtomState E fuel force a s = some (s.sto a, s) := by
  intro fuel hpos
  match fuel with
  | fuel + 1 =>
    rw [readAtomState]
    simp [hf, hi, hm]

/-- `checkDeps` over dependencies whose recursive reads are exact no-ops with
matching epochs succeeds without changing the state. -/
theorem checkDeps_settled (E : Env) (force : Option (List AtomId)) :
    ∀ (ds : List (AtomId × Nat)) (fuel : Nat) (s : S),
    (∀ bd ∈ ds, (∀ f, 0 < f → readAtomState E f force bd.1 s = some (s.sto bd.1, s)) ∧
      (s.sto bd.1).n = bd.2) →
    ds.length < fuel →
    checkDeps E fuel force ds s = some (true, s) := by
  intro ds
  induction ds with
  | nil =>
    intro fuel s _ hlen
    match fuel, hlen with
    | fuel + 1, _ => rw [checkDeps]
  | cons bd rest ih =>
    intro fuel s hdeps hlen
    match fuel, hlen with
    | fuel + 1, hlen =>
      obtain ⟨b, nb⟩ := bd
      obtain ⟨hread, hn⟩ := hdeps (b, nb) (List.mem_cons_self _ rest)
      rw [checkDeps]
      rw [hread fuel (by simp at hlen; omega)]
      simp only [hn, if_pos rfl]
      exact ih fuel s (fun bd hbd => hdeps bd (List.mem_cons_of_mem _ hbd))
        (by simp at hlen ⊢; omega)

/-- **C4 (amended).**  For an atom with an initialized value and an unforced
read: when mounted, `readAtomState` returns the existing cached record with the
state entirely unchanged (at every positive fuel), and `store.get` of such an
atom is idempotent — the second read returns the identical result pair.  When
unmounted, the cached record is likewise returned unchanged provided each
recorded dependency's recursive read is itself an exact no-op whose epoch
matches the recorded one (the condition the code actually checks; mere
call-time epoch equality is not sufficient, cf. the counterexample). -/
theorem c4_cached_read_amended (E : Env) (force : Option (List AtomId)) (a : AtomId)
    (s : S)
    (hf : isForced force a = false)
    (hi : isAtomStateInitialized (s.sto a) = true) :
    ((s.sto a).m.isSome →
      (∀ fuel, 0 < fuel → readAtomState E fuel force a s = some (s.sto a, s)) ∧
      (∀ fuel r, readAtom E fuel a s = some r →
        r = (returnAtomValue (s.sto a), { s with pend := none }) ∧
        readAtom E fuel a r.2 = some r)) ∧
    ((s.sto a).m = none →
      ∀ fuel, (s.sto a).d.length < fuel →
      (∀ bd ∈ (s.sto a).d,
        (∀ f, 0 < f → readAtomState E f force bd.1 s = some (s.sto bd.1, s)) ∧
        (s.sto bd.1).n = bd.2) →
      readAtomState E (fuel + 1) force a s = some (s.sto a, s)) := by
  constructor
  · intro hm
    constructor
    · exact readAtomState_cached_eq E force a s hf hm hi
    · intro fuel r hr
      match fuel with
      | 0 => simp [readAtom, readAtomState] at hr
      | fuel + 1 =>
        have hcache := readAtomState_cached_eq E none a { s with pend := none }
          rfl hm hi (fuel + 1) (Nat.succ_pos fuel)
        rw [readAtom] at hr
        rw [hcache] at hr
        simp only [Option.map_some', Option.some.injEq] at hr
        subst hr
        refine ⟨rfl, ?_⟩
        rw [readAtom]
        show (readAtomState E (fuel + 1) none a { s with pend := none }).map _ = _
        rw [hcache]
        rfl
  · intro hm fuel hlen hdeps
    rw [readAtomState]
    have hmfalse : (s.sto a).m.isSome = false := by rw [hm]; rfl
    simp only [hf, hi, hmfalse, Bool.not_false, Bool.true_and, if_true,
      Bool.false_eq_true, if_false]
    rw [checkDeps_settled E force (s.sto a).d fuel s hdeps hlen]



/-- Witness environment for the amended C4: primitive `0`, derived `1 = get 0`. -/
def c4wEnv : Env := fun a =>
  if a = 0 then primAtom 0 5 else derivedAtom (.get 0 fun v => .ret v)

/-- Witness store: atom `0` mounted with value `5` at epoch 1; atom `1`
unmounted with the matching recorded dependency `0 ↦ 1`. -/
def c4wSto : Store := fun a =>
  match a with
  | 0 => ⟨[], [], 1, some ⟨[9], [], [1], false⟩, some 5, none⟩
  | 1 => ⟨[(0, 1)], [], 1, none, some 5, none⟩
  | _ => AtomSt.fresh

def c4wS : S := ⟨c4wSto, none, []⟩

theorem c4_cached_read_amended_witness :
    readAtomState c4wEnv 1 none 0 c4wS = some (c4wS.sto 0, c4wS) ∧
    readAtomState c4wEnv 3 none 1 c4wS = some (c4wS.sto 1, c4wS) ∧
    (∃ r, readAtom c4wEnv 2 0 c4wS = some r ∧
      r = (returnAtomValue (c4wS.sto 0), { c4wS with pend := none }) ∧
      readAtom c4wEnv 2 0 r.2 = some r) := by
  obtain ⟨h0m, _⟩ := c4_cached_read_amended c4wEnv none 0 c4wS rfl (by decide)
  obtain ⟨h0a, h0b⟩ := h0m (by decide)
  obtain ⟨_, h1u⟩ := c4_cached_read_amended c4wEnv none 1 c4wS rfl (by decide)
  have hrun0 : readAtomState c4wEnv 1 none 0 c4wS = some (c4wS.sto 0, c4wS) :=
    h0a 1 Nat.one_pos
  have hrun1 : readAtomState c4wEnv 3 none 1 c4wS = some (c4wS.sto 1, c4wS) := by
    apply h1u (by decide) 2 (by decide)
    intro bd hbd
    have hbd' : bd = (0, 1) := by
      have : c4wS.sto 1 = ⟨[(0, 1)], [], 1, none, some 5, none⟩ := by decide
      rw [this] at hbd
      simpa using hbd
    subst hbd'
    exact ⟨fun f hf => h0a f hf, by decide⟩
  have hr : readAtom c4wEnv 2 0 c4wS = some (returnAtomValue (c4wS.sto 0),
      { c4wS with pend := none }) := by
    rw [readAtom]
    rw [readAtomState_cached_eq c4wEnv none 0 { c4wS with pend := none } rfl
      (by decide) (by decide) 2 (by decide)]
    rfl
  obtain ⟨hA, hB⟩ := h0b 2 _ hr
  exact ⟨hrun0, hrun1, ⟨_, hr, hA, hB⟩⟩


end Jotai

/-!
## Claim C3: continuable promises and supersession

Model of the continuable-promise abstraction of `part_001`
(`createContinuablePromise` / `CONTINUE_PROMISE`) and of the promise branch of
`setAtomStateValueOrPromise`.  Underlying promises are identified by numbers;
a continuable promise tracks which underlying promise it is currently
continued to (`curr`), its status, and its settled value/reason.  The
settlement callbacks `onFulfilled(me)`/`onRejected(me)` act only when
`curr === me`.  Raw promises returned by `read` are distinct objects from the
continuable promise stored in `atomState.v`, so the
`pendingPromise !== valueOrPromise` test of `setAtomStateValueOrPromise` is
true whenever a fresh promise is supplied.
-/

namespace CProm

inductive PStatus where
  | pending
  | fulfilled
  | rejected
deriving DecidableEq, Repr

/-- A continuable promise: `curr` is the underlying promise currently
continued to, plus `status` / `value` / `reason` as set by the settlement
callbacks. -/
structure CP where
  curr : Nat
  status : PStatus
  value : Option Nat
  reason : Option Nat
deriving DecidableEq, Repr

/-- `createContinuablePromise`: a fresh continuable promise over the
underlying promise `p`, with status `PENDING`. -/
def createContinuablePromise (p : Nat) : CP := ⟨p, .pending, none, none⟩

/-- The `onFulfilled(me)` callback: when the underlying promise `me` settles
with `v`, update status and value only if `curr === me` (stale settlements are
a no-op). -/
def onFulfilled (cp : CP) (me v : Nat) : CP :=
  if cp.curr = me then { cp with status := .fulfilled, value := some v } else cp

/-- The `onRejected(me)` callback. -/
def onRejected (cp : CP) (me e : Nat) : CP :=
  if cp.curr = me then { cp with status := .rejected, reason := some e } else cp

/-- `continuePromise`: redirect the continuable promise to a newer underlying
promise (`curr = nextPromise`); with no next promise nothing happens. -/
def continuePromise (cp : CP) (next : Option Nat) : CP :=
  match next with
  | some np => { cp with curr := np }
  | none => cp

/-- The asynchronous part of an atom state: the stored value is either a
settled plain value or a continuable promise, plus the epoch `n`. -/
structure AtomStA where
  v : Option (Nat ⊕ CP)
  n : Nat
deriving DecidableEq, Repr

/-- `getPendingContinuablePromise`: the stored value, if it is a continuable
promise with status `PENDING`. -/
def getPendingContinuablePromise (st : AtomStA) : Option CP :=
  match st.v with
  | some (.inr cp) => if cp.status = .pending then some cp else none
  | _ => none

/-- The promise branch of `setAtomStateValueOrPromise`: if a pending
continuable promise is stored and a (distinct) new promise arrives, redirect
it via `CONTINUE_PROMISE` and bump the epoch (the stored object stays the
same, so the trailing `Object.is` check does not bump again); otherwise store
a fresh continuable promise (a new object, so the trailing check bumps the
epoch). -/
def setAtomStatePromise (st : AtomStA) (pr : Nat) : AtomStA :=
  match getPendingContinuablePromise st with
  | some cp => { st with v := some (.inr (continuePromise cp (some pr))), n := st.n + 1 }
  | none => { st with v := some (.inr (createContinuablePromise pr)), n := st.n + 1 }

/-- Settlement of the underlying promise `pid` with value `v`, as it reaches
the atom state: the stored continuable promise runs its `onFulfilled(pid)`
callback; the epoch is never touched by settlement. -/
def settleAtom (st : AtomStA) (pid v : Nat) : AtomStA :=
  match st.v with
  | some (.inr cp) => { st with v := some (.inr (onFulfilled cp pid v)) }
  | _ => st

/-- **C3.**  If an atom's read produces promise `p1` and, before `p1`
settles, a recomputation produces a second promise `p2`, then: (i) the
eventual settlement of `p1` is a complete no-op on the atom state (value and
epoch unchanged); and (ii) whatever the settlement order of `p1` and `p2`,
the only value ever observable from the stored promise is `p2`'s result
`v2` — in every intermediate state the observable value is `none` (still
pending) or `v2`, never `p1`'s result. -/
theorem c3_supersession (st₀ : AtomStA) (p1 p2 v1 v2 : Nat)
    (h0 : getPendingContinuablePromise st₀ = none)
    (hne : p1 ≠ p2) :
    (settleAtom (setAtomStatePromise (setAtomStatePromise st₀ p1) p2) p1 v1
        = setAtomStatePromise (setAtomStatePromise st₀ p1) p2)
    ∧ (settleAtom (settleAtom (setAtomStatePromise (setAtomStatePromise st₀ p1) p2) p1 v1) p2 v2).v
        = some (.inr ⟨p2, .fulfilled, some v2, none⟩)
    ∧ (settleAtom (settleAtom (setAtomStatePromise (setAtomStatePromise st₀ p1) p2) p2 v2) p1 v1).v
        = some (.inr ⟨p2, .fulfilled, some v2, none⟩)
    ∧ (setAtomStatePromise (setAtomStatePromise st₀ p1) p2).v
        = some (.inr ⟨p2, .pending, none, none⟩) := by
  have h1 : setAtomStatePromise st₀ p1
      = { st₀ with v := some (.inr ⟨p1, .pending, none, none⟩), n := st₀.n + 1 } := by
    unfold setAtomStatePromise
    rw [h0]
    rfl
  have hcur : setAtomStatePromise (setAtomStatePromise st₀ p1) p2
      = { st₀ with v := some (.inr ⟨p2, .pending, none, none⟩), n := st₀.n + 1 + 1 } := by
    rw [h1]
    unfold setAtomStatePromise
    simp [getPendingContinuablePromise, continuePromise]
  refine ⟨?_, ?_, ?_, ?_⟩ <;>
    simp [hcur, settleAtom, onFulfilled, hne, Ne.symm hne]

/-- **C3, witness.** -/
theorem c3_supersession_witness :
    (settleAtom (setAtomStatePromise (setAtomStatePromise ⟨none, 0⟩ 1) 2) 1 10
        = setAtomStatePromise (setAtomStatePromise ⟨none, 0⟩ 1) 2)
    ∧ (settleAtom (settleAtom (setAtomStatePromise (setAtomStatePromise ⟨none, 0⟩ 1) 2) 1 10) 2 20).v
        = some (.inr ⟨2, .fulfilled, some 20, none⟩)
    ∧ (settleAtom (settleAtom (setAtomStatePromise (setAtomStatePromise ⟨none, 0⟩ 1) 2) 2 20) 1 10).v
        = some (.inr ⟨2, .fulfilled, some 20, none⟩)
    ∧ (setAtomStatePromise (setAtomStatePromise ⟨none, 0⟩ 1) 2).v
        = some (.inr ⟨2, .pending, none, none⟩) :=
  c3_supersession ⟨none, 0⟩ 1 2 10 20 (by decide) (by decide)

end CProm

/-!
## Claim C8: write queuing (older core, `src/unnamed/part_003`)

The older store core threads an immutable `State` through `setState` and
keeps a *write promise* `wp` on each atom state.  Its `writeAtomState` is:

* if `atomState.wp` is set, do **not** run the write; instead attach
  `wp.then(() => writeAtomState(copyState(state), setState, atom, update))`,
  queuing the write to replay after the in-flight one settles;
* otherwise run `atom.write`; if it returns a promise `P`, store
  `wp := P.then(() => setAtomWritePromise(copyState(state), atom))` (a
  promise that settles after `P` settles and `wp` has been cleared).

`WQ` embeds that control skeleton for the spec's concrete scenario
`target = atom(0, async (get, set, n) => { await delay(10); set(target, n) })`:
the machine tracks the target atom's value `v` and revision `r` (as updated by
`setAtomValue` / `setAtomWritePromise`), the stored write promise `wp`,
promise subscriptions (`.then` callbacks, FIFO), and the pending timer
continuations of the asynchronous write bodies.  Promise settlement and the
single-threaded event loop are modelled deterministically (each promise here
carries at most one callback at settlement time except the cleared-`wp`
promise, whose queued replays run in FIFO attachment order, as in the
JavaScript microtask queue); the `setState`/commit threading of the React
provider is collapsed into in-place state, which is faithful for this
scenario because every read of the target's state happens after the previous
update has been committed.
-/

namespace WQ

/-- Ghost events: a write's body starts executing (`writeStart`), a write is
queued behind a pending write promise (`queued`), an asynchronous write body
resumes after its delay and stores its value (`bodyRun`), the write promise
is cleared (`cleared`). -/
inductive WEv where
  | writeStart (u : Nat)
  | queued (u : Nat)
  | bodyRun (u : Nat)
  | cleared
deriving DecidableEq, Repr

/-- Callbacks attached to underlying promises with `.then`. -/
inductive Cb where
  | clearWp (next : Nat)
  | rerun (u : Nat)
deriving DecidableEq, Repr

/-- The machine state: target atom value `v`, revision `r`, stored write
promise `wp`, promise subscriptions `cbs`, pending delay continuations
`timers` (update value, promise to resolve when the body finishes), a fresh
promise counter and the ghost log. -/
structure M where
  v : Nat
  r : Nat
  wp : Option Nat
  cbs : List (Nat × Cb)
  timers : List (Nat × Nat)
  fresh : Nat
  log : List WEv
deriving DecidableEq, Repr

/-- `writeAtomState` of the older core, for the scenario atom: queue when a
write promise is pending; otherwise start the asynchronous write body (which
first awaits its delay) and store the write promise. -/
def writeAtomState (m : M) (u : Nat) : M :=
  match m.wp with
  | some p => { m with cbs := m.cbs ++ [(p, .rerun u)], log := m.log ++ [.queued u] }
  | none =>
    let P := m.fresh
    let Pw := m.fresh + 1
    { m with
      fresh := m.fresh + 2
      timers := m.timers ++ [(u, P)]
      cbs := m.cbs ++ [(P, .clearWp Pw)]
      wp := some Pw
      r := m.r + 1
      log := m.log ++ [.writeStart u] }

/-- Settle promise `p`: run its attached callbacks in FIFO order.  A
`clearWp` callback clears the write promise (`setAtomWritePromise` with no
promise) and then settles the derived write promise; a `rerun` callback
replays the queued `writeAtomState`. -/
def resolve : Nat → M → Nat → Option M
  | 0, _, _ => none
  | fuel + 1, m, p =>
    match m.cbs.find? fun c => c.1 = p with
    | none => some m
    | some (_, cb) =>
      let m := { m with cbs := m.cbs.eraseP fun c => decide (c.1 = p) }
      match cb with
      | .clearWp pw =>
        match resolve fuel { m with wp := none, r := m.r + 1, log := m.log ++ [.cleared] } pw with
        | none => none
        | some m' => resolve fuel m' p
      | .rerun u => resolve fuel (writeAtomState m u) p

/-- Fire the oldest pending delay: the asynchronous write body resumes,
stores its value (`set(target, n)`, i.e. `setAtomValue`: value and revision
update), and its promise settles. -/
def fireTimer (fuel : Nat) (m : M) : Option M :=
  match m.timers with
  | [] => some m
  | (u, p) :: rest =>
    resolve fuel { m with timers := rest, v := u, r := m.r + 1, log := m.log ++ [.bodyRun u] } p

/-- Run the event loop until no timers remain. -/
def runLoop : Nat → M → Option M
  | 0, _ => none
  | fuel + 1, m =>
    match m.timers with
    | [] => some m
    | _ =>
      match fireTimer fuel m with
      | none => none
      | some m' => runLoop fuel m'

/-- A fresh store with the target atom at its initial value 0. -/
def M0 : M := ⟨0, 0, none, [], [], 0, []⟩

/-- At most one write in flight: scanning the log, a write never starts while
a previous write's promise is still uncleared. -/
def inflightOk : Nat → List WEv → Bool
  | _, [] => true
  | n, .writeStart _ :: rest => n == 0 && inflightOk 1 rest
  | n, .cleared :: rest => inflightOk (n - 1) rest
  | n, _ :: rest => inflightOk n rest

/-- **C8.**  (i) In any machine state with a pending write promise, issuing a
write does not execute it: the only effect is to queue a replay callback on
the write promise (FIFO).  (ii) In the spec's scenario, issuing
`set(target, u1)` then `set(target, u2)`: the second write is queued, the
first body runs, the write promise is cleared, and only then does the second
write start and run — so after both resolve the value is `u2` (FIFO, not
last-writer-wins-by-race), and at every point at most one write is in
flight. -/
theorem c8_write_queue_fifo (u1 u2 : Nat) :
    (∀ (m : M) (u p : Nat), m.wp = some p →
      writeAtomState m u
        = { m with cbs := m.cbs ++ [(p, .rerun u)], log := m.log ++ [.queued u] })
    ∧ (writeAtomState (writeAtomState M0 u1) u2).log
        = [.writeStart u1, .queued u2]
    ∧ runLoop 20 (writeAtomState (writeAtomState M0 u1) u2)
        = some ⟨u2, 6, none, [], [], 4,
                [.writeStart u1, .queued u2, .bodyRun u1, .cleared,
                 .writeStart u2, .bodyRun u2, .cleared]⟩
    ∧ inflightOk 0
        [WEv.writeStart u1, .queued u2, .bodyRun u1, .cleared,
         .writeStart u2, .bodyRun u2, .cleared] = true := by
  refine ⟨?_, ?_, ?_, ?_⟩
  · intro m u p hwp
    simp [writeAtomState, hwp]
  · simp [writeAtomState, M0]
  · simp [writeAtomState, M0, runLoop, fireTimer, resolve, List.find?, List.eraseP]
  · simp [inflightOk]

/-- **C8, witness.** -/
theorem c8_write_queue_fifo_witness :
    (writeAtomState (⟨0, 1, some 7, [], [], 8, []⟩ : M) 5
      = { (⟨0, 1, some 7, [], [], 8, []⟩ : M) with
          cbs := [(7, .rerun 5)], log := [.queued 5] })
    ∧ runLoop 20 (writeAtomState (writeAtomState M0 1) 2)
        = some ⟨2, 6, none, [], [], 4,
                [.writeStart 1, .queued 2, .bodyRun 1, .cleared,
                 .writeStart 2, .bodyRun 2, .cleared]⟩ :=
  ⟨(c8_write_queue_fifo 1 2).1 ⟨0, 1, some 7, [], [], 8, []⟩ 5 7 rfl,
   (c8_write_queue_fifo 1 2).2.2.1⟩

end WQ


/-! ## Claim C7: mount/unmount symmetry of subscribe and unsubscribe

The subscription pipeline on the synchronous fragment: an epoch-settled,
initially unmounted, acyclic dependency-closed store; `subscribeAtom` mounts
the atom and its transitive dependencies, queues and runs the `onMount` hook
of the subscribed writable atom, and registers the listener; the returned
unsubscribe closure removes the listener, unmounts the whole tree, and runs
the stored cleanup exactly once. -/


namespace Jotai

/-- Stores agreeing with `σ₀` on every field except the mounted record. -/
def SimM (σ₀ σ : Store) : Prop :=
  ∀ x, (σ x).d = (σ₀ x).d ∧ (σ x).p = (σ₀ x).p ∧ (σ x).n = (σ₀ x).n ∧
    (σ x).v = (σ₀ x).v ∧ (σ x).e = (σ₀ x).e

/-- An epoch-settled dependency-closed atom set: recorded dependencies stay in
the set, every member is initialized, and every recorded epoch matches the
dependency's current epoch. -/
def Closed (σ₀ : Store) (L : List AtomId) : Prop :=
  ∀ x ∈ L, (∀ b ∈ dKeys σ₀ x, b ∈ L) ∧ isAtomStateInitialized (σ₀ x) = true ∧
    ∀ bd ∈ (σ₀ x).d, (σ₀ bd.1).n = bd.2

theorem SimM.init (σ₀ σ : Store) (h : SimM σ₀ σ) (x : AtomId) :
    isAtomStateInitialized (σ x) = isAtomStateInitialized (σ₀ x) := by
  obtain ⟨_, _, _, hv, he⟩ := h x
  simp [isAtomStateInitialized, hv, he]

/-- On an epoch-settled store (regardless of which atoms are mounted), an
unforced read of a member atom is an exact no-op: the dependency check walks
the recorded dependencies, finds every epoch unchanged, and returns the cached
record with the state untouched. -/
theorem readAtomState_settled (E : Env) (σ₀ : Store) (L : List AtomId)
    (hC : Closed σ₀ L) :
    ∀ fuel,
    (∀ x ∈ L, ∀ (s : S) (r : AtomSt × S), SimM σ₀ s.sto →
      readAtomState E fuel none x s = some r → r = (s.sto x, s)) ∧
    (∀ (ds : List (AtomId × Nat)) (s : S) (res : Bool × S),
      (∀ bd ∈ ds, bd.1 ∈ L ∧ (σ₀ bd.1).n = bd.2) → SimM σ₀ s.sto →
      checkDeps E fuel none ds s = some res → res = (true, s)) := by
  intro fuel
  induction fuel with
  | zero =>
    constructor
    · intro x _ s r _ h; simp [readAtomState] at h
    · intro ds s res _ _ h; simp [checkDeps] at h
  | succ fuel ih =>
    obtain ⟨ihR, ihC⟩ := ih
    constructor
    · intro x hx s r hsim h
      obtain ⟨hclo, hini, hep⟩ := hC x hx
      rw [readAtomState] at h
      have hf : isForced none x = false := rfl
      have hi : isAtomStateInitialized (s.sto x) = true := by
        rw [SimM.init σ₀ s.sto hsim x]; exact hini
      simp only [hf, hi, Bool.not_false, Bool.true_and, if_true] at h
      cases hm : (s.sto x).m with
      | some mm =>
        simp only [hm, Option.isSome_some, if_true, Option.some.injEq] at h
        exact h.symm
      | none =>
        simp only [hm, Option.isSome_none, Bool.false_eq_true, if_false] at h
        cases hcd : checkDeps E fuel none (s.sto x).d s with
        | none => rw [hcd] at h; exact absurd h (by simp)
        | some res₁ =>
          have hdl : (s.sto x).d = (σ₀ x).d := (hsim x).1
          have hres₁ : res₁ = (true, s) := by
            apply ihC (s.sto x).d s res₁ ?_ hsim hcd
            intro bd hbd
            rw [hdl] at hbd
            refine ⟨hclo bd.1 (List.mem_map.2 ⟨bd, hbd, rfl⟩), hep bd hbd⟩
          subst hres₁
          rw [hcd] at h
          simp only [Option.some.injEq] at h
          exact h.symm
    · intro ds s res hds hsim h
      match ds with
      | [] =>
        rw [checkDeps] at h
        simp only [Option.some.injEq] at h
        exact h.symm
      | (b, nb) :: rest =>
        rw [checkDeps] at h
        cases hr : readAtomState E fuel none b s with
        | none => rw [hr] at h; exact absurd h (by simp)
        | some bs =>
          obtain ⟨hbL, hbn⟩ := hds (b, nb) (List.mem_cons_self _ rest)
          have hbs : bs = (s.sto b, s) := ihR b hbL s bs hsim hr
          subst hbs
          rw [hr] at h
          simp only [] at h
          have hneq : (s.sto b).n = nb := by rw [(hsim b).2.2.1]; exact hbn
          rw [if_pos hneq] at h
          exact ihC rest s res (fun bd hbd => hds bd (List.mem_cons_of_mem _ hbd)) hsim h

end Jotai

namespace Jotai

theorem mem_listAdd_of_mem (xs : List Nat) (x z : Nat) (h : z ∈ xs) :
    z ∈ listAdd xs x := by
  rw [listAdd]
  by_cases hx : x ∈ xs
  · rw [if_pos hx]; exact h
  · rw [if_neg hx]; exact List.mem_append_left _ h

theorem self_mem_listAdd (xs : List Nat) (x : Nat) : x ∈ listAdd xs x := by
  rw [listAdd]
  by_cases hx : x ∈ xs
  · rw [if_pos hx]; exact hx
  · rw [if_neg hx]; exact List.mem_append_right _ (List.mem_singleton_self x)

/-- Invariant maintained by the mount recursion on an epoch-settled store:
only the mounted records change; every mounted atom is in the closed set and
carries an empty listener set, the recorded dependency keys, a cleared
`onUnmount` flag and only sound mounted-dependent edges; the pending object
holds only the (at most one) queued `onMount` runner of `a`; the log is
untouched. -/
def MInv (E : Env) (σ₀ : Store) (L : List AtomId) (a : AtomId) (s : S)
    (lg : List Event) : Prop :=
  SimM σ₀ s.sto ∧
  (∀ x, (s.sto x).m.isSome → x ∈ L) ∧
  (∀ x mm, (s.sto x).m = some mm → mm.l = [] ∧ mm.d = dKeys σ₀ x ∧ mm.u = false ∧
    (∀ y ∈ mm.t, x ∈ dKeys σ₀ y)) ∧
  (∀ z, (s.sto z).m.isSome → ∀ b ∈ dKeys σ₀ z,
    ∃ mmb, (s.sto b).m = some mmb ∧ z ∈ mmb.t) ∧
  (∃ fns : List PFn, s.pend = some ⟨[], [], fns⟩ ∧ (∀ f ∈ fns, f = .mountHookRun a) ∧
    fns.length = (if (s.sto a).m.isSome ∧ (E a).write.isSome ∧ (E a).onMount = true
      then 1 else 0)) ∧
  s.log = lg

theorem mount_spec (E : Env) (σ₀ : Store) (L : List AtomId) (a : AtomId)
    (rank : AtomId → Nat)
    (hC : Closed σ₀ L)
    (hrank : ∀ y, ∀ b ∈ dKeys σ₀ y, rank y < rank b)
    (hhooks : ∀ x, x ≠ a → (E x).onMount = false)
    (lg : List Event) :
    ∀ fuel,
    (∀ x ∈ L, ∀ (s : S) (res : Mounted × S), MInv E σ₀ L a s lg →
      mountAtom E fuel x s = some res →
      MInv E σ₀ L a res.2 lg ∧
      (∀ y, (s.sto y).m.isSome → (res.2.sto y).m.isSome) ∧
      (res.2.sto x).m.isSome ∧
      (∀ y, (res.2.sto y).m.isSome → (s.sto y).m.isSome ∨ y = x ∨
        ∃ z, (res.2.sto z).m.isSome ∧ y ∈ dKeys σ₀ z) ∧
      (∀ y, (res.2.sto y).m.isSome → (s.sto y).m.isSome ∨ y = x ∨ rank x < rank y) ∧
      (∀ y mm, (s.sto y).m = some mm → ∃ mm', (res.2.sto y).m = some mm' ∧
        ∀ z ∈ mm.t, z ∈ mm'.t)) ∧
    (∀ x₀ (ds : List AtomId), (∀ b ∈ ds, b ∈ L ∧ b ∈ dKeys σ₀ x₀) →
      ∀ (s s' : S), MInv E σ₀ L a s lg →
      mountDepsList E fuel x₀ ds s = some s' →
      MInv E σ₀ L a s' lg ∧
      (∀ y, (s.sto y).m.isSome → (s'.sto y).m.isSome) ∧
      (∀ y, (s'.sto y).m.isSome → (s.sto y).m.isSome ∨ y ∈ ds ∨
        ∃ z, (s'.sto z).m.isSome ∧ y ∈ dKeys σ₀ z) ∧
      (∀ y, (s'.sto y).m.isSome → (s.sto y).m.isSome ∨ ∃ b ∈ ds, rank b ≤ rank y) ∧
      (∀ y mm, (s.sto y).m = some mm → ∃ mm', (s'.sto y).m = some mm' ∧
        ∀ z ∈ mm.t, z ∈ mm'.t) ∧
      (∀ b ∈ ds, ∃ mmb, (s'.sto b).m = some mmb ∧ x₀ ∈ mmb.t)) := by
  intro fuel
  induction fuel with
  | zero =>
    constructor
    · intro x _ s res _ h; simp [mountAtom] at h
    · intro x₀ ds _ s s' _ h; simp [mountDepsList] at h
  | succ fuel ih =>
    obtain ⟨ihM, ihL⟩ := ih
    constructor
    · -- mountAtom
      intro x hx s res hinv h
      rw [mountAtom] at h
      cases hm : (s.sto x).m with
      | some mm =>
        rw [hm] at h
        simp only [Option.some.injEq] at h
        subst h
        exact ⟨hinv, fun y hy => hy, by simp [hm], fun y hy => Or.inl hy,
          fun y hy => Or.inl hy, fun y mm hy => ⟨mm, hy, fun z hz => hz⟩⟩
      | none =>
        rw [hm] at h
        obtain ⟨hsim, hsubL, hrec, hcomp, hpend, hlog⟩ := hinv
        cases hr : readAtomState E fuel none x s with
        | none => rw [hr] at h; exact absurd h (by simp)
        | some rs =>
          have hrs : rs = (s.sto x, s) :=
            (readAtomState_settled E σ₀ L hC fuel).1 x hx s rs hsim hr
          subst hrs
          rw [hr] at h
          simp only [] at h
          have hdsL : ∀ b ∈ (s.sto x).d.map Prod.fst, b ∈ L ∧ b ∈ dKeys σ₀ x := by
            intro b hb
            rw [(hsim x).1] at hb
            exact ⟨(hC x hx).1 b hb, hb⟩
          cases hdl : mountDepsList E fuel x ((s.sto x).d.map Prod.fst) s with
          | none => rw [hdl] at h; exact absurd h (by simp)
          | some s₂ =>
            rw [hdl] at h
            simp only [] at h
            obtain ⟨hinv₂, hmono₂, hjust₂, hrank₂, htm₂, hdsrec₂⟩ :=
              ihL x ((s.sto x).d.map Prod.fst) hdsL s s₂
                ⟨hsim, hsubL, hrec, hcomp, hpend, hlog⟩ hdl
            obtain ⟨hsim₂, hsubL₂, hrec₂, hcomp₂, hpend₂, hlog₂⟩ := hinv₂
            -- x is still unmounted after its dependencies were mounted
            have hm₂ : (s₂.sto x).m = none := by
              cases hmx : (s₂.sto x).m with
              | none => rfl
              | some mmx =>
                rcases hrank₂ x (by simp [hmx]) with hy | ⟨b, hb, hrb⟩
                · rw [hm] at hy; exact absurd hy (by simp)
                · rw [(hsim x).1] at hb
                  exact absurd hrb (not_le_of_gt (hrank x b hb))
            -- shared facts about the store after the mounted record is set
            have hσ₄x : ∀ mmN : Mounted,
                upd s₂.sto x { s₂.sto x with m := some mmN } x
                  = { s₂.sto x with m := some mmN } := fun mmN => upd_get _ _ _
            have hσ₄ne : ∀ (mmN : Mounted) y, y ≠ x →
                upd s₂.sto x { s₂.sto x with m := some mmN } y = s₂.sto y :=
              fun mmN y hy => upd_ne _ _ _ _ hy
            obtain ⟨fns₂, hp₂eq, hp₂mem, hp₂len⟩ := hpend₂
            have hcore : ∀ mmN : Mounted,
                mmN = ⟨[], (s₂.sto x).d.map Prod.fst, [], false⟩ →
                ∀ σ₄, σ₄ = upd s₂.sto x { s₂.sto x with m := some mmN } →
                SimM σ₀ σ₄ ∧
                (∀ y, (σ₄ y).m.isSome → y ∈ L) ∧
                (∀ y mmy, (σ₄ y).m = some mmy → mmy.l = [] ∧ mmy.d = dKeys σ₀ y ∧
                  mmy.u = false ∧ (∀ z ∈ mmy.t, y ∈ dKeys σ₀ z)) ∧
                (∀ z, (σ₄ z).m.isSome → ∀ b ∈ dKeys σ₀ z,
                  ∃ mmb, (σ₄ b).m = some mmb ∧ z ∈ mmb.t) ∧
                (∀ y, (s.sto y).m.isSome → (σ₄ y).m.isSome) ∧
                (σ₄ x).m.isSome ∧
                (∀ y, (σ₄ y).m.isSome → (s.sto y).m.isSome ∨ y = x ∨
                  ∃ z, (σ₄ z).m.isSome ∧ y ∈ dKeys σ₀ z) ∧
                (∀ y, (σ₄ y).m.isSome → (s.sto y).m.isSome ∨ y = x ∨ rank x < rank y) := by
              intro mmN hmmN σ₄ hσ₄
              have hproj : ({ s₂.sto x with m := some mmN } : AtomSt).m = some mmN := rfl
              have hm24 : ∀ y, (s₂.sto y).m.isSome → (σ₄ y).m.isSome := by
                intro y hy
                by_cases hyx : y = x
                · subst hyx; rw [hσ₄, hσ₄x, hproj]; rfl
                · rw [hσ₄, hσ₄ne mmN y hyx]; exact hy
              refine ⟨?_, ?_, ?_, ?_, ?_, ?_, ?_, ?_⟩
              · intro y
                by_cases hyx : y = x
                · subst hyx
                  rw [hσ₄, hσ₄x]
                  exact hsim₂ y
                · rw [hσ₄, hσ₄ne mmN y hyx]
                  exact hsim₂ y
              · intro y hy
                by_cases hyx : y = x
                · exact hyx ▸ hx
                · rw [hσ₄, hσ₄ne mmN y hyx] at hy
                  exact hsubL₂ y hy
              · intro y mmy hy
                by_cases hyx : y = x
                · subst hyx
                  rw [hσ₄, hσ₄x, hproj] at hy
                  have hmy : mmy = mmN := (Option.some.inj hy).symm
                  subst hmy
                  rw [hmmN]
                  refine ⟨rfl, ?_, rfl, by simp⟩
                  show (s₂.sto y).d.map Prod.fst = dKeys σ₀ y
                  rw [(hsim₂ y).1]; rfl
                · rw [hσ₄, hσ₄ne mmN y hyx] at hy
                  exact hrec₂ y mmy hy
              · intro z hz b hb
                have hstep : ∀ mmb, (s₂.sto b).m = some mmb → z ∈ mmb.t →
                    ∃ mmb, (σ₄ b).m = some mmb ∧ z ∈ mmb.t := by
                  intro mmb hmb hzt
                  have hbx : b ≠ x := by
                    intro he
                    rw [he, hm₂] at hmb
                    exact absurd hmb (by simp)
                  refine ⟨mmb, ?_, hzt⟩
                  rw [hσ₄, hσ₄ne mmN b hbx]
                  exact hmb
                by_cases hzx : z = x
                · obtain ⟨mmb, hmb, hzt⟩ := hdsrec₂ b (by
                    rw [(hsim x).1]
                    rw [hzx] at hb
                    exact hb)
                  exact hstep mmb hmb (by rw [hzx]; exact hzt)
                · rw [hσ₄, hσ₄ne mmN z hzx] at hz
                  obtain ⟨mmb, hmb, hzt⟩ := hcomp₂ z hz b hb
                  exact hstep mmb hmb hzt
              · intro y hy
                exact hm24 y (hmono₂ y hy)
              · rw [hσ₄, hσ₄x, hproj]; rfl
              · intro y hy
                by_cases hyx : y = x
                · exact Or.inr (Or.inl hyx)
                · rw [hσ₄, hσ₄ne mmN y hyx] at hy
                  rcases hjust₂ y hy with h' | h' | ⟨z, hz, hzk⟩
                  · exact Or.inl h'
                  · refine Or.inr (Or.inr ⟨x, ?_, ?_⟩)
                    · rw [hσ₄, hσ₄x, hproj]; rfl
                    · rw [(hsim x).1] at h'
                      exact h'
                  · exact Or.inr (Or.inr ⟨z, hm24 z hz, hzk⟩)
              · intro y hy
                by_cases hyx : y = x
                · exact Or.inr (Or.inl hyx)
                · rw [hσ₄, hσ₄ne mmN y hyx] at hy
                  rcases hrank₂ y hy with h' | ⟨b, hb, hrb⟩
                  · exact Or.inl h'
                  · rw [(hsim x).1] at hb
                    exact Or.inr (Or.inr (lt_of_lt_of_le (hrank x b hb) hrb))
            by_cases hw : (((E x).write.isSome && (E x).onMount) = true)
            · rw [if_pos hw] at h
              have hres := (Option.some.inj h).symm
              obtain ⟨h1, h2, h3, h3c, h4, h5, h6, h7⟩ :=
                hcore ⟨[], (s₂.sto x).d.map Prod.fst, [], false⟩ rfl _ rfl
              subst hres
              have hxa : x = a := by
                by_contra hne
                simp only [Bool.and_eq_true] at hw
                rw [hhooks x hne] at hw
                exact absurd hw.2 (by simp)
              subst hxa
              have hfns₂ : fns₂ = [] := by
                rw [if_neg (by
                  intro hc
                  rw [hm₂] at hc
                  exact absurd hc.1 (by simp))] at hp₂len
                exact List.length_eq_zero.1 hp₂len
              subst hfns₂
              refine ⟨⟨h1, h2, h3, h3c, ?_, ?_⟩, h4, h5, h6, h7, ?_⟩
              · refine ⟨[PFn.mountHookRun x], ?_, by simp, ?_⟩
                · show (addPendFn _ _).pend = _
                  rw [addPendFn]
                  simp [hp₂eq]
                · rw [if_pos ?_]
                  · rfl
                  · simp only [Bool.and_eq_true] at hw
                    refine ⟨?_, hw.1, hw.2⟩
                    show ((addPendFn { s₂ with sto := upd s₂.sto x { s₂.sto x with
                      m := some ⟨[], (s₂.sto x).d.map Prod.fst, [], false⟩ } }
                      (.mountHookRun x)).sto x).m.isSome
                    show (upd s₂.sto x { s₂.sto x with
                      m := some ⟨[], (s₂.sto x).d.map Prod.fst, [], false⟩ } x).m.isSome
                    rw [hσ₄x]
                    rfl
              · show (addPendFn _ _).log = lg
                rw [addPendFn]
                exact hlog₂
              · intro y mm hy
                have hyx : y ≠ x := fun he => by
                  rw [he, hm] at hy
                  exact absurd hy (by simp)
                obtain ⟨mm₂, hy₂, hsub₂⟩ := htm₂ y mm hy
                refine ⟨mm₂, ?_, hsub₂⟩
                show (upd s₂.sto x { s₂.sto x with
                  m := some ⟨[], (s₂.sto x).d.map Prod.fst, [], false⟩ } y).m = some mm₂
                rw [hσ₄ne _ y hyx]
                exact hy₂
            · rw [if_neg hw] at h
              have hres := (Option.some.inj h).symm
              obtain ⟨h1, h2, h3, h3c, h4, h5, h6, h7⟩ :=
                hcore ⟨[], (s₂.sto x).d.map Prod.fst, [], false⟩ rfl _ rfl
              subst hres
              have htmono : ∀ y mm, (s.sto y).m = some mm →
                  ∃ mm', (upd s₂.sto x { s₂.sto x with
                    m := some ⟨[], (s₂.sto x).d.map Prod.fst, [], false⟩ } y).m = some mm' ∧
                  ∀ z ∈ mm.t, z ∈ mm'.t := by
                intro y mm hy
                have hyx : y ≠ x := fun he => by
                  rw [he, hm] at hy
                  exact absurd hy (by simp)
                obtain ⟨mm₂, hy₂, hsub₂⟩ := htm₂ y mm hy
                refine ⟨mm₂, ?_, hsub₂⟩
                rw [hσ₄ne _ y hyx]
                exact hy₂
              refine ⟨⟨h1, h2, h3, h3c, ?_, hlog₂⟩, h4, h5, h6, h7, htmono⟩
              refine ⟨fns₂, hp₂eq, hp₂mem, ?_⟩
              rw [hp₂len]
              by_cases hxa : x = a
              · subst hxa
                rw [if_neg (by
                  intro hc
                  rw [hm₂] at hc
                  exact absurd hc.1 (by simp))]
                rw [if_neg (by
                  intro hc
                  exact hw (by simp [hc.2.1, hc.2.2]))]
              · have hne : (({ s₂ with sto := upd s₂.sto x { s₂.sto x with
                    m := some ⟨[], (s₂.sto x).d.map Prod.fst, [], false⟩ } } : S).sto a).m
                    = (s₂.sto a).m := by
                  show (upd s₂.sto x _ a).m = _
                  rw [hσ₄ne _ a (fun he => hxa he.symm)]
                rw [hne]
    · -- mountDepsList
      intro x₀ ds hds s s' hinv h
      match ds with
      | [] =>
        rw [mountDepsList] at h
        simp only [Option.some.injEq] at h
        subst h
        exact ⟨hinv, fun y hy => hy, fun y hy => Or.inl hy, fun y hy => Or.inl hy,
          fun y mm hy => ⟨mm, hy, fun z hz => hz⟩,
          fun b hb => absurd hb (List.not_mem_nil b)⟩
      | b :: rest =>
        rw [mountDepsList] at h
        obtain ⟨hbL, hbk⟩ := hds b (List.mem_cons_self b rest)
        cases hma : mountAtom E fuel b s with
        | none => rw [hma] at h; exact absurd h (by simp)
        | some mres =>
          rw [hma] at h
          simp only [] at h
          obtain ⟨hinvM, hmonoM, hbM, hjustM, hrankM, htmM⟩ := ihM b hbL s mres hinv hma
          obtain ⟨mmb, hmmb⟩ := Option.isSome_iff_exists.1 hbM
          rw [hmmb] at h
          obtain ⟨hsimM, hsubLM, hrecM, hcompM, hpendM, hlogM⟩ := hinvM
          obtain ⟨hl_b, hd_b, hu_b, ht_b⟩ := hrecM b mmb hmmb
          -- canonical form of the state after the dependent edge is added
          have hrfl : ({ mres.2 with sto := upd mres.2.sto b { mres.2.sto b with
              m := some { mmb with t := listAdd mmb.t x₀ } } } : S).sto
              = upd mres.2.sto b { mres.2.sto b with
                m := some { mmb with t := listAdd mmb.t x₀ } } := rfl
          have hup_b : upd mres.2.sto b { mres.2.sto b with
              m := some { mmb with t := listAdd mmb.t x₀ } } b
              = { mres.2.sto b with m := some { mmb with t := listAdd mmb.t x₀ } } :=
            upd_get _ _ _
          have hup_ne : ∀ y, y ≠ b → upd mres.2.sto b { mres.2.sto b with
              m := some { mmb with t := listAdd mmb.t x₀ } } y = mres.2.sto y :=
            fun y hy => upd_ne _ _ _ _ hy
          have hprojb : ({ mres.2.sto b with
              m := some { mmb with t := listAdd mmb.t x₀ } } : AtomSt).m
              = some { mmb with t := listAdd mmb.t x₀ } := rfl
          have hm1iff : ∀ y, (upd mres.2.sto b { mres.2.sto b with
              m := some { mmb with t := listAdd mmb.t x₀ } } y).m.isSome
              ↔ (mres.2.sto y).m.isSome := by
            intro y
            by_cases hyb : y = b
            · subst hyb
              rw [hup_b, hprojb, hmmb]
              simp
            · rw [hup_ne y hyb]
          have hinv₁ : MInv E σ₀ L a { mres.2 with
              sto := upd mres.2.sto b
                ({ mres.2.sto b with m := some { mmb with t := listAdd mmb.t x₀ } }) } lg := by
            refine ⟨?_, ?_, ?_, ?_, ?_, hlogM⟩
            · intro y
              show (upd _ _ _ y).d = _ ∧ (upd _ _ _ y).p = _ ∧ (upd _ _ _ y).n = _ ∧
                (upd _ _ _ y).v = _ ∧ (upd _ _ _ y).e = _
              by_cases hyb : y = b
              · subst hyb
                rw [hup_b]
                exact hsimM y
              · rw [hup_ne y hyb]
                exact hsimM y
            · intro y hy
              rw [hrfl, hm1iff y] at hy
              exact hsubLM y hy
            · intro y mmy hy
              rw [hrfl] at hy
              by_cases hyb : y = b
              · subst hyb
                rw [hup_b, hprojb] at hy
                have hmy : mmy = { mmb with t := listAdd mmb.t x₀ } :=
                  (Option.some.inj hy).symm
                subst hmy
                refine ⟨hl_b, hd_b, hu_b, ?_⟩
                intro z hz
                have hz' : z ∈ listAdd mmb.t x₀ := hz
                rw [listAdd] at hz'
                by_cases hmem : x₀ ∈ mmb.t
                · rw [if_pos hmem] at hz'
                  exact ht_b z hz'
                · rw [if_neg hmem] at hz'
                  rcases List.mem_append.1 hz' with hz'' | hz''
                  · exact ht_b z hz''
                  · simp only [List.mem_singleton] at hz''
                    exact hz'' ▸ hbk
              · rw [hup_ne y hyb] at hy
                exact hrecM y mmy hy
            · intro z hz bq hbq
              rw [hrfl, hm1iff z] at hz
              rw [hrfl]
              obtain ⟨mmq, hmq, hzt⟩ := hcompM z hz bq hbq
              by_cases hqb : bq = b
              · subst hqb
                have hmbeq : mmq = mmb := by
                  rw [hmq] at hmmb
                  exact Option.some.inj hmmb
                refine ⟨{ mmb with t := listAdd mmb.t x₀ }, ?_, ?_⟩
                · rw [hup_b]
                · exact mem_listAdd_of_mem _ _ _ (by rw [← hmbeq]; exact hzt)
              · refine ⟨mmq, ?_, hzt⟩
                rw [hup_ne bq hqb]
                exact hmq
            · obtain ⟨fnsM, hpM, hpMm, hpMl⟩ := hpendM
              refine ⟨fnsM, hpM, hpMm, ?_⟩
              rw [hpMl]
              by_cases hab : a = b
              · subst hab
                have h1 : (({ mres.2 with sto := upd mres.2.sto a { mres.2.sto a with
                    m := some { mmb with t := listAdd mmb.t x₀ } } } : S).sto a).m.isSome
                    = (mres.2.sto a).m.isSome := by
                  rw [hrfl, hup_b, hprojb, hmmb]
                  rfl
                rw [h1]
              · have h1 : (({ mres.2 with sto := upd mres.2.sto b { mres.2.sto b with
                    m := some { mmb with t := listAdd mmb.t x₀ } } } : S).sto a).m
                    = (mres.2.sto a).m := by
                  rw [hrfl, hup_ne a hab]
                rw [h1]
          obtain ⟨hinvR, hmonoR, hjustR, hrankR, htmR, hdsrecR⟩ :=
            ihL x₀ rest (fun c hc => hds c (List.mem_cons_of_mem b hc)) _ s' hinv₁ h
          have hmono1 : ∀ y, (s.sto y).m.isSome → (({ mres.2 with
              sto := upd mres.2.sto b { mres.2.sto b with
                m := some { mmb with t := listAdd mmb.t x₀ } } } : S).sto y).m.isSome := by
            intro y hy
            rw [hrfl, hm1iff y]
            exact hmonoM y hy
          refine ⟨hinvR, fun y hy => hmonoR y (hmono1 y hy), ?_, ?_, ?_, ?_⟩
          · intro y hy
            rcases hjustR y hy with h' | h' | ⟨z, hz, hzk⟩
            · rw [hrfl, hm1iff y] at h'
              rcases hjustM y h' with hh | hh | ⟨z, hz, hzk⟩
              · exact Or.inl hh
              · exact Or.inr (Or.inl (by rw [hh]; exact List.mem_cons_self b rest))
              · refine Or.inr (Or.inr ⟨z, ?_, hzk⟩)
                apply hmonoR
                rw [hrfl, hm1iff z]
                exact hz
            · exact Or.inr (Or.inl (List.mem_cons_of_mem b h'))
            · exact Or.inr (Or.inr ⟨z, hz, hzk⟩)
          · intro y hy
            rcases hrankR y hy with h' | ⟨c, hc, hrc⟩
            · rw [hrfl, hm1iff y] at h'
              rcases hrankM y h' with hh | hh | hh
              · exact Or.inl hh
              · exact Or.inr ⟨b, List.mem_cons_self b rest, le_of_eq (by rw [hh])⟩
              · exact Or.inr ⟨b, List.mem_cons_self b rest, le_of_lt hh⟩
            · exact Or.inr ⟨c, List.mem_cons_of_mem b hc, hrc⟩
          · intro y mm hy
            obtain ⟨mmM, hyM, hsubM⟩ := htmM y mm hy
            by_cases hyb : y = b
            · subst hyb
              have hmmM : mmM = mmb := by
                rw [hyM] at hmmb
                exact Option.some.inj hmmb
              obtain ⟨mmR, hyR, hsubR⟩ := htmR y { mmb with t := listAdd mmb.t x₀ } (by
                rw [hrfl, hup_b])
              refine ⟨mmR, hyR, ?_⟩
              intro z hz
              exact hsubR z (mem_listAdd_of_mem _ _ _ (by
                rw [← hmmM]
                exact hsubM z hz))
            · obtain ⟨mmR, hyR, hsubR⟩ := htmR y mmM (by
                rw [hrfl, hup_ne y hyb]
                exact hyM)
              exact ⟨mmR, hyR, fun z hz => hsubR z (hsubM z hz)⟩
          · intro c hc
            rcases List.mem_cons.1 hc with rfl | hcrest
            · obtain ⟨mmR, hyR, hsubR⟩ := htmR c { mmb with t := listAdd mmb.t x₀ } (by
                rw [hrfl, hup_b])
              exact ⟨mmR, hyR, hsubR x₀ (self_mem_listAdd _ _)⟩
            · exact hdsrecR c hcrest

end Jotai

namespace Jotai

/-- Contribution of atom `a`'s mounted record to the pending-cleanup budget:
`1` when the record exists and its stored `onUnmount` slot is filled. -/
def uCount (σ : Store) (a : AtomId) : Nat :=
  match (σ a).m with
  | some mm => if mm.u then 1 else 0
  | none => 0

/-- Invariant maintained by the unmount recursion: the store agrees with `σ₀`
off the mounted records; mounted records carry no listeners, sound
mounted-dependent edges, and a stored cleanup only at `a`; mounted atoms'
recorded dependencies are mounted and record them back (`t`-completeness); the
pending object holds only queued `onUnmount` runners of `a`, whose number plus
`a`'s still-stored cleanup equals the cleanup budget `c`; the log is
untouched. -/
def UInv (σ₀ : Store) (a : AtomId) (c : Bool) (s : S) (lg : List Event) : Prop :=
  SimM σ₀ s.sto ∧
  (∀ x mm, (s.sto x).m = some mm → mm.l = [] ∧ (∀ z ∈ mm.t, x ∈ dKeys σ₀ z) ∧
    (x ≠ a → mm.u = false)) ∧
  (∀ z, (s.sto z).m.isSome → ∀ b ∈ dKeys σ₀ z,
    ∃ mmb, (s.sto b).m = some mmb ∧ z ∈ mmb.t) ∧
  (∃ fns : List PFn, s.pend = some ⟨[], [], fns⟩ ∧
    (∀ f ∈ fns, f = .unmountHookRun a) ∧
    fns.length + uCount s.sto a = (if c then 1 else 0)) ∧
  s.log = lg

/-- Live support outside an exception list: every mounted atom not currently
under consideration records at least one mounted dependent. -/
def LS (σ : Store) (exc : List AtomId) : Prop :=
  ∀ y mm, (σ y).m = some mm → y ∉ exc → ∃ z ∈ mm.t, (σ z).m.isSome

/-- The unmount recursion preserves the unmount invariant, never mounts, and
turns live support relative to the processed atoms into live support without
them. -/
theorem unmount_spec (E : Env) (σ₀ : Store) (a : AtomId) (c : Bool)
    (lg : List Event) :
    ∀ fuel,
    (∀ x (s : S) (res : Option Mounted × S) (exc : List AtomId),
      UInv σ₀ a c s lg → LS s.sto (x :: exc) →
      unmountAtom E fuel x s = some res →
      UInv σ₀ a c res.2 lg ∧
      (∀ y, (res.2.sto y).m.isSome → (s.sto y).m.isSome) ∧
      LS res.2.sto exc) ∧
    (∀ x₀ (ds : List AtomId) (s s' : S) (exc : List AtomId),
      UInv σ₀ a c s lg → (s.sto x₀).m = none → LS s.sto (ds ++ exc) →
      unmountDepsList E fuel x₀ ds s = some s' →
      UInv σ₀ a c s' lg ∧
      (∀ y, (s'.sto y).m.isSome → (s.sto y).m.isSome) ∧
      LS s'.sto exc) := by
  intro fuel
  induction fuel with
  | zero =>
    constructor
    · intro x s res exc _ _ h; simp [unmountAtom] at h
    · intro x₀ ds s s' exc _ _ _ h; simp [unmountDepsList] at h
  | succ fuel ih =>
    obtain ⟨ihU, ihL⟩ := ih
    constructor
    · -- unmountAtom
      intro x s res exc hinv hls h
      rw [unmountAtom] at h
      cases hm : (s.sto x).m with
      | none =>
        rw [hm] at h
        simp only [Option.some.injEq] at h
        subst h
        refine ⟨hinv, fun y hy => hy, ?_⟩
        intro y mmy hy hyex
        have hyx : y ≠ x := by
          intro he
          rw [he, hm] at hy
          exact absurd hy (by simp)
        exact hls y mmy hy (fun hmem => (List.mem_cons.1 hmem).elim hyx hyex)
      | some mm =>
        rw [hm] at h
        simp only [] at h
        obtain ⟨hsim, hrec, hcomp, ⟨fns, hpeq, hpmem, hplen⟩, hlog⟩ := hinv
        have hl : mm.l = [] := (hrec x mm hm).1
        cases hany : (mm.t.any fun z => (s.sto z).m.isSome) with
        | true =>
          -- a mounted dependent survives: the unmount is refused, state kept
          have hcondF : (mm.l.isEmpty && !(mm.t.any fun z => (s.sto z).m.isSome))
              = false := by rw [hany, hl]; rfl
          rw [hcondF] at h
          simp only [Bool.false_eq_true, if_false, Option.some.injEq] at h
          subst h
          refine ⟨⟨hsim, hrec, hcomp, ⟨fns, hpeq, hpmem, hplen⟩, hlog⟩,
            fun y hy => hy, ?_⟩
          intro y mmy hy hyex
          by_cases hyx : y = x
          · subst hyx
            have hmy : mmy = mm := by
              rw [hy] at hm
              exact Option.some.inj hm
            obtain ⟨z, hzt, hzm⟩ := List.any_eq_true.1 hany
            exact ⟨z, by rw [hmy]; exact hzt, hzm⟩
          · exact hls y mmy hy (fun hmem => (List.mem_cons.1 hmem).elim hyx hyex)
        | false =>
          -- no live dependent: unmount, then consider the dependencies
          have hcondT : (mm.l.isEmpty && !(mm.t.any fun z => (s.sto z).m.isSome))
              = true := by rw [hany, hl]; rfl
          rw [hcondT] at h
          simp only [if_true] at h
          have hnone : ∀ z ∈ mm.t, (s.sto z).m.isSome = false := by
            intro z hz
            simpa using List.any_eq_false.1 hany z hz
          have hsto : ∀ y, y ≠ x →
              upd s.sto x ⟨(s.sto x).d, (s.sto x).p, (s.sto x).n, none,
                (s.sto x).v, (s.sto x).e⟩ y = s.sto y :=
            fun y hy => upd_ne _ _ _ _ hy
          have hstox :
              upd s.sto x ⟨(s.sto x).d, (s.sto x).p, (s.sto x).n, none,
                (s.sto x).v, (s.sto x).e⟩ x = ⟨(s.sto x).d, (s.sto x).p,
                (s.sto x).n, none, (s.sto x).v, (s.sto x).e⟩ :=
            upd_get _ _ _
          have hcore :
              SimM σ₀ (upd s.sto x ⟨(s.sto x).d, (s.sto x).p, (s.sto x).n, none,
                (s.sto x).v, (s.sto x).e⟩) ∧
              (∀ y mmy, (upd s.sto x ⟨(s.sto x).d, (s.sto x).p, (s.sto x).n,
                  none, (s.sto x).v, (s.sto x).e⟩ y).m = some mmy →
                mmy.l = [] ∧ (∀ z ∈ mmy.t, y ∈ dKeys σ₀ z) ∧
                (y ≠ a → mmy.u = false)) ∧
              (∀ z, (upd s.sto x ⟨(s.sto x).d, (s.sto x).p, (s.sto x).n, none,
                  (s.sto x).v, (s.sto x).e⟩ z).m.isSome → ∀ b ∈ dKeys σ₀ z,
                ∃ mmb, (upd s.sto x ⟨(s.sto x).d, (s.sto x).p, (s.sto x).n,
                  none, (s.sto x).v, (s.sto x).e⟩ b).m = some mmb ∧ z ∈ mmb.t) ∧
              (∀ y, (upd s.sto x ⟨(s.sto x).d, (s.sto x).p, (s.sto x).n, none,
                  (s.sto x).v, (s.sto x).e⟩ y).m.isSome → (s.sto y).m.isSome) ∧
              LS (upd s.sto x ⟨(s.sto x).d, (s.sto x).p, (s.sto x).n, none,
                (s.sto x).v, (s.sto x).e⟩)
                (((s.sto x).d.map Prod.fst) ++ exc) := by
            refine ⟨?_, ?_, ?_, ?_, ?_⟩
            · intro y
              by_cases hyx : y = x
              · subst hyx
                rw [hstox]
                exact hsim y
              · rw [hsto y hyx]
                exact hsim y
            · intro y mmy hy
              by_cases hyx : y = x
              · subst hyx
                rw [hstox] at hy
                exact absurd hy (by simp)
              · rw [hsto y hyx] at hy
                exact hrec y mmy hy
            · intro z hz b hb
              by_cases hzx : z = x
              · subst hzx
                rw [hstox] at hz
                exact absurd hz (by simp)
              · rw [hsto z hzx] at hz
                obtain ⟨mmb, hmb, hzt⟩ := hcomp z hz b hb
                have hbx : b ≠ x := by
                  intro he
                  rw [he, hm] at hmb
                  have hzt' : z ∈ mm.t := by
                    rw [Option.some.inj hmb]
                    exact hzt
                  have h1 := hnone z hzt'
                  rw [h1] at hz
                  exact absurd hz (by simp)
                refine ⟨mmb, ?_, hzt⟩
                rw [hsto b hbx]
                exact hmb
            · intro y hy
              by_cases hyx : y = x
              · subst hyx
                rw [hstox] at hy
                exact absurd hy (by simp)
              · rw [hsto y hyx] at hy
                exact hy
            · intro y mmy hy hyex
              by_cases hyx : y = x
              · subst hyx
                rw [hstox] at hy
                exact absurd hy (by simp)
              · rw [hsto y hyx] at hy
                have hynd : y ∉ ((s.sto x).d.map Prod.fst) := fun hmem =>
                  hyex (List.mem_append_left _ hmem)
                have hyne : y ∉ exc := fun hmem =>
                  hyex (List.mem_append_right _ hmem)
                obtain ⟨z, hzt, hzm⟩ := hls y mmy hy
                  (fun hmem => (List.mem_cons.1 hmem).elim hyx hyne)
                have hzx : z ≠ x := by
                  intro he
                  have hyk : y ∈ dKeys σ₀ z := (hrec y mmy hy).2.1 z hzt
                  apply hynd
                  rw [(hsim x).1]
                  show y ∈ dKeys σ₀ x
                  rw [← he]
                  exact hyk
                refine ⟨z, hzt, ?_⟩
                rw [hsto z hzx]
                exact hzm
          obtain ⟨hcsim, hcrec, hccomp, hcmono, hcls⟩ := hcore
          by_cases hu : mm.u = true
          · -- the stored cleanup exists: only the subscribed atom can carry one
            have hxa : x = a := by
              by_contra hne
              have h1 := (hrec x mm hm).2.2 hne
              rw [h1] at hu
              exact absurd hu (by simp)
            subst hxa
            simp only [hu, if_true] at h
            cases hud : unmountDepsList E fuel x ((s.sto x).d.map Prod.fst)
                ⟨upd s.sto x ⟨(s.sto x).d, (s.sto x).p, (s.sto x).n, none,
                  (s.sto x).v, (s.sto x).e⟩,
                 s.pend.map (fun p => { p with
                  fns := p.fns ++ [PFn.unmountHookRun x] }),
                 s.log⟩ with
            | none =>
              have h' : (match unmountDepsList E fuel x ((s.sto x).d.map Prod.fst)
                  ⟨upd s.sto x ⟨(s.sto x).d, (s.sto x).p, (s.sto x).n, none,
                    (s.sto x).v, (s.sto x).e⟩,
                   s.pend.map (fun p => { p with
                    fns := p.fns ++ [PFn.unmountHookRun x] }),
                   s.log⟩ with
                  | none => none
                  | some s₃ => some ((none : Option Mounted), s₃)) = some res := h
              rw [hud] at h'
              exact absurd h' (by simp)
            | some s₃ =>
              have h' : (match unmountDepsList E fuel x ((s.sto x).d.map Prod.fst)
                  ⟨upd s.sto x ⟨(s.sto x).d, (s.sto x).p, (s.sto x).n, none,
                    (s.sto x).v, (s.sto x).e⟩,
                   s.pend.map (fun p => { p with
                    fns := p.fns ++ [PFn.unmountHookRun x] }),
                   s.log⟩ with
                  | none => none
                  | some s₃ => some ((none : Option Mounted), s₃)) = some res := h
              rw [hud] at h'
              simp only [Option.some.injEq] at h'
              subst h'
              have hpd : (s.pend.map (fun p => { p with
                  fns := p.fns ++ [PFn.unmountHookRun x] }))
                  = some ⟨[], [], fns ++ [PFn.unmountHookRun x]⟩ := by
                rw [hpeq]
                rfl
              have hucS : uCount s.sto x = 1 := by
                rw [uCount.eq_def, hm]
                simp [hu]
              have hucU : uCount (upd s.sto x ⟨(s.sto x).d, (s.sto x).p,
                  (s.sto x).n, none, (s.sto x).v, (s.sto x).e⟩) x = 0 := by
                rw [uCount.eq_def, hstox]
              have hinvC : UInv σ₀ x c
                  ⟨upd s.sto x ⟨(s.sto x).d, (s.sto x).p, (s.sto x).n, none,
                    (s.sto x).v, (s.sto x).e⟩,
                   s.pend.map (fun p => { p with
                    fns := p.fns ++ [PFn.unmountHookRun x] }),
                   s.log⟩ lg := by
                refine ⟨hcsim, hcrec, hccomp, ?_, hlog⟩
                refine ⟨fns ++ [PFn.unmountHookRun x], hpd, ?_, ?_⟩
                · intro f hf
                  rcases List.mem_append.1 hf with hf' | hf'
                  · exact hpmem f hf'
                  · simp only [List.mem_singleton] at hf'
                    exact hf'
                · show (fns ++ [PFn.unmountHookRun x]).length + uCount (upd s.sto x
                    ⟨(s.sto x).d, (s.sto x).p, (s.sto x).n, none, (s.sto x).v,
                      (s.sto x).e⟩) x = if c then 1 else 0
                  rw [hucU, List.length_append]
                  rw [hucS] at hplen
                  simpa using hplen
              have hx0C : ((⟨upd s.sto x ⟨(s.sto x).d, (s.sto x).p, (s.sto x).n,
                  none, (s.sto x).v, (s.sto x).e⟩,
                  s.pend.map (fun p => { p with
                    fns := p.fns ++ [PFn.unmountHookRun x] }),
                  s.log⟩ : S).sto x).m = none := by
                show (upd s.sto x _ x).m = none
                rw [hstox]
              obtain ⟨hinv2, hmono2, hls2⟩ := ihL x ((s.sto x).d.map Prod.fst)
                _ s₃ exc hinvC hx0C hcls hud
              exact ⟨hinv2, fun y hy => hcmono y (hmono2 y hy), hls2⟩
          · -- no stored cleanup: nothing is queued
            have hu' : mm.u = false := by
              cases hval : mm.u with
              | false => rfl
              | true => exact absurd hval hu
            simp only [hu', Bool.false_eq_true, if_false] at h
            cases hud : unmountDepsList E fuel x ((s.sto x).d.map Prod.fst)
                ⟨upd s.sto x ⟨(s.sto x).d, (s.sto x).p, (s.sto x).n, none,
                  (s.sto x).v, (s.sto x).e⟩, s.pend, s.log⟩ with
            | none =>
              have h' : (match unmountDepsList E fuel x ((s.sto x).d.map Prod.fst)
                  ⟨upd s.sto x ⟨(s.sto x).d, (s.sto x).p, (s.sto x).n, none,
                    (s.sto x).v, (s.sto x).e⟩, s.pend, s.log⟩ with
                  | none => none
                  | some s₃ => some ((none : Option Mounted), s₃)) = some res := h
              rw [hud] at h'
              exact absurd h' (by simp)
            | some s₃ =>
              have h' : (match unmountDepsList E fuel x ((s.sto x).d.map Prod.fst)
                  ⟨upd s.sto x ⟨(s.sto x).d, (s.sto x).p, (s.sto x).n, none,
                    (s.sto x).v, (s.sto x).e⟩, s.pend, s.log⟩ with
                  | none => none
                  | some s₃ => some ((none : Option Mounted), s₃)) = some res := h
              rw [hud] at h'
              simp only [Option.some.injEq] at h'
              subst h'
              have hucEq : uCount (upd s.sto x ⟨(s.sto x).d, (s.sto x).p,
                  (s.sto x).n, none, (s.sto x).v, (s.sto x).e⟩) a
                  = uCount s.sto a := by
                by_cases hax : a = x
                · rw [hax, uCount.eq_def, uCount.eq_def, hstox, hm]
                  simp [hu']
                · rw [uCount.eq_def, uCount.eq_def, hsto a hax]
              have hinvC : UInv σ₀ a c
                  ⟨upd s.sto x ⟨(s.sto x).d, (s.sto x).p, (s.sto x).n, none,
                    (s.sto x).v, (s.sto x).e⟩, s.pend, s.log⟩ lg := by
                refine ⟨hcsim, hcrec, hccomp, ?_, hlog⟩
                refine ⟨fns, hpeq, hpmem, ?_⟩
                show fns.length + uCount (upd s.sto x ⟨(s.sto x).d, (s.sto x).p,
                  (s.sto x).n, none, (s.sto x).v, (s.sto x).e⟩) a
                  = if c then 1 else 0
                rw [hucEq]
                exact hplen
              have hx0C : ((⟨upd s.sto x ⟨(s.sto x).d, (s.sto x).p, (s.sto x).n,
                  none, (s.sto x).v, (s.sto x).e⟩, s.pend, s.log⟩ : S).sto x).m
                  = none := by
                show (upd s.sto x _ x).m = none
                rw [hstox]
              obtain ⟨hinv2, hmono2, hls2⟩ := ihL x ((s.sto x).d.map Prod.fst)
                _ s₃ exc hinvC hx0C hcls hud
              exact ⟨hinv2, fun y hy => hcmono y (hmono2 y hy), hls2⟩
    · -- unmountDepsList
      intro x₀ ds s s' exc hinv hx0 hls h
      match ds with
      | [] =>
        rw [unmountDepsList] at h
        simp only [Option.some.injEq] at h
        subst h
        exact ⟨hinv, fun y hy => hy, hls⟩
      | b :: rest =>
        rw [unmountDepsList] at h
        cases hua : unmountAtom E fuel b s with
        | none => rw [hua] at h; exact absurd h (by simp)
        | some ures =>
          obtain ⟨ur, us⟩ := ures
          rw [hua] at h
          simp only [] at h
          obtain ⟨hinv1, hmono1, hls1⟩ := ihU b s (ur, us) (rest ++ exc) hinv hls hua
          have hx0' : (us.sto x₀).m = none := by
            cases hmx : (us.sto x₀).m with
            | none => rfl
            | some mmx =>
              have := hmono1 x₀ (by rw [hmx]; rfl)
              rw [hx0] at this
              exact absurd this (by simp)
          cases ur with
          | none =>
            simp only [] at h
            obtain ⟨hinv2, hmono2, hls2⟩ := ihL x₀ rest us s' exc hinv1 hx0' hls1 h
            exact ⟨hinv2, fun y hy => hmono1 y (hmono2 y hy), hls2⟩
          | some urec =>
            simp only [] at h
            cases hmb : (us.sto b).m with
            | none =>
              simp only [hmb] at h
              obtain ⟨hinv2, hmono2, hls2⟩ := ihL x₀ rest us s' exc hinv1 hx0' hls1 h
              exact ⟨hinv2, fun y hy => hmono1 y (hmono2 y hy), hls2⟩
            | some mmb =>
              simp only [hmb] at h
              obtain ⟨hsim1, hrec1, hcomp1, hpend1, hlog1⟩ := hinv1
              have hbx0 : b ≠ x₀ := by
                intro he
                rw [he, hx0'] at hmb
                exact absurd hmb (by simp)
              have hupb : upd us.sto b { us.sto b with
                  m := some { mmb with t := mmb.t.erase x₀ } } b
                  = { us.sto b with m := some { mmb with t := mmb.t.erase x₀ } } :=
                upd_get _ _ _
              have hupne : ∀ y, y ≠ b → upd us.sto b { us.sto b with
                  m := some { mmb with t := mmb.t.erase x₀ } } y = us.sto y :=
                fun y hy => upd_ne _ _ _ _ hy
              have hproj : ({ us.sto b with
                  m := some { mmb with t := mmb.t.erase x₀ } } : AtomSt).m
                  = some { mmb with t := mmb.t.erase x₀ } := rfl
              have hiff : ∀ w, (upd us.sto b { us.sto b with
                  m := some { mmb with t := mmb.t.erase x₀ } } w).m.isSome
                  ↔ (us.sto w).m.isSome := by
                intro w
                by_cases hwb : w = b
                · subst hwb
                  rw [hupb, hproj, hmb]
                  simp
                · rw [hupne w hwb]
              have hinvE : UInv σ₀ a c { us with
                  sto := upd us.sto b
                    ({ us.sto b with m := some { mmb with t := mmb.t.erase x₀ } }) }
                  lg := by
                refine ⟨?_, ?_, ?_, ?_, hlog1⟩
                · intro y
                  show (upd _ _ _ y).d = _ ∧ (upd _ _ _ y).p = _ ∧
                    (upd _ _ _ y).n = _ ∧ (upd _ _ _ y).v = _ ∧ (upd _ _ _ y).e = _
                  by_cases hyb : y = b
                  · subst hyb
                    rw [hupb]
                    exact hsim1 y
                  · rw [hupne y hyb]
                    exact hsim1 y
                · intro y mmy hy
                  show mmy.l = [] ∧ (∀ z ∈ mmy.t, y ∈ dKeys σ₀ z) ∧
                    (y ≠ a → mmy.u = false)
                  by_cases hyb : y = b
                  · subst hyb
                    have hy' : (upd us.sto y { us.sto y with
                        m := some { mmb with t := mmb.t.erase x₀ } } y).m
                        = some mmy := hy
                    rw [hupb, hproj] at hy'
                    have hmy : mmy = { mmb with t := mmb.t.erase x₀ } :=
                      (Option.some.inj hy').symm
                    subst hmy
                    obtain ⟨h1, h2, h3⟩ := hrec1 y mmb hmb
                    exact ⟨h1, fun z hz => h2 z (List.mem_of_mem_erase hz), h3⟩
                  · have hy' : (upd us.sto b { us.sto b with
                        m := some { mmb with t := mmb.t.erase x₀ } } y).m
                        = some mmy := hy
                    rw [hupne y hyb] at hy'
                    exact hrec1 y mmy hy'
                · intro z hz bq hbq
                  have hz' : (us.sto z).m.isSome := by
                    rw [← hiff z]
                    exact hz
                  obtain ⟨mmq, hmq, hzt⟩ := hcomp1 z hz' bq hbq
                  have hzne : z ≠ x₀ := by
                    intro he
                    rw [he, hx0'] at hz'
                    exact absurd hz' (by simp)
                  by_cases hqb : bq = b
                  · subst hqb
                    have hmbeq : mmq = mmb := by
                      rw [hmq] at hmb
                      exact Option.some.inj hmb
                    refine ⟨{ mmb with t := mmb.t.erase x₀ }, ?_, ?_⟩
                    · show (upd us.sto bq _ bq).m = _
                      rw [hupb]
                    · show z ∈ mmb.t.erase x₀
                      rw [List.mem_erase_of_ne hzne]
                      rw [← hmbeq]
                      exact hzt
                  · refine ⟨mmq, ?_, hzt⟩
                    show (upd us.sto b _ bq).m = some mmq
                    rw [hupne bq hqb]
                    exact hmq
                · obtain ⟨fns1, hp1, hp1m, hp1l⟩ := hpend1
                  refine ⟨fns1, hp1, hp1m, ?_⟩
                  rw [← hp1l]
                  have : uCount (upd us.sto b { us.sto b with
                      m := some { mmb with t := mmb.t.erase x₀ } }) a
                      = uCount us.sto a := by
                    by_cases hab : a = b
                    · rw [hab, uCount.eq_def, uCount.eq_def, hupb, hproj, hmb]
                    · rw [uCount.eq_def, uCount.eq_def, hupne a hab]
                  rw [this]
              have hx0E : (({ us with
                  sto := upd us.sto b
                    ({ us.sto b with m := some { mmb with t := mmb.t.erase x₀ } }) }
                  : S).sto x₀).m = none := by
                show (upd us.sto b _ x₀).m = none
                rw [hupne x₀ (fun he => hbx0 he.symm)]
                exact hx0'
              have hlsE : LS (({ us with
                  sto := upd us.sto b
                    ({ us.sto b with m := some { mmb with t := mmb.t.erase x₀ } }) }
                  : S).sto) (rest ++ exc) := by
                intro y mmy hy hyex
                show ∃ z ∈ mmy.t, (upd us.sto b _ z).m.isSome
                by_cases hyb : y = b
                · subst hyb
                  have hy' : (upd us.sto y { us.sto y with
                      m := some { mmb with t := mmb.t.erase x₀ } } y).m
                      = some mmy := hy
                  rw [hupb, hproj] at hy'
                  have hmy : mmy = { mmb with t := mmb.t.erase x₀ } :=
                    (Option.some.inj hy').symm
                  obtain ⟨z, hzt, hzm⟩ := hls1 y mmb hmb hyex
                  have hzne : z ≠ x₀ := by
                    intro he
                    rw [he, hx0'] at hzm
                    exact absurd hzm (by simp)
                  refine ⟨z, ?_, (hiff z).2 hzm⟩
                  rw [hmy]
                  show z ∈ mmb.t.erase x₀
                  rw [List.mem_erase_of_ne hzne]
                  exact hzt
                · have hy' : (upd us.sto b { us.sto b with
                      m := some { mmb with t := mmb.t.erase x₀ } } y).m
                      = some mmy := hy
                  rw [hupne y hyb] at hy'
                  obtain ⟨z, hzt, hzm⟩ := hls1 y mmy hy' hyex
                  exact ⟨z, hzt, (hiff z).2 hzm⟩
              obtain ⟨hinv2, hmono2, hls2⟩ := ihL x₀ rest
                ({ us with
                  sto := upd us.sto b
                    ({ us.sto b with m := some { mmb with t := mmb.t.erase x₀ } }) })
                s' exc hinvE hx0E hlsE h
              refine ⟨hinv2, ?_, hls2⟩
              intro y hy
              have := hmono2 y hy
              have hy' : (upd us.sto b { us.sto b with
                  m := some { mmb with t := mmb.t.erase x₀ } } y).m.isSome := this
              exact hmono1 y ((hiff y).1 hy')

/-- Live support with no exceptions, sound dependent edges, and a rank
function increasing toward dependencies force the mounted set to be empty. -/
theorem no_mounted_of_LS (σ₀ σ : Store) (rank : AtomId → Nat)
    (hrank : ∀ y, ∀ b ∈ dKeys σ₀ y, rank y < rank b)
    (hsound : ∀ x mm, (σ x).m = some mm → ∀ z ∈ mm.t, x ∈ dKeys σ₀ z)
    (hls : LS σ []) : ∀ x, (σ x).m = none := by
  have key : ∀ n x, rank x < n → (σ x).m = none := by
    intro n
    induction n with
    | zero => intro x hx; exact absurd hx (Nat.not_lt_zero _)
    | succ n ih =>
      intro x hx
      cases hmx : (σ x).m with
      | none => rfl
      | some mm =>
        obtain ⟨z, hzt, hzm⟩ := hls x mm hmx (List.not_mem_nil x)
        have hxk : x ∈ dKeys σ₀ z := hsound x mm hmx z hzt
        have hlt : rank z < rank x := hrank z x hxk
        have hz : (σ z).m = none := ih z (by omega)
        rw [hz] at hzm
        exact absurd hzm (by simp)
  intro x
  exact key (rank x + 1) x (Nat.lt_succ_self _)

/-- A list all of whose members equal `g` is determined by its length. -/
theorem fns_singleton (fns : List PFn) (g : PFn) (hmem : ∀ f ∈ fns, f = g) :
    (fns.length = 0 → fns = []) ∧ (fns.length = 1 → fns = [g]) := by
  match fns with
  | [] => exact ⟨fun _ => rfl, fun h => by simp at h⟩
  | f :: rest =>
    refine ⟨fun h => by simp at h, fun h => ?_⟩
    have hf : f = g := hmem f (List.mem_cons_self f rest)
    have hrest : rest = [] := by
      have h1 : rest.length = 0 := by
        simp only [List.length_cons] at h
        omega
      exact List.length_eq_zero.1 h1
    rw [hf, hrest]

/-- A deferred hook runner never touches the pending object. -/
theorem runPFn_pend (E : Env) (s : S) (f : PFn) : (runPFn E s f).pend = s.pend := by
  cases f with
  | mountHookRun a =>
    cases hm : (s.sto a).m with
    | some mm =>
      by_cases hc : (E a).onMountCleanup = true <;> simp [runPFn, hm, hc]
    | none =>
      by_cases hc : (E a).onMountCleanup = true <;> simp [runPFn, hm, hc]
  | unmountHookRun a => rfl

/-- The `onMount` runner appends exactly the mount-hook event. -/
theorem runPFn_mount_log (E : Env) (s : S) (a : AtomId) :
    (runPFn E s (.mountHookRun a)).log = s.log ++ [Event.mountHook a] := by
  cases hm : (s.sto a).m with
  | some mm =>
    by_cases hc : (E a).onMountCleanup = true <;> simp [runPFn, hm, hc]
  | none =>
    by_cases hc : (E a).onMountCleanup = true <;> simp [runPFn, hm, hc]

/-- The `onUnmount` runner appends exactly the cleanup event. -/
theorem runPFn_unmount_log (E : Env) (s : S) (a : AtomId) :
    (runPFn E s (.unmountHookRun a)).log = s.log ++ [Event.cleanup a] := rfl

/-- The `onUnmount` runner never touches the store. -/
theorem runPFn_unmount_sto (E : Env) (s : S) (a : AtomId) :
    (runPFn E s (.unmountHookRun a)).sto = s.sto := rfl

/-- Flushing an empty pending object is a no-op. -/
theorem flushPending_empty (E : Env) (fuel : Nat) (s : S)
    (hp : s.pend = some ⟨[], [], []⟩) :
    flushPending E (fuel + 1) s = some s := by
  rw [flushPending, hp]
  rfl

/-- Flushing a pending object holding no notifications and one deferred
function runs that function once and stops. -/
theorem flushPending_one (E : Env) (fuel : Nat) (s : S) (fn : PFn)
    (hp : s.pend = some ⟨[], [], [fn]⟩) :
    flushPending E (fuel + 2) s
      = some (runPFn E { s with pend := some Pend.empty } fn) := by
  rw [flushPending, hp]
  show flushPending E (fuel + 1) (runPFn E { s with pend := some Pend.empty } fn)
    = some (runPFn E { s with pend := some Pend.empty } fn)
  apply flushPending_empty
  rw [runPFn_pend]
  rfl

end Jotai

namespace Jotai

/-- `unsubscribeAtom` on a mounted atom: erase the listener, clear the
pending object, unmount, flush. -/
theorem unsubscribeAtom_eq (E : Env) (fuel : Nat) (a : AtomId) (ℓ : Nat)
    (s : S) (mm : Mounted) (hm : (s.sto a).m = some mm) :
    unsubscribeAtom E fuel a ℓ s
      = (match unmountAtom E fuel a ⟨upd s.sto a ⟨(s.sto a).d, (s.sto a).p,
          (s.sto a).n, some ⟨mm.l.erase ℓ, mm.d, mm.t, mm.u⟩, (s.sto a).v,
          (s.sto a).e⟩, some Pend.empty, s.log⟩ with
        | none => none
        | some (_, s') => flushPending E fuel s') := by
  rw [unsubscribeAtom]
  simp only [hm]

/-- A successful flush of an empty pending object returns the state itself. -/
theorem flushPending_empty_inv (E : Env) (fuel : Nat) (s r : S)
    (hp : s.pend = some ⟨[], [], []⟩) (h : flushPending E fuel s = some r) :
    r = s := by
  match fuel with
  | 0 => simp [flushPending] at h
  | fuel + 1 =>
    rw [flushPending_empty E fuel s hp] at h
    exact (Option.some.inj h).symm

/-- A successful flush of a pending object holding exactly one deferred
function runs that function once. -/
theorem flushPending_one_inv (E : Env) (fuel : Nat) (s r : S) (fn : PFn)
    (hp : s.pend = some ⟨[], [], [fn]⟩) (h : flushPending E fuel s = some r) :
    r = runPFn E { s with pend := some Pend.empty } fn := by
  match fuel with
  | 0 => simp [flushPending] at h
  | fuel + 1 =>
    rw [flushPending, hp] at h
    have h' : flushPending E fuel (runPFn E { s with pend := some Pend.empty } fn)
        = some r := h
    exact flushPending_empty_inv E fuel _ r (by rw [runPFn_pend]; rfl) h'

/-- The `onMount` runner when the hook returns a cleanup: the mounted record
of the hooked atom stores it in `u`. -/
theorem runPFn_mount_sto_cl (E : Env) (s : S) (a : AtomId) (mm : Mounted)
    (hcl : (E a).onMountCleanup = true) (hm : (s.sto a).m = some mm) :
    (runPFn E s (.mountHookRun a)).sto
      = upd s.sto a { s.sto a with m := some { mm with u := true } } := by
  simp [runPFn, hcl, hm]

/-- The `onMount` runner when the hook returns no cleanup leaves the store
untouched. -/
theorem runPFn_mount_sto_nocl (E : Env) (s : S) (a : AtomId)
    (hcl : (E a).onMountCleanup = false) :
    (runPFn E s (.mountHookRun a)).sto = s.sto := by
  simp [runPFn, hcl]

theorem listAdd_nil (x : Nat) : listAdd [] x = [x] := by
  simp [listAdd]

end Jotai

namespace Jotai

/-- **C7.**  On an initially unmounted, epoch-settled, acyclic store,
subscribing a listener to an atom and then running the returned unsubscribe
closure leaves no atom mounted (the atom and every dependency mounted on its
behalf are unmounted), and the `onMount` hook's returned cleanup is invoked
exactly once: the final log extends the initial one by one `mountHook` event
when the writable atom has an `onMount` hook, and one `cleanup` event exactly
when that hook returned a cleanup. -/
theorem c7_mount_unmount_symmetry (E : Env) (σ₀ : Store) (L : List AtomId)
    (a : AtomId) (rank : AtomId → Nat) (ℓ : Nat) (p₀ : Option Pend)
    (lg₀ : List Event) (fuelS fuelU : Nat) (s₁ s₂ : S)
    (hM0 : ∀ x, (σ₀ x).m = none)
    (ha : a ∈ L)
    (hC : Closed σ₀ L)
    (hrank : ∀ y, ∀ b ∈ dKeys σ₀ y, rank y < rank b)
    (hhooks : ∀ x, x ≠ a → (E x).onMount = false)
    (hsub : subscribeAtom E fuelS a ℓ ⟨σ₀, p₀, lg₀⟩ = some s₁)
    (huns : unsubscribeAtom E fuelU a ℓ s₁ = some s₂) :
    (∀ x, (s₂.sto x).m = none) ∧
    s₂.log = lg₀
      ++ (if (E a).write.isSome && (E a).onMount then [Event.mountHook a] else [])
      ++ (if ((E a).write.isSome && (E a).onMount) && (E a).onMountCleanup
          then [Event.cleanup a] else []) := by
  rw [subscribeAtom] at hsub
  simp only [] at hsub
  cases hma : mountAtom E fuelS a ⟨σ₀, some Pend.empty, lg₀⟩ with
  | none => rw [hma] at hsub; exact absurd hsub (by simp)
  | some mres =>
    obtain ⟨mmr, sM⟩ := mres
    rw [hma] at hsub
    simp only [] at hsub
    have hMInv0 : MInv E σ₀ L a ⟨σ₀, some Pend.empty, lg₀⟩ lg₀ := by
      refine ⟨fun x => ⟨rfl, rfl, rfl, rfl, rfl⟩, ?_, ?_, ?_, ?_, rfl⟩
      · intro x hx
        have hx' : (σ₀ x).m.isSome := hx
        rw [hM0 x] at hx'
        exact absurd hx' (by simp)
      · intro x mm hmx
        have hmx' : (σ₀ x).m = some mm := hmx
        rw [hM0 x] at hmx'
        exact absurd hmx' (by simp)
      · intro z hz
        have hz' : (σ₀ z).m.isSome := hz
        rw [hM0 z] at hz'
        exact absurd hz' (by simp)
      · refine ⟨[], rfl, by simp, ?_⟩
        have hcond : ¬(((⟨σ₀, some Pend.empty, lg₀⟩ : S).sto a).m.isSome ∧
            (E a).write.isSome ∧ (E a).onMount = true) := by
          intro hcond
          have h1 : (σ₀ a).m.isSome := hcond.1
          rw [hM0 a] at h1
          exact absurd h1 (by simp)
        rw [if_neg hcond]
        rfl
    obtain ⟨hinvM, hmonoM, haM, hjustM, hrankM, htmM⟩ :=
      (mount_spec E σ₀ L a rank hC hrank hhooks lg₀ fuelS).1 a ha
        ⟨σ₀, some Pend.empty, lg₀⟩ (mmr, sM) hMInv0 hma
    obtain ⟨hsimM, hsubLM, hrecM, hcompM, ⟨fnsM, hpM, hpMm, hpMl⟩, hlogM⟩ := hinvM
    have hsimM' : SimM σ₀ sM.sto := hsimM
    have hrecM' : ∀ x mm, (sM.sto x).m = some mm → mm.l = [] ∧ mm.d = dKeys σ₀ x ∧
        mm.u = false ∧ (∀ y ∈ mm.t, x ∈ dKeys σ₀ y) := hrecM
    have hcompM' : ∀ z, (sM.sto z).m.isSome → ∀ b ∈ dKeys σ₀ z,
        ∃ mmb, (sM.sto b).m = some mmb ∧ z ∈ mmb.t := hcompM
    have hjustM' : ∀ y, (sM.sto y).m.isSome → (σ₀ y).m.isSome ∨ y = a ∨
        ∃ z, (sM.sto z).m.isSome ∧ y ∈ dKeys σ₀ z := hjustM
    have haM' : (sM.sto a).m.isSome := haM
    have hpM' : sM.pend = some ⟨[], [], fnsM⟩ := hpM
    have hlogM' : sM.log = lg₀ := hlogM
    obtain ⟨mmA, hmA⟩ := Option.isSome_iff_exists.1 haM'
    obtain ⟨hlA, hdA, huA, htA⟩ := hrecM' a mmA hmA
    cases hfl : flushPending E fuelS sM with
    | none => rw [hfl] at hsub; exact absurd hsub (by simp)
    | some sF =>
      rw [hfl] at hsub
      simp only [] at hsub
      -- bundle of facts about the flushed state
      have hBundle :
          (∀ y, y ≠ a → sF.sto y = sM.sto y) ∧
          (sF.sto a).m = some ⟨mmA.l, mmA.d, mmA.t,
            ((E a).write.isSome && (E a).onMount) && (E a).onMountCleanup⟩ ∧
          sF.pend = some Pend.empty ∧
          sF.log = lg₀
            ++ (if (E a).write.isSome && (E a).onMount
                then [Event.mountHook a] else []) ∧
          SimM σ₀ sF.sto := by
        by_cases hw : (((E a).write.isSome && (E a).onMount) = true)
        · have hww := hw
          simp only [Bool.and_eq_true] at hww
          have hlen1 : fnsM.length = 1 := by
            rw [hpMl, if_pos ⟨haM, hww.1, hww.2⟩]
          have hfns : fnsM = [PFn.mountHookRun a] :=
            (fns_singleton fnsM _ hpMm).2 hlen1
          have hsF : sF = runPFn E { sM with pend := some Pend.empty }
              (.mountHookRun a) :=
            flushPending_one_inv E fuelS sM sF _ (by rw [hpM', hfns]) hfl
          have hlogF : sF.log = lg₀ ++ [Event.mountHook a] := by
            rw [hsF, runPFn_mount_log]
            show sM.log ++ _ = _
            rw [hlogM']
          have hpendF : sF.pend = some Pend.empty := by
            rw [hsF, runPFn_pend]
          by_cases hcl : ((E a).onMountCleanup = true)
          · have hFsto : sF.sto = upd sM.sto a { sM.sto a with
                m := some { mmA with u := true } } := by
              rw [hsF]
              exact runPFn_mount_sto_cl E { sM with pend := some Pend.empty }
                a mmA hcl hmA
            refine ⟨?_, ?_, hpendF, ?_, ?_⟩
            · intro y hy
              rw [hFsto, upd_ne _ _ _ _ hy]
            · rw [hFsto, upd_get]
              show some { mmA with u := true } = _
              rw [hw, hcl]
              rfl
            · rw [hlogF, if_pos hw]
            · intro y
              by_cases hy : y = a
              · subst hy
                rw [hFsto, upd_get]
                exact hsimM' y
              · rw [hFsto, upd_ne _ _ _ _ hy]
                exact hsimM' y
          · have hcl' : (E a).onMountCleanup = false := by
              cases hv : (E a).onMountCleanup with
              | false => rfl
              | true => exact absurd hv hcl
            have hFsto : sF.sto = sM.sto := by
              rw [hsF]
              exact runPFn_mount_sto_nocl E { sM with pend := some Pend.empty }
                a hcl'
            refine ⟨fun y _ => by rw [hFsto], ?_, hpendF, ?_, ?_⟩
            · rw [hFsto, hmA, hw, hcl']
              show some mmA = some ⟨mmA.l, mmA.d, mmA.t, false⟩
              rw [← huA]
            · rw [hlogF, if_pos hw]
            · rw [hFsto]
              exact hsimM'
        · have hlen0 : fnsM.length = 0 := by
            rw [hpMl, if_neg ?_]
            intro hc
            exact hw (by simp [hc.2.1, hc.2.2])
          have hfns : fnsM = [] := (fns_singleton fnsM (.mountHookRun a) hpMm).1 hlen0
          have hsF : sF = sM :=
            flushPending_empty_inv E fuelS sM sF (by rw [hpM', hfns]) hfl
          have hw' : ((E a).write.isSome && (E a).onMount) = false := by
            cases hv : ((E a).write.isSome && (E a).onMount) with
            | false => rfl
            | true => exact absurd hv hw
          refine ⟨fun y _ => by rw [hsF], ?_, ?_, ?_, ?_⟩
          · rw [hsF, hmA, hw']
            show some mmA = some ⟨mmA.l, mmA.d, mmA.t, false⟩
            rw [← huA]
          · rw [hsF, hpM', hfns]
            rfl
          · rw [hsF, hlogM', if_neg ?_]
            · rw [List.append_nil]
            · rw [hw']
              simp
          · rw [hsF]
            exact hsimM'
      obtain ⟨hB1, hB2, hB3, hB4, hB5⟩ := hBundle
      -- the listener is added to the mounted record
      rw [hB2] at hsub
      simp only [] at hsub
      rw [hlA, listAdd_nil ℓ] at hsub
      have hs1 : s₁ = ⟨upd sF.sto a ⟨(sF.sto a).d, (sF.sto a).p, (sF.sto a).n,
          some ⟨[ℓ], mmA.d, mmA.t,
            ((E a).write.isSome && (E a).onMount) && (E a).onMountCleanup⟩,
          (sF.sto a).v, (sF.sto a).e⟩, sF.pend, sF.log⟩ :=
        (Option.some.inj hsub).symm
      have hs1afields : s₁.sto a = ⟨(sF.sto a).d, (sF.sto a).p, (sF.sto a).n,
          some ⟨[ℓ], mmA.d, mmA.t,
            ((E a).write.isSome && (E a).onMount) && (E a).onMountCleanup⟩,
          (sF.sto a).v, (sF.sto a).e⟩ := by
        rw [hs1]
        show upd sF.sto a _ a = _
        rw [upd_get]
      have hs1ne : ∀ y, y ≠ a → s₁.sto y = sF.sto y := by
        intro y hy
        rw [hs1]
        show upd sF.sto a _ y = _
        rw [upd_ne _ _ _ _ hy]
      have hs1log : s₁.log = sF.log := by rw [hs1]
      have hm1 : (s₁.sto a).m = some ⟨[ℓ], mmA.d, mmA.t,
          ((E a).write.isSome && (E a).onMount) && (E a).onMountCleanup⟩ := by
        rw [hs1afields]
      rw [unsubscribeAtom_eq E fuelU a ℓ s₁ ⟨[ℓ], mmA.d, mmA.t,
        ((E a).write.isSome && (E a).onMount) && (E a).onMountCleanup⟩ hm1] at huns
      simp only [] at huns
      rw [show ([ℓ] : List Nat).erase ℓ = [] from by simp] at huns
      cases hua : unmountAtom E fuelU a ⟨upd s₁.sto a ⟨(s₁.sto a).d,
          (s₁.sto a).p, (s₁.sto a).n, some ⟨[], mmA.d, mmA.t,
            ((E a).write.isSome && (E a).onMount) && (E a).onMountCleanup⟩,
          (s₁.sto a).v, (s₁.sto a).e⟩, some Pend.empty, s₁.log⟩ with
      | none => rw [hua] at huns; exact absurd huns (by simp)
      | some upr =>
        obtain ⟨ur, s₃⟩ := upr
        rw [hua] at huns
        simp only [] at huns
        have hUget : upd s₁.sto a ⟨(s₁.sto a).d, (s₁.sto a).p, (s₁.sto a).n,
            some ⟨[], mmA.d, mmA.t,
              ((E a).write.isSome && (E a).onMount) && (E a).onMountCleanup⟩,
            (s₁.sto a).v, (s₁.sto a).e⟩ a
            = ⟨(s₁.sto a).d, (s₁.sto a).p, (s₁.sto a).n,
            some ⟨[], mmA.d, mmA.t,
              ((E a).write.isSome && (E a).onMount) && (E a).onMountCleanup⟩,
            (s₁.sto a).v, (s₁.sto a).e⟩ := upd_get _ _ _
        have hs1fields : (s₁.sto a).d = (sF.sto a).d ∧ (s₁.sto a).p = (sF.sto a).p ∧
            (s₁.sto a).n = (sF.sto a).n ∧ (s₁.sto a).v = (sF.sto a).v ∧
            (s₁.sto a).e = (sF.sto a).e := by
          rw [hs1afields]
          exact ⟨rfl, rfl, rfl, rfl, rfl⟩
        have hMiff : ∀ w, (upd s₁.sto a ⟨(s₁.sto a).d, (s₁.sto a).p, (s₁.sto a).n,
            some ⟨[], mmA.d, mmA.t,
              ((E a).write.isSome && (E a).onMount) && (E a).onMountCleanup⟩,
            (s₁.sto a).v, (s₁.sto a).e⟩ w).m.isSome ↔ (sM.sto w).m.isSome := by
          intro w
          by_cases hwa : w = a
          · subst hwa
            rw [hUget, hmA]
            simp
          · rw [upd_ne _ _ _ _ hwa, hs1ne w hwa, hB1 w hwa]
        have hUInv : UInv σ₀ a
            (((E a).write.isSome && (E a).onMount) && (E a).onMountCleanup)
            ⟨upd s₁.sto a ⟨(s₁.sto a).d, (s₁.sto a).p, (s₁.sto a).n,
              some ⟨[], mmA.d, mmA.t,
                ((E a).write.isSome && (E a).onMount) && (E a).onMountCleanup⟩,
              (s₁.sto a).v, (s₁.sto a).e⟩, some Pend.empty, s₁.log⟩
            (lg₀ ++ (if (E a).write.isSome && (E a).onMount
              then [Event.mountHook a] else [])) := by
          refine ⟨?_, ?_, ?_, ?_, ?_⟩
          · intro y
            by_cases hya : y = a
            · subst hya
              show (upd s₁.sto y _ y).d = _ ∧ (upd s₁.sto y _ y).p = _ ∧
                (upd s₁.sto y _ y).n = _ ∧ (upd s₁.sto y _ y).v = _ ∧
                (upd s₁.sto y _ y).e = _
              rw [hUget]
              exact ⟨hs1fields.1.trans (hB5 y).1,
                hs1fields.2.1.trans (hB5 y).2.1,
                hs1fields.2.2.1.trans (hB5 y).2.2.1,
                hs1fields.2.2.2.1.trans (hB5 y).2.2.2.1,
                hs1fields.2.2.2.2.trans (hB5 y).2.2.2.2⟩
            · show (upd s₁.sto a _ y).d = _ ∧ (upd s₁.sto a _ y).p = _ ∧
                (upd s₁.sto a _ y).n = _ ∧ (upd s₁.sto a _ y).v = _ ∧
                (upd s₁.sto a _ y).e = _
              rw [upd_ne _ _ _ _ hya, hs1ne y hya, hB1 y hya]
              exact hsimM' y
          · intro y mmy hy
            have hy' : (upd s₁.sto a ⟨(s₁.sto a).d, (s₁.sto a).p, (s₁.sto a).n,
                some ⟨[], mmA.d, mmA.t,
                  ((E a).write.isSome && (E a).onMount) && (E a).onMountCleanup⟩,
                (s₁.sto a).v, (s₁.sto a).e⟩ y).m = some mmy := hy
            by_cases hya : y = a
            · subst hya
              rw [hUget] at hy'
              have hmy : mmy = ⟨[], mmA.d, mmA.t,
                  ((E y).write.isSome && (E y).onMount) && (E y).onMountCleanup⟩ :=
                (Option.some.inj hy').symm
              subst hmy
              exact ⟨rfl, fun z hz => htA z hz, fun hne => absurd rfl hne⟩
            · rw [upd_ne _ _ _ _ hya, hs1ne y hya, hB1 y hya] at hy'
              obtain ⟨h1, _, h3, h4⟩ := hrecM' y mmy hy'
              exact ⟨h1, h4, fun _ => h3⟩
          · intro z hz b hb
            have hz' : (upd s₁.sto a ⟨(s₁.sto a).d, (s₁.sto a).p, (s₁.sto a).n,
                some ⟨[], mmA.d, mmA.t,
                  ((E a).write.isSome && (E a).onMount) && (E a).onMountCleanup⟩,
                (s₁.sto a).v, (s₁.sto a).e⟩ z).m.isSome := hz
            obtain ⟨mmb, hmb, hzt⟩ := hcompM' z ((hMiff z).1 hz') b hb
            by_cases hba : b = a
            · subst hba
              have hmbA : mmb = mmA := by
                rw [hmb] at hmA
                exact Option.some.inj hmA
              refine ⟨⟨[], mmA.d, mmA.t,
                ((E b).write.isSome && (E b).onMount) && (E b).onMountCleanup⟩,
                ?_, ?_⟩
              · show (upd s₁.sto b _ b).m = _
                rw [hUget]
              · show z ∈ mmA.t
                rw [← hmbA]
                exact hzt
            · refine ⟨mmb, ?_, hzt⟩
              show (upd s₁.sto a _ b).m = some mmb
              rw [upd_ne _ _ _ _ hba, hs1ne b hba, hB1 b hba]
              exact hmb
          · refine ⟨[], rfl, by simp, ?_⟩
            show ([] : List PFn).length + uCount (upd s₁.sto a ⟨(s₁.sto a).d,
              (s₁.sto a).p, (s₁.sto a).n, some ⟨[], mmA.d, mmA.t,
                ((E a).write.isSome && (E a).onMount) && (E a).onMountCleanup⟩,
              (s₁.sto a).v, (s₁.sto a).e⟩) a
              = if ((E a).write.isSome && (E a).onMount) && (E a).onMountCleanup
                then 1 else 0
            rw [uCount.eq_def, hUget]
            cases hcb : (((E a).write.isSome && (E a).onMount)
                && (E a).onMountCleanup) <;> simp [hcb]
          · show s₁.log = _
            rw [hs1log, hB4]
        have hLSU : LS (upd s₁.sto a ⟨(s₁.sto a).d, (s₁.sto a).p, (s₁.sto a).n,
            some ⟨[], mmA.d, mmA.t,
              ((E a).write.isSome && (E a).onMount) && (E a).onMountCleanup⟩,
            (s₁.sto a).v, (s₁.sto a).e⟩) [a] := by
          intro y mmy hy hyex
          have hya : y ≠ a := fun he => hyex (by rw [he]; exact List.mem_singleton_self a)
          have hy' : (upd s₁.sto a ⟨(s₁.sto a).d, (s₁.sto a).p, (s₁.sto a).n,
              some ⟨[], mmA.d, mmA.t,
                ((E a).write.isSome && (E a).onMount) && (E a).onMountCleanup⟩,
              (s₁.sto a).v, (s₁.sto a).e⟩ y).m = some mmy := hy
          rw [upd_ne _ _ _ _ hya, hs1ne y hya, hB1 y hya] at hy'
          rcases hjustM' y (by rw [hy']; rfl) with h' | h' | ⟨z, hzm, hyk⟩
          · rw [hM0 y] at h'
            exact absurd h' (by simp)
          · exact absurd h' hya
          · obtain ⟨mmy2, hmy2, hzty⟩ := hcompM' z hzm y hyk
            have hmyy : mmy2 = mmy := by
              rw [hmy2] at hy'
              exact Option.some.inj hy'
            refine ⟨z, by rw [← hmyy]; exact hzty, ?_⟩
            exact (hMiff z).2 hzm
        obtain ⟨hinvU, hmonoU, hlsU⟩ :=
          (unmount_spec E σ₀ a
            (((E a).write.isSome && (E a).onMount) && (E a).onMountCleanup)
            (lg₀ ++ (if (E a).write.isSome && (E a).onMount
              then [Event.mountHook a] else [])) fuelU).1 a
            ⟨upd s₁.sto a ⟨(s₁.sto a).d, (s₁.sto a).p, (s₁.sto a).n,
              some ⟨[], mmA.d, mmA.t,
                ((E a).write.isSome && (E a).onMount) && (E a).onMountCleanup⟩,
              (s₁.sto a).v, (s₁.sto a).e⟩, some Pend.empty, s₁.log⟩
            (ur, s₃) [] hUInv hLSU hua
        obtain ⟨hsimU, hrecU, hcompU, ⟨fns3, hp3, hp3m, hp3l⟩, hlog3⟩ := hinvU
        have hrecU' : ∀ x mm, (s₃.sto x).m = some mm → mm.l = [] ∧
            (∀ z ∈ mm.t, x ∈ dKeys σ₀ z) ∧ (x ≠ a → mm.u = false) := hrecU
        have hlsU' : LS s₃.sto [] := hlsU
        have hp3' : s₃.pend = some ⟨[], [], fns3⟩ := hp3
        have hlog3' : s₃.log = lg₀ ++ (if (E a).write.isSome && (E a).onMount
            then [Event.mountHook a] else []) := hlog3
        have hempty : ∀ x, (s₃.sto x).m = none :=
          no_mounted_of_LS σ₀ s₃.sto rank hrank
            (fun x mm hm => (hrecU' x mm hm).2.1) hlsU'
        have huc3 : uCount s₃.sto a = 0 := by
          rw [uCount.eq_def, hempty a]
        have hp3l' : fns3.length + uCount s₃.sto a
            = if ((E a).write.isSome && (E a).onMount) && (E a).onMountCleanup
              then 1 else 0 := hp3l
        rw [huc3] at hp3l'
        have hlen3 : fns3.length
            = if ((E a).write.isSome && (E a).onMount) && (E a).onMountCleanup
              then 1 else 0 := by simpa using hp3l'
        by_cases hcB : ((((E a).write.isSome && (E a).onMount)
            && (E a).onMountCleanup) = true)
        · rw [if_pos hcB] at hlen3
          have hfns3 : fns3 = [PFn.unmountHookRun a] :=
            (fns_singleton fns3 _ hp3m).2 hlen3
          have hs2 : s₂ = runPFn E { s₃ with pend := some Pend.empty }
              (.unmountHookRun a) :=
            flushPending_one_inv E fuelU s₃ s₂ _ (by rw [hp3', hfns3]) huns
          constructor
          · intro x
            rw [hs2, runPFn_unmount_sto]
            exact hempty x
          · rw [hs2, runPFn_unmount_log]
            show s₃.log ++ _ = _
            rw [hlog3', if_pos hcB]
        · rw [if_neg hcB] at hlen3
          have hfns3 : fns3 = [] := (fns_singleton fns3 (.unmountHookRun a) hp3m).1 hlen3
          have hs2 : s₂ = s₃ :=
            flushPending_empty_inv E fuelU s₃ s₂ (by rw [hp3', hfns3]) huns
          constructor
          · intro x
            rw [hs2]
            exact hempty x
          · rw [hs2, hlog3', if_neg hcB, List.append_nil]

end Jotai

namespace Jotai

/-- Witness environment: primitive atom `0`; atom `1` is a writable derived
atom reading `0`, with an `onMount` hook returning a cleanup. -/
def c7wEnv : Env := fun x =>
  if x = 1 then
    { read := .get 0 .ret, init := none,
      write := some fun v => .setW 1 v (.done 0),
      onMount := true, onMountCleanup := true }
  else primAtom x 5

/-- Witness store: both atoms unmounted, initialized, epochs settled. -/
def c7wSto : Store := fun x =>
  match x with
  | 0 => ⟨[], [], 1, none, some 5, none⟩
  | 1 => ⟨[(0, 1)], [], 1, none, some 5, none⟩
  | _ => AtomSt.fresh

def c7wRank : AtomId → Nat := fun x => if x = 1 then 0 else 1

theorem c7w_M0 : ∀ x, (c7wSto x).m = none := by
  intro x
  rcases x with _ | _ | x <;> rfl

theorem c7w_closed : Closed c7wSto [0, 1] := by
  unfold Closed
  decide

theorem c7w_rank : ∀ y, ∀ b ∈ dKeys c7wSto y, c7wRank y < c7wRank b := by
  intro y b hb
  rcases y with _ | _ | y
  · simp [dKeys, c7wSto] at hb
  · have hb0 : b = 0 := by
      simpa [dKeys, c7wSto] using hb
    subst hb0
    decide
  · simp [dKeys, c7wSto, AtomSt.fresh] at hb

theorem c7w_hooks : ∀ x, x ≠ 1 → (c7wEnv x).onMount = false := by
  intro x hx
  rcases x with _ | _ | x
  · rfl
  · exact absurd rfl hx
  · rfl

set_option maxHeartbeats 4000000 in
theorem c7_mount_unmount_symmetry_witness :
    ∃ s₁ s₂, subscribeAtom c7wEnv 10 1 7 ⟨c7wSto, none, []⟩ = some s₁ ∧
      unsubscribeAtom c7wEnv 10 1 7 s₁ = some s₂ ∧
      (∀ x, (s₂.sto x).m = none) ∧
      s₂.log = [Event.mountHook 1, Event.cleanup 1] := by
  cases h1 : subscribeAtom c7wEnv 10 1 7 ⟨c7wSto, none, []⟩ with
  | none =>
    exact absurd (congrArg Option.isSome h1) (by decide)
  | some s₁ =>
    cases h2 : unsubscribeAtom c7wEnv 10 1 7 s₁ with
    | none =>
      have hbind : (subscribeAtom c7wEnv 10 1 7 ⟨c7wSto, none, []⟩).bind
          (fun t => unsubscribeAtom c7wEnv 10 1 7 t) = none := by
        rw [h1]
        exact h2
      exact absurd (congrArg Option.isSome hbind) (by decide)
    | some s₂ =>
      have hc := c7_mount_unmount_symmetry c7wEnv c7wSto [0, 1] 1 c7wRank 7 none
        [] 10 10 s₁ s₂ c7w_M0 (by simp) c7w_closed c7w_rank c7w_hooks h1 h2
      refine ⟨s₁, s₂, rfl, h2, hc.1, ?_⟩
      rw [hc.2]
      rfl

end Jotai
